import Mathlib

/-!
Verification development for the timeline / scene-normalization / tempo core of
the `drone-night-clip` application.

The JavaScript sources are embedded shallowly:

* JSON-like values (`Jv`) model the scene data flowing through
  `normalizeSceneData` (src/core/sceneData.js).  Numbers are exact rationals;
  the distinguished value `Jv.nan` models the non-finite doubles (`NaN`, and
  the infinities, which the embedded code never distinguishes from `NaN`:
  every consumer either compares — false for `NaN`, matching the collapsed
  model on the paths exercised here — or filters with `Number.isFinite`,
  which rejects all non-finite values uniformly).  `JSON.parse`/`JSON.stringify`
  round-trips guarantee stored numbers are finite, so `Jv` inputs carry plain
  rationals.
* Exceptions of the strict-mode module code (`TypeError` on property writes to
  primitives / reads on `null`) are modelled with `Except`; a loop of the
  source that provably never terminates (`for (t …; t += bd)` with a
  non-positive step) is modelled by the error value `JsErr.divergence`.
* The tempo engine (src/core/tempo.js, = src/unnamed/part_002) keeps its
  bookkeeping in rationals; the sine-valued outputs (`beatPulse`, `wave`,
  `barPulse`, `pulse`) are recovered from the stored phases by real-valued
  projection functions, since the state machine never reads them back.
-/

namespace DroneClip

/-- `TARGET_DURATION` from src/core/config.js (re-declared inline in
src/unnamed/part_003, line `const TARGET_DURATION = 30`). -/
def TARGET_DURATION : ℚ := 30

/-- `DEFAULT_BPM` from src/core/config.js (src/unnamed/part_003:
`const DEFAULT_BPM = 120`). -/
def DEFAULT_BPM : ℚ := 120

/-- `RECORDING_FPS` from src/core/config.js (the recording pipeline locks the
capture stream to 25 fps: `canvas.captureStream(25)` in src/unnamed/part_003
and `captureStream(RECORDING_FPS)` with the "25fps" log line in
src/core/recording.js). -/
def RECORDING_FPS : ℚ := 25

/-- JSON-like JavaScript values.  `nan` stands for the non-finite doubles
(see the module comment). Object fields are an association list; the embedded
code only builds objects with distinct keys. -/
inductive Jv : Type where
  | null : Jv
  | bool (b : Bool) : Jv
  | num (q : ℚ) : Jv
  | nan : Jv
  | str (s : String) : Jv
  | arr (xs : List Jv) : Jv
  | obj (fs : List (String × Jv)) : Jv

/-- JavaScript numbers as used by the embedding: `none` is a non-finite
double (`NaN`; infinities collapsed, see module comment). -/
abbrev JNum := Option ℚ

/-- Errors of the embedded strict-mode code: `typeError` for the TypeErrors
thrown by property access, `divergence` for source loops that never
terminate. -/
inductive JsErr : Type where
  | typeError : JsErr
  | divergence : JsErr
deriving DecidableEq, Repr

/-- JavaScript truthiness of a `Jv` (ECMAScript `ToBoolean`). -/
def Jv.truthy : Jv → Bool
  | .null => false
  | .bool b => b
  | .num q => q ≠ 0
  | .nan => false
  | .str s => s ≠ ""
  | .arr _ => true
  | .obj _ => true

/-- Truthiness of a possibly-`undefined` value (`none` = `undefined`). -/
def optTruthy : Option Jv → Bool
  | some v => v.truthy
  | none => false

/-- `x || d` on a possibly-`undefined` `x`. -/
def jsOr (x : Option Jv) (d : Jv) : Jv :=
  match x with
  | some v => if v.truthy then v else d
  | none => d

/-- First-occurrence association-list lookup (JS own-property read). -/
def lookupField : List (String × Jv) → String → Option Jv
  | [], _ => none
  | (k, v) :: fs, key => if k = key then some v else lookupField fs key

/-- Association-list update-or-append (JS own-property write). -/
def setField : List (String × Jv) → String → Jv → List (String × Jv)
  | [], key, v => [(key, v)]
  | (k, w) :: fs, key, v =>
      if k = key then (k, v) :: fs else (k, w) :: setField fs key v

/-- Property read `o[k]` for a named key.  Reads on `null` throw a
`TypeError`; reads on other primitives yield `undefined` (`none`).  Named
(non-index) properties of arrays are `undefined` here: the embedded code
never installs expando properties on arrays. -/
def readProp : Jv → String → Except JsErr (Option Jv)
  | .null, _ => .error .typeError
  | .obj fs, k => .ok (lookupField fs k)
  | _, _ => .ok none

/-- Property write `o[k] = v`.  In strict mode (all these files are ES
modules) writes to `null` or to primitives throw a `TypeError`.  Writes of
named properties to arrays are not representable in this tree model and are
mapped to `typeError` as well; no theorem below depends on array-rooted
inputs. -/
def setProp : Jv → String → Jv → Except JsErr Jv
  | .obj fs, k, v => .ok (.obj (setField fs k v))
  | _, _, _ => .error .typeError

/-- List update at an index, used for `shot.time[i] = v` (the filtered shots
always have 2-element `time` arrays, so the write is always in range). -/
def setIdx : List Jv → ℕ → Jv → List Jv
  | [], _, _ => []
  | _ :: xs, 0, v => v :: xs
  | x :: xs, n + 1, v => x :: setIdx xs n v

/-- Parse a run of decimal digits; returns the value, number of digits
consumed, and the rest. -/
def parseDigits : List Char → ℕ → ℕ → (ℕ × ℕ × List Char)
  | [], acc, n => (acc, n, [])
  | c :: cs, acc, n =>
      if c.isDigit then parseDigits cs (acc * 10 + (c.toNat - 48)) (n + 1)
      else (acc, n, c :: cs)

/-- Parse `digits [. digits]` as a rational; fails when no digit is present
on either side of a lone dot. -/
def parseDecBody (cs : List Char) : Option (ℚ × List Char) :=
  let (ip, ipn, rest) := parseDigits cs 0 0
  match rest with
  | '.' :: rest2 =>
      let (fp, fpn, rest3) := parseDigits rest2 0 0
      if ipn = 0 ∧ fpn = 0 then none
      else some ((ip : ℚ) + (fp : ℚ) / ((10 : ℚ) ^ fpn), rest3)
  | _ => if ipn = 0 then none else some ((ip : ℚ), rest)

/-- Parse an optional exponent `(e|E)[+|-]digits`; on a malformed exponent
the exponent part is not consumed (as in the JS numeric grammars). -/
def parseExp (q : ℚ) (cs : List Char) : ℚ × List Char :=
  match cs with
  | 'e' :: rest | 'E' :: rest =>
      let (sgn, rest2) := match rest with
        | '-' :: r => ((-1 : ℤ), r)
        | '+' :: r => ((1 : ℤ), r)
        | r => ((1 : ℤ), r)
      let (e, en, rest3) := parseDigits rest2 0 0
      if en = 0 then (q, cs)
      else (if sgn = 1 then q * (10 : ℚ) ^ e else q / (10 : ℚ) ^ e, rest3)
  | _ => (q, cs)

/-- Parse a signed decimal with optional exponent, returning the value and
the unconsumed suffix. Non-finite spellings (`Infinity`) yield `none`
(collapsed, see module comment). -/
def parseSignedDec (cs : List Char) : Option (ℚ × List Char) :=
  let (sgn, rest) := match cs with
    | '-' :: r => ((-1 : ℚ), r)
    | '+' :: r => ((1 : ℚ), r)
    | r => ((1 : ℚ), r)
  match parseDecBody rest with
  | some (q, rest2) =>
      let (q2, rest3) := parseExp q rest2
      some (sgn * q2, rest3)
  | none => none

/-- ECMAScript `StringToNumber`: trimmed; empty/whitespace-only is `0`; the
whole remainder must be a numeric literal. -/
def strToNum (s : String) : JNum :=
  let cs := (s.trim).data
  if cs.isEmpty then some 0
  else
    match parseSignedDec cs with
    | some (q, []) => some q
    | _ => none

/-- `parseFloat`: leading whitespace skipped, then the longest numeric
prefix; `NaN` when no prefix parses. -/
def parseFloatStr (s : String) : JNum :=
  match parseSignedDec (s.trimLeft).data with
  | some (q, _) => some q
  | none => none

/-- ECMAScript `ToNumber` on the modelled values.  A one-element array
coerces through its single element's string form (modelled directly for the
element shapes that round-trip: `null`, numbers, strings); other arrays and
all plain objects coerce to `NaN` (multi-element arrays join with commas,
which never parses; `[object Object]` never parses). -/
def toNum : Jv → JNum
  | .null => some 0
  | .bool b => some (if b then 1 else 0)
  | .num q => some q
  | .nan => none
  | .str s => strToNum s
  | .arr [] => some 0
  | .arr [.null] => some 0
  | .arr [.num q] => some q
  | .arr [.str s] => strToNum s
  | .arr _ => none
  | .obj _ => none

/-- `ToNumber` of a possibly-`undefined` value (`ToNumber(undefined) = NaN`). -/
def toNumU : Option Jv → JNum
  | some v => toNum v
  | none => none

/-- `NaN`-propagating addition. -/
def nAdd : JNum → JNum → JNum
  | some a, some b => some (a + b)
  | _, _ => none

/-- `NaN`-propagating multiplication. -/
def nMul : JNum → JNum → JNum
  | some a, some b => some (a * b)
  | _, _ => none

/-- JS division `a / b`; division by zero produces a non-finite value
(`none`), like `NaN` operands. -/
def nDiv : JNum → JNum → JNum
  | some a, some b => if b = 0 then none else some (a / b)
  | _, _ => none

/-- `Math.min` (two arguments); `NaN` absorbs. -/
def nMin : JNum → JNum → JNum
  | some a, some b => some (min a b)
  | _, _ => none

/-- `Math.max` (two arguments); `NaN` absorbs. -/
def nMax : JNum → JNum → JNum
  | some a, some b => some (max a b)
  | _, _ => none

/-- Store a computed number back into an object/array slot. -/
def numOrNan : JNum → Jv
  | some q => .num q
  | none => .nan

/-- `Math.round`: round half toward `+∞`. -/
def jsRound (q : ℚ) : ℤ := ⌊q + 1 / 2⌋

/-- `parseFloat(t.toFixed(4))`: round to 4 decimal places, half toward `+∞`
(`toFixed` picks the larger candidate on ties). -/
def roundTo4 (q : ℚ) : ℚ := (jsRound (q * 10000) : ℚ) / 10000

/-! ## src/core/sceneData.js -/

/-- The `shots` array of `createMinimalScene` (src/core/sceneData.js lines
7–43). -/
def minimalShotsJv : Jv :=
  .arr [.obj [
    ("name", .str "Emergency Flight"),
    ("time", .arr [.num 0, .num TARGET_DURATION]),
    ("path", .obj [
      ("type", .str "catmullrom"),
      ("points", .arr [
        .arr [.num (-28), .num 48, .num 120],
        .arr [.num (-6), .num 38, .num 80],
        .arr [.num 6, .num 22, .num 40],
        .arr [.num 8, .num 9, .num 8],
        .arr [.num 4, .num 6, .num (-28)]])]),
    ("camera", .obj [
      ("fov", .arr [.num 58, .num 74]),
      ("rollDeg", .arr [.num (-2), .num 3]),
      ("oscillation", .num 0.4),
      ("tempoFov", .num 10),
      ("tempoRoll", .num 0.15),
      ("tempoShake", .num 0.6),
      ("tempoPush", .num 1.6),
      ("ease", .str "easeInOut")]),
    ("fx", .obj [
      ("bloom", .arr [.num 0.22, .num 0.32]),
      ("vignette", .arr [.num 0.3, .num 0.46]),
      ("neonPulse", .num 0.4),
      ("sparkle", .num 0.4),
      ("flash", .num 0.16),
      ("exposure", .num 0.95),
      ("haze", .num 0.013),
      ("hazePulse", .num 0.01),
      ("fade", .arr [.num (TARGET_DURATION - 0.6), .num TARGET_DURATION])])]]

/-- `createMinimalScene()` (src/core/sceneData.js lines 3–45). -/
def createMinimalScene : Jv :=
  .obj [
    ("meta", .obj [
      ("title", .str "Emergency Scene"),
      ("duration", .num TARGET_DURATION),
      ("bpm", .num DEFAULT_BPM),
      ("seed", .num 42)]),
    ("beats", .arr []),
    ("shots", minimalShotsJv)]

/-- The beat-synthesis loop of `regenerateBeats`:
`for (let t = 0; t <= duration + 0.0001; t += beatDuration) beats.push(parseFloat(t.toFixed(4)))`.
With a non-positive finite step and a passing initial test the source loop
never terminates (`t` never grows), reported as `divergence`.  A `NaN` step
stops after the first push; a `NaN` bound fails the first test. -/
def regenLoop (durN bdN : JNum) : Except JsErr (List ℚ) :=
  match durN, bdN with
  | some d, some b =>
      if 0 ≤ d + 0.0001 then
        if 0 < b then
          .ok ((List.range ((⌊(d + 0.0001) / b⌋).toNat + 1)).map fun k => roundTo4 (k * b))
        else .error .divergence
      else .ok []
  | some d, none => .ok (if 0 ≤ d + 0.0001 then [0] else [])
  | none, _ => .ok []

/-- The tail-extension loop of `normalizeSceneData` (lines 96–99):
`for (let t = lastBeat + beatDuration; t <= duration + 0.0001; t += beatDuration) push(round4(t))`.
Same divergence analysis as `regenLoop`. -/
def extendBeatsLoop (lastBeat : ℚ) (durN bdN : JNum) : Except JsErr (List ℚ) :=
  match durN, bdN with
  | some d, some b =>
      if lastBeat + b ≤ d + 0.0001 then
        if 0 < b then
          .ok ((List.range ((⌊(d + 0.0001 - lastBeat) / b⌋).toNat)).map
            fun i => roundTo4 (lastBeat + (i + 1) * b))
        else .error .divergence
      else .ok []
  | _, _ => .ok []

/-- `regenerateBeats(data)` (src/core/sceneData.js lines 47–56). -/
def regenerateBeats (data : Jv) : Except JsErr Jv := do
  -- if (!data || !data.meta) return;
  if ¬ data.truthy then pure data else do
  let mo ← readProp data "meta"
  match mo with
  | some m =>
      if ¬ m.truthy then pure data else do
        -- const bpm = data.meta.bpm || DEFAULT_BPM; const beatDuration = 60 / bpm;
        let bpmv ← readProp m "bpm"
        let bd := nDiv (some 60) (toNum (jsOr bpmv (Jv.num DEFAULT_BPM)))
        let durv ← readProp m "duration"
        let beats ← regenLoop (toNumU durv) bd
        -- data.beats = beats;
        setProp data "beats" (Jv.arr (beats.map Jv.num))
  | none => pure data

/-- The filter callback `(shot) => Array.isArray(shot.time) && shot.time.length === 2`
(line 70); reading `.time` throws on a `null` entry. -/
def shotKeep (s : Jv) : Except JsErr Bool := do
  let t ← readProp s "time"
  pure (match t with
    | some (Jv.arr xs) => xs.length = 2
    | _ => false)

/-- `normalized.shots.filter(...)` with the callback above. -/
def filterShots : List Jv → Except JsErr (List Jv)
  | [] => .ok []
  | s :: rest => do
      let b ← shotKeep s
      let tail ← filterShots rest
      pure (if b then s :: tail else tail)

/-- `a.time[0]` as read by the sort comparator (survivors of the filter are
objects with a `time` array, so the plain reads cannot throw). -/
def shotStartRaw (s : Jv) : Option Jv :=
  match s with
  | .obj fs =>
      match lookupField fs "time" with
      | some (.arr xs) => xs.get? 0
      | _ => none
  | _ => none

/-- The comparator key `(a.time[0] || 0)` coerced by the subtraction in
`(a, b) => (a.time[0] || 0) - (b.time[0] || 0)` (line 71). -/
def shotSortKey (s : Jv) : JNum := toNum (jsOr (shotStartRaw s) (Jv.num 0))

/-- `shotLe a b` holds when the comparator puts `a` no later than `b`: a
non-positive numeric difference, or a `NaN` difference (which ES2023
`SortCompare` maps to `+0`, i.e. "equal"). -/
def shotLe (a b : Jv) : Bool :=
  match shotSortKey a, shotSortKey b with
  | some x, some y => x ≤ y
  | _, _ => true

/-- Stable insertion used to model `Array.prototype.sort`. -/
def sortInsert (x : Jv) : List Jv → List Jv
  | [] => [x]
  | y :: ys => if shotLe x y then x :: y :: ys else y :: sortInsert x ys

/-- `normalized.shots.sort((a, b) => (a.time[0] || 0) - (b.time[0] || 0))`
(line 71), modelled as a stable insertion sort.  For numeric keys this is the
unique stable order required by ES2019+; for `NaN` keys the comparator is
inconsistent and the ECMAScript result is implementation-defined, of which
this is one valid choice. -/
def sortShots : List Jv → List Jv
  | [] => []
  | x :: xs => sortInsert x (sortShots xs)

/-- The two clamping writes of lines 75–76 applied to a `time` array:
`time[0] = Math.max(0, Math.min(TARGET_DURATION, time[0] || 0))`, then
`time[1] = Math.max(time[0] + 0.01, Math.min(TARGET_DURATION, time[1] || TARGET_DURATION))`
(the second line reads the freshly written `time[0]`). -/
def clampTimePair (xs : List Jv) : List Jv :=
  let t0 := nMax (some 0) (nMin (some TARGET_DURATION) (toNum (jsOr (xs.get? 0) (Jv.num 0))))
  let t1raw := toNum (jsOr (xs.get? 1) (Jv.num TARGET_DURATION))
  let t1 := nMax (nAdd t0 (some 0.01)) (nMin (some TARGET_DURATION) t1raw)
  setIdx (setIdx xs 0 (numOrNan t0)) 1 (numOrNan t1)

/-- `obj.k1.k2 = obj.k1.k2 || d` (read–modify–write through the sub-object;
throws when `obj.k1` is `undefined`, `null` or a primitive, as in strict
mode). -/
def setSubDefault (s : Jv) (k1 k2 : String) (d : Jv) : Except JsErr Jv := do
  let mo ← readProp s k1
  match mo with
  | none => .error .typeError
  | some m => do
      let cur ← readProp m k2
      let m2 ← setProp m k2 (jsOr cur d)
      setProp s k1 m2

/-- The camera/fx default-filling statements of the per-shot `forEach`
(lines 78–84). -/
def normalizeShotDefaults (s1 : Jv) : Except JsErr Jv := do
  -- shot.camera = shot.camera || {};
  let cam ← readProp s1 "camera"
  let s2 ← setProp s1 "camera" (jsOr cam (Jv.obj []))
  let s3 ← setSubDefault s2 "camera" "fov" (Jv.arr [Jv.num 60, Jv.num 68])
  let s4 ← setSubDefault s3 "camera" "rollDeg" (Jv.arr [Jv.num 0, Jv.num 0])
  let s5 ← setSubDefault s4 "camera" "oscillation" (Jv.num 0)
  -- shot.fx = shot.fx || {};
  let fx ← readProp s5 "fx"
  let s6 ← setProp s5 "fx" (jsOr fx (Jv.obj []))
  let s7 ← setSubDefault s6 "fx" "bloom" (Jv.arr [Jv.num 0.18, Jv.num 0.28])
  setSubDefault s7 "fx" "vignette" (Jv.arr [Jv.num 0.28, Jv.num 0.4])

/-- The body of the per-shot `forEach` (lines 73–85): clamp the time window,
then fill the camera/fx defaults. -/
def normalizeShot (s : Jv) : Except JsErr Jv := do
  let t ← readProp s "time"
  let s1 ← (match t with
    | some (Jv.arr xs) => setProp s "time" (Jv.arr (clampTimePair xs))
    | _ => pure s)
  normalizeShotDefaults s1

/-- The `forEach` over the sorted shots list. -/
def mapShots : List Jv → Except JsErr (List Jv)
  | [] => .ok []
  | s :: rest => do
      let s2 ← normalizeShot s
      let rest2 ← mapShots rest
      pure (s2 :: rest2)

/-- `typeof value === 'number' ? value : parseFloat(value)` (line 92);
`parseFloat` coerces its argument to a string and parses the longest numeric
prefix (one-element arrays stringify to their element, other arrays and
objects never parse). -/
def jvToBeatNum (v : Jv) : JNum :=
  match v with
  | .num q => some q
  | .nan => none
  | .str s => parseFloatStr s
  | .arr [.num q] => some q
  | .arr [.str s] => parseFloatStr s
  | _ => none

/-- Numeric ascending insertion (models `.sort((a, b) => a - b)` on the
filtered, finite beat values). -/
def insertQ (x : ℚ) : List ℚ → List ℚ
  | [] => [x]
  | y :: ys => if x ≤ y then x :: y :: ys else y :: insertQ x ys

/-- `.sort((a, b) => a - b)` on rationals. -/
def sortQ : List ℚ → List ℚ
  | [] => []
  | x :: xs => insertQ x (sortQ xs)

/-- The `else` branch of the beats normalization (lines 89–99): map/parse,
keep finite values in `[0, duration]`, sort ascending, then extend past the
last beat with synthesized beats. -/
def normBeatsExisting (n : Jv) (l : List Jv) : Except JsErr Jv := do
  let mo ← readProp n "meta"
  match mo with
  | none => .error .typeError
  | some m => do
      -- const beatDuration = 60 / normalized.meta.bpm;
      let bpmv ← readProp m "bpm"
      let bd := nDiv (some 60) (toNumU bpmv)
      let durv ← readProp m "duration"
      let dN := toNumU durv
      let vals := (l.map jvToBeatNum).filterMap id
      let inRange := vals.filter fun v =>
        decide (0 ≤ v) && (match dN with | some d => decide (v ≤ d) | none => false)
      let sorted := sortQ inRange
      -- const lastBeat = normalized.beats[normalized.beats.length - 1] || 0;
      let lastBeat := (sorted.getLast?).getD 0
      let ext ← extendBeatsLoop lastBeat dN bd
      setProp n "beats" (Jv.arr ((sorted ++ ext).map Jv.num))

/-- `normalized.meta.k = v` (read–modify–write of the `meta` sub-object). -/
def setMetaAssign (n : Jv) (k : String) (v : Jv) : Except JsErr Jv := do
  let mo ← readProp n "meta"
  match mo with
  | none => .error .typeError
  | some m => do
      let m2 ← setProp m k v
      setProp n "meta" m2

/-- `normalized.meta.k = normalized.meta.k || d`. -/
def setMetaDefault (n : Jv) (k : String) (d : Jv) : Except JsErr Jv := do
  let mo ← readProp n "meta"
  match mo with
  | none => .error .typeError
  | some m => do
      let cur ← readProp m k
      let m2 ← setProp m k (jsOr cur d)
      setProp n "meta" m2

/-- `if (!normalized.meta) normalized.meta = {}` (sceneData.js line 62). -/
def metaFix (n0 : Jv) (mo : Option Jv) : Except JsErr Jv :=
  if optTruthy mo then pure n0 else setProp n0 "meta" (Jv.obj [])

/-- The body of `normalizeSceneData` (src/core/sceneData.js lines 61–102),
operating on the freshly copied `normalized` object. -/
def normalizeSceneBody (n0 : Jv) : Except JsErr Jv := do
  -- if (!normalized.meta) normalized.meta = {};
  let mo ← readProp n0 "meta"
  let n1 ← metaFix n0 mo
  let n2 ← setMetaAssign n1 "duration" (Jv.num TARGET_DURATION)
  let n3 ← setMetaDefault n2 "bpm" (Jv.num DEFAULT_BPM)
  let n4 ← setMetaDefault n3 "seed" (Jv.num 42)
  -- if (!Array.isArray(normalized.shots)) normalized.shots = createMinimalScene().shots;
  let sh ← readProp n4 "shots"
  let n5 ← (match sh with
    | some (Jv.arr _) => pure n4
    | _ => setProp n4 "shots" minimalShotsJv)
  let sh2 ← readProp n5 "shots"
  let l ← (match sh2 with
    | some (Jv.arr l) => pure l
    | _ => (.error .typeError : Except JsErr (List Jv)))
  let kept ← filterShots l
  -- sort, then the clamping/defaults forEach over the sorted list
  let fixed ← mapShots (sortShots kept)
  let n6 ← setProp n5 "shots" (Jv.arr fixed)
  -- if (!Array.isArray(normalized.beats) || normalized.beats.length === 0) ...
  let bv ← readProp n6 "beats"
  match bv with
  | some (Jv.arr bl) =>
      if bl.length = 0 then regenerateBeats n6 else normBeatsExisting n6 bl
  | _ => regenerateBeats n6

/-- `normalizeSceneData(data)` (src/core/sceneData.js lines 58–103).  The
initial `JSON.parse(JSON.stringify(data))` deep copy is the identity on the
modelled JSON values (sharing is studied separately in the heap model
below). -/
def normalizeSceneData (data : Jv) : Except JsErr Jv :=
  normalizeSceneBody (if data.truthy then data else createMinimalScene)

/-- Outcome of the `fetch('scene.json', …)` / `response.json()` sequence in
`loadSceneDataAsync` (network and HTTP failures, body parse failures, or a
parsed JSON payload). -/
inductive FetchOutcome : Type where
  | ok (j : Jv) : FetchOutcome
  | badJson : FetchOutcome
  | httpError : FetchOutcome
  | networkError : FetchOutcome

/-- Outcome of the inline-scene lookup in `loadInlineScene`: the
`scene-inline` element may be missing, its text may fail `JSON.parse`, or it
parses to a payload. -/
inductive InlineOutcome : Type where
  | missing : InlineOutcome
  | parseError : InlineOutcome
  | ok (j : Jv) : InlineOutcome

/-- `loadInlineScene()` (src/core/sceneData.js lines 122–133): its internal
`try`/`catch` maps a missing element or a parse failure to the hardcoded
minimal scene. -/
def loadInlineScene : InlineOutcome → Jv
  | .ok j => j
  | _ => createMinimalScene

/-- `loadSceneDataAsync()` (src/core/sceneData.js lines 105–120).  The
`try` block covers the fetch, the HTTP-status throw, the body parse and the
`normalizeSceneData(json)` call; the `catch` falls back to
`normalizeSceneData(loadInlineScene())`, which is *not* guarded.  A
non-terminating `normalizeSceneData` is not recovered by `catch`. -/
def loadSceneDataAsync (f : FetchOutcome) (i : InlineOutcome) : Except JsErr Jv :=
  match f with
  | .ok j =>
      match normalizeSceneData j with
      | .ok s => .ok s
      | .error .typeError => normalizeSceneData (loadInlineScene i)
      | .error .divergence => .error .divergence
  | _ => normalizeSceneData (loadInlineScene i)

/-- The shots list of a normalized scene value. -/
def sceneShots (res : Jv) : Option (List Jv) :=
  match res with
  | .obj fs =>
      match lookupField fs "shots" with
      | some (.arr l) => some l
      | _ => none
  | _ => none

/-- `meta.duration` of a normalized scene value. -/
def sceneDurationVal (res : Jv) : Option Jv :=
  match res with
  | .obj fs =>
      match lookupField fs "meta" with
      | some (.obj mfs) => lookupField mfs "duration"
      | _ => none
  | _ => none

/-- The stored `time[0]` of a shot, when it is a number. -/
def jvStartNum (s : Jv) : JNum :=
  match s with
  | .obj fs =>
      match lookupField fs "time" with
      | some (.arr (x :: _)) => match x with | .num q => some q | _ => none
      | _ => none
  | _ => none

/-- The stored `time[1]` of a shot, when it is a number. -/
def jvStopNum (s : Jv) : JNum :=
  match s with
  | .obj fs =>
      match lookupField fs "time" with
      | some (.arr (_ :: y :: _)) => match y with | .num q => some q | _ => none
      | _ => none
  | _ => none

/-- The normalized window bounds: a numeric start lies in
`[0, TARGET_DURATION]`, and a numeric end comes with a numeric start and
satisfies `start + 0.01 ≤ end ≤ max TARGET_DURATION (start + 0.01)` (the end
exceeds the duration exactly when the clamped start is within `0.01` of
it). -/
def WindowOk (s : Jv) : Prop :=
  (∀ q, jvStartNum s = some q → 0 ≤ q ∧ q ≤ TARGET_DURATION) ∧
  (∀ q', jvStopNum s = some q' →
    ∃ q, jvStartNum s = some q ∧ q + 0.01 ≤ q' ∧ q' ≤ max TARGET_DURATION (q + 0.01))

/-- Shots with numeric starts appear in nondecreasing start order. -/
def startLe (x y : Jv) : Prop :=
  ∀ qx qy, jvStartNum x = some qx → jvStartNum y = some qy → qx ≤ qy

/-- A shots entry that survives the time filter: an object with a 2-element
`time` array. -/
def keepP (s : Jv) : Prop :=
  ∃ fs xs, s = .obj fs ∧ lookupField fs "time" = some (.arr xs) ∧ xs.length = 2

/-- Value-side invariants of every scene produced by `normalizeSceneData`. -/
def SceneShape (res : Jv) : Prop :=
  sceneDurationVal res = some (.num TARGET_DURATION) ∧
  (∃ shots, sceneShots res = some shots) ∧
  ∀ shots, sceneShots res = some shots →
    (∀ y ∈ shots, WindowOk y) ∧ shots.Chain' startLe

/-- The inputs for which the normalized shots list is guaranteed non-empty:
whenever the input supplies a shots array, some entry must survive the time
filter (otherwise the filter may leave the list empty). -/
def NonemptyCond (d : Jv) : Prop :=
  ∀ fs l0, d = .obj fs → lookupField fs "shots" = some (.arr l0) → ∃ x ∈ l0, keepP x

/-- `m` is `n` (both objects) with possible changes confined to the keys in
`ks`. -/
def KeysExcept (ks : List String) (n m : Jv) : Prop :=
  ∃ fsn fsm, n = .obj fsn ∧ m = .obj fsm ∧
    ∀ k, k ∉ ks → lookupField fsm k = lookupField fsn k

/-- The value carries `meta.duration = TARGET_DURATION`. -/
def MetaDuration (n : Jv) : Prop :=
  ∃ fs mfs, n = .obj fs ∧ lookupField fs "meta" = some (.obj mfs) ∧
    lookupField mfs "duration" = some (.num TARGET_DURATION)

/-! ## src/core/tempo.js (= src/unnamed/part_002) and src/core/state.js

The persistent tempo state is rational-valued.  The source stores the
sine-shaped per-frame outputs (`beatPulse`, `wave`, `barPulse`, `pulse`) as
numbers; since `updateTempoState` never reads them back, the embedding stores
the two phases they are computed from (`clampedPhase`, `barPhase`) and
recovers the outputs by the real-valued projections below. -/

/-- `tempoState` (src/core/state.js lines 3–18). -/
structure TempoState : Type where
  bpm : ℚ
  beatDuration : ℚ
  barDuration : ℚ
  beatIndex : ℕ
  lastBeatTime : ℚ
  nextBeatTime : ℚ
  lastAudioPeak : ℚ
  audioPulse : ℚ
  energy : ℚ
  accent : ℚ
  clampedPhase : ℚ
  barPhase : ℚ

/-- `THREE.MathUtils.lerp(x, y, t) = x + (y - x) * t`. -/
def lerpQ (x y t : ℚ) : ℚ := x + (y - x) * t

/-- `THREE.MathUtils.clamp(value, min, max) = Math.max(min, Math.min(max, value))`. -/
def clampQ (v lo hi : ℚ) : ℚ := max lo (min hi v)

/-- ECMAScript remainder `a % b = a - b * trunc(a / b)` (sign of the
dividend). -/
def truncQ (q : ℚ) : ℤ := if 0 ≤ q then ⌊q⌋ else ⌈q⌉

/-- `a % b` on rationals (`b ≠ 0` on the embedded paths). -/
def jsModQ (a b : ℚ) : ℚ := a - b * (truncQ (a / b) : ℚ)

/-- `resetTempoState(bpm)` (src/core/state.js lines 72–87); the zeroed
outputs `wave/pulse/barPulse/beatPulse` correspond to zero phases. -/
def resetTempoState (bpm : ℚ) : TempoState :=
  { bpm := bpm
    beatDuration := 60 / bpm
    barDuration := (60 / bpm) * 4
    beatIndex := 0
    lastBeatTime := 0
    nextBeatTime := 60 / bpm
    lastAudioPeak := 0
    audioPulse := 0
    energy := 0
    accent := 0
    clampedPhase := 0
    barPhase := 0 }

/-- Per-frame inputs read by `updateTempoState` from the `runtime`
singleton: the clock, the sampled audio energy, the audio/playback flags and
the scene's beat list (`null` when the scene or its `beats` array is
absent). -/
structure TempoInput : Type where
  currentTime : ℚ
  lastAudioEnergy : ℚ
  hasAudio : Bool
  isPlaying : Bool
  beats : Option (List ℚ)

/-- The `while (beatIndex < beats.length && currentTime >= beats[beatIndex])`
walk of src/core/tempo.js lines 16–19, returning the advanced index and
`lastBeatTime`. -/
def walkBeats (beats : List ℚ) (t : ℚ) (bi : ℕ) (lbt : ℚ) : ℕ × ℚ :=
  if h : bi < beats.length then
    if beats.get ⟨bi, h⟩ ≤ t then walkBeats beats t (bi + 1) (beats.get ⟨bi, h⟩)
    else (bi, lbt)
  else (bi, lbt)
termination_by beats.length - bi
decreasing_by omega

/-- The beat bookkeeping of `updateTempoState` (lines 9–30): rewind
detection, then either the explicit-beats walk or the fixed-step ladder.
Returns `(beatIndex, lastBeatTime, nextBeatTime)`. -/
def tempoBookkeep (beats : Option (List ℚ)) (beatDuration t : ℚ)
    (bi : ℕ) (lbt nbt : ℚ) : ℕ × ℚ × ℚ :=
  -- if (runtime.currentTime + 0.0001 < tempoState.lastBeatTime) { reset }
  let s0 : ℕ × ℚ × ℚ :=
    if t + 0.0001 < lbt then (0, 0, beatDuration) else (bi, lbt, nbt)
  match s0 with
  | (bi0, lbt0, nbt0) =>
    match beats with
    | some bs =>
        if 0 < bs.length then
          let w := walkBeats bs t bi0 lbt0
          let nextIndex := min w.1 (bs.length - 1)
          let nb := bs.getD nextIndex 0
          (w.1, w.2, if w.2 < nb then nb else w.2 + beatDuration)
        else
          if nbt0 ≤ t then
            let steps := max 1 (jsRound ((t - nbt0) / beatDuration) + 1)
            (bi0, nbt0, nbt0 + beatDuration * (steps : ℚ))
          else (bi0, lbt0, nbt0)
    | none =>
        if nbt0 ≤ t then
          let steps := max 1 (jsRound ((t - nbt0) / beatDuration) + 1)
          (bi0, nbt0, nbt0 + beatDuration * (steps : ℚ))
        else (bi0, lbt0, nbt0)

/-- `updateTempoState()` (src/core/tempo.js lines 4–72). -/
def updateTempoState (inp : TempoInput) (s : TempoState) : TempoState :=
  let beatDuration := if 0 < s.beatDuration then s.beatDuration else 60 / DEFAULT_BPM
  let barDuration := if 0 < s.barDuration then s.barDuration else beatDuration * 4
  let bk := tempoBookkeep inp.beats beatDuration inp.currentTime
    s.beatIndex s.lastBeatTime s.nextBeatTime
  let lbt := bk.2.1
  let nbt := bk.2.2
  -- const span = Math.max(beatDuration, nextBeatTime - lastBeatTime);
  let span := max beatDuration (nbt - lbt)
  let beatProgress := if 0 < span then (inp.currentTime - lbt) / span else 0
  let clamped := max 0 (min 1 beatProgress)
  -- audioPulse lerp toward max(0, (energy - 0.22) * 1.35) with factor 0.25
  let audioPulseTarget := max 0 ((inp.lastAudioEnergy - 0.22) * 1.35)
  let audioPulse2 := lerpQ s.audioPulse audioPulseTarget 0.25
  let barPhase := jsModQ (inp.currentTime / barDuration) 1
  let beatAccent := max 0 (1 - clamped * 8)
  let audioAccent := max 0 ((audioPulse2 - 0.45) * 1.6)
  let accent2 := min 1 (max beatAccent audioAccent)
  let previousEnergy := s.energy
  let energy2 := lerpQ s.energy inp.lastAudioEnergy 0.3
  -- opportunistic tempo re-estimation from energy rises (lines 57–71)
  let est : ℚ × ℚ × ℚ :=
    if inp.hasAudio ∧ inp.isPlaying then
      if 0.55 < inp.lastAudioEnergy ∧ 0.08 < inp.lastAudioEnergy - previousEnergy then
        let noBeats : Bool := match inp.beats with
          | none => true
          | some bs => bs.length = 0
        if noBeats ∧ 0 < s.lastAudioPeak then
          let interval := inp.currentTime - s.lastAudioPeak
          if 0.25 < interval ∧ interval < 1.5 then
            let detected := clampQ interval (60 / 220) (60 / 40)
            let nbd := lerpQ s.beatDuration detected 0.12
            (nbd, nbd * 4, inp.currentTime)
          else (s.beatDuration, s.barDuration, inp.currentTime)
        else (s.beatDuration, s.barDuration, inp.currentTime)
      else (s.beatDuration, s.barDuration, s.lastAudioPeak)
    else (s.beatDuration, s.barDuration, s.lastAudioPeak)
  { s with
    beatIndex := bk.1
    lastBeatTime := lbt
    nextBeatTime := nbt
    clampedPhase := clamped
    audioPulse := audioPulse2
    barPhase := barPhase
    accent := accent2
    energy := energy2
    beatDuration := est.1
    barDuration := est.2.1
    lastAudioPeak := est.2.2 }

/-- `tempoState.beatPulse = Math.pow(Math.sin(clamped * Math.PI), 2)`
(line 36), recovered from the stored phase. -/
noncomputable def TempoState.beatPulse (s : TempoState) : ℝ :=
  (Real.sin (s.clampedPhase * Real.pi)) ^ 2

/-- `tempoState.pulse = Math.min(1, beatPulse * 0.6 + audioPulse * 0.7)`
(line 42). -/
noncomputable def TempoState.pulse (s : TempoState) : ℝ :=
  min 1 (s.beatPulse * 0.6 + (s.audioPulse : ℝ) * 0.7)

/-- `tempoState.wave = Math.sin(clamped * Math.PI * 2) * (0.6 + audioPulse * 0.4)`
(line 45). -/
noncomputable def TempoState.wave (s : TempoState) : ℝ :=
  Real.sin (s.clampedPhase * Real.pi * 2) * (0.6 + (s.audioPulse : ℝ) * 0.4)

/-- `tempoState.barPulse = Math.pow(Math.sin(barPhase * Math.PI), 2)`
(line 48). -/
noncomputable def TempoState.barPulse (s : TempoState) : ℝ :=
  (Real.sin (s.barPhase * Real.pi)) ^ 2

/-- Run `updateTempoState` over a finite sequence of per-frame inputs. -/
def runTempo (s : TempoState) (inps : List TempoInput) : TempoState :=
  inps.foldl (fun st i => updateTempoState i st) s

/-- The beat bookkeeping triple `(beatIndex, lastBeatTime, nextBeatTime)` of
a tempo state. -/
def tempoTriple (s : TempoState) : ℕ × ℚ × ℚ :=
  (s.beatIndex, s.lastBeatTime, s.nextBeatTime)

/-! ## src/core/renderLoop.js: the playback clock -/

/-- The playback-relevant fields of the `runtime` singleton
(src/core/state.js lines 26–28, 58). -/
structure PlayState : Type where
  currentTime : ℚ
  isPlaying : Bool
  isRecording : Bool
  playbackSpeed : ℚ

/-- One animation frame of `startRenderLoop`'s time advancement
(src/core/renderLoop.js lines 22–38).  `duration` is
`runtime.sceneData.meta.duration` (or `TARGET_DURATION` without a scene);
`deltaMs` is the wall-clock frame delta in milliseconds.  `stopRecording()`
clears `isRecording` (src/core/recording.js lines 468–479; the external
recorder's `stop()` is assumed not to throw).  The audio-resync block only
touches the audio element and is outside this state. -/
def tick (duration : ℚ) (s : PlayState) (deltaMs : ℚ) : PlayState :=
  if s.isPlaying then
    let ct :=
      if s.isRecording then s.currentTime + (1 / RECORDING_FPS) * s.playbackSpeed
      else s.currentTime + (deltaMs / 1000) * s.playbackSpeed
    if duration ≤ ct then
      if s.isRecording then
        { s with currentTime := ct, isRecording := false, isPlaying := false }
      else { s with currentTime := 0 }
    else { s with currentTime := ct }
  else s

/-- Iterate `tick` over a list of frame deltas. -/
def runTicks (duration : ℚ) (s : PlayState) (deltas : List ℚ) : PlayState :=
  deltas.foldl (tick duration) s

/-! ## src/core/camera.js (concatenated into src/core/renderLoop.js):
current-shot lookup and FOV -/

/-- A shot's `[start, end)` window as the camera code reads it
(`s.time[0]`, `s.time[1]`); normalized scenes store numbers (possibly the
`NaN` produced from malformed windows). -/
structure ShotTime : Type where
  start : JNum
  stop : JNum

/-- `currentTime >= s.time[0] && currentTime < s.time[1]` (line 146);
comparisons with `NaN` are false. -/
def shotContains (t : ℚ) (s : ShotTime) : Bool :=
  (match s.start with | some a => a ≤ t | none => false) &&
  (match s.stop with | some b => t < b | none => false)

/-- The current-shot lookup of `updateCameraPath` (lines 144–154): linear
scan for the first shot whose window contains `currentTime`, else the last
shot; `none` only when the guard of line 140 already returned (empty shots
list). -/
def selectShot (shots : List ShotTime) (t : ℚ) : Option ShotTime :=
  if shots.isEmpty then none
  else
    match shots.find? (shotContains t) with
    | some s => some s
    | none => shots.getLast?

/-- `THREE.MathUtils.lerp` over the reals. -/
def lerpR (x y t : ℝ) : ℝ := x + (y - x) * t

/-- `THREE.MathUtils.clamp(value, min, max)`. -/
def clampR (v lo hi : ℝ) : ℝ := max lo (min hi v)

/-- Shot-local progress (lines 170–172):
`t = clamp((currentTime - start) / max(end - start, 0.0001), 0, 1)`. -/
def shotProgress (start stop t : ℚ) : ℚ :=
  max 0 (min 1 ((t - start) / max (stop - start) 0.0001))

/-- ASCII lowercasing, modelling `String.prototype.toLowerCase()` on the
ASCII easing names. -/
def lowerChar (c : Char) : Char :=
  if 'A' ≤ c ∧ c ≤ 'Z' then Char.ofNat (c.toNat + 32) else c

/-- ASCII `toLowerCase()`. -/
def lowerStr (s : String) : String := String.mk (s.data.map lowerChar)

/-- `applyEasing(t, easing)` (src/core/utils.js = src/unnamed/part_001).
`Math.pow` on the clamped arguments used here (`t ∈ [0,1]`) agrees with the
real power. -/
noncomputable def applyEasing (t : ℝ) (easing : String) : ℝ :=
  match lowerStr easing with
  | "easein" => t * t
  | "easeout" => 1 - (1 - t) ^ 2
  | "easeinout" => t * t * (3 - 2 * t)
  | "smooth" => t * t * (3 - 2 * t)
  | "fastin" => t ^ (1.5 : ℝ)
  | "fastout" => 1 - (1 - t) ^ (1.5 : ℝ)
  | "linear" => t
  | _ => t

/-- The FOV computation of `updateCameraPath` (lines 213–219):
`fov = lerp(fovRange[0], fovRange[1], easedT)`, plus
`pulse*tempoFov*0.4 + audioPulse*tempoFov*0.3` when `tempoFov ≠ 0`, written
to the camera as `THREE.MathUtils.clamp(fov, 32, 110)`. -/
noncomputable def computeFov (fov0 fov1 tempoFov pulse audioPulse easedT : ℝ) : ℝ :=
  let fov := lerpR fov0 fov1 easedT
  let fov2 :=
    if tempoFov ≠ 0 then fov + pulse * tempoFov * 0.4 + audioPulse * tempoFov * 0.3
    else fov
  clampR fov2 32 110

/-- Consecutive windows do not overlap: the earlier shot's stored end is at
most the later shot's stored start. -/
def endStartLe (x y : Jv) : Prop :=
  ∀ qe qs, jvStopNum x = some qe → jvStartNum y = some qs → qe ≤ qs

/-- The non-overlap property claimed for normalized shots lists. -/
def NonOverlapping (res : Jv) : Prop :=
  ∀ shots, sceneShots res = some shots → shots.Chain' endStartLe

/-- An input whose `meta` is the primitive `5`: `normalized.meta.duration = …`
then throws in strict mode. -/
def badMetaInput : Jv := .obj [("meta", .num 5)]

/-- A small well-formed scene input: one shot with window `[0, 5]`,
`bpm = 2`, and the explicit beats `[0, 30]`. -/
def witnessShot : Jv := .obj [("time", .arr [.num 0, .num 5])]

def witnessInput : Jv := .obj [("meta", .obj [("bpm", .num 2)]),
  ("shots", .arr [witnessShot]),
  ("beats", .arr [.num 0, .num 30])]

/-- The camera defaults filled in by the per-shot `forEach`. -/
def camDefaults : Jv := .obj [("fov", .arr [.num 60, .num 68]),
  ("rollDeg", .arr [.num 0, .num 0]), ("oscillation", .num 0)]

/-- The fx defaults filled in by the per-shot `forEach`. -/
def fxDefaults : Jv := .obj [("bloom", .arr [.num 0.18, .num 0.28]),
  ("vignette", .arr [.num 0.28, .num 0.4])]

def witnessShotOut : Jv := .obj [("time", .arr [.num 0, .num 5]),
  ("camera", camDefaults), ("fx", fxDefaults)]

/-- The normalized form of `witnessInput`. -/
def witnessOutput : Jv := .obj [
  ("meta", .obj [("bpm", .num 2), ("duration", .num 30), ("seed", .num 42)]),
  ("shots", .arr [witnessShotOut]),
  ("beats", .arr [.num 0, .num 30])]

/-- An input with two overlapping windows `[0, 10]` and `[5, 15]` (both
survive normalization unchanged). -/
def overlapShotA : Jv := .obj [("time", .arr [.num 0, .num 10])]

def overlapShotB : Jv := .obj [("time", .arr [.num 5, .num 15])]

def overlapInput : Jv := .obj [("meta", .obj [("bpm", .num 2)]),
  ("shots", .arr [overlapShotA, overlapShotB]),
  ("beats", .arr [.num 0, .num 30])]

def overlapShotAOut : Jv := .obj [("time", .arr [.num 0, .num 10]),
  ("camera", camDefaults), ("fx", fxDefaults)]

def overlapShotBOut : Jv := .obj [("time", .arr [.num 5, .num 15]),
  ("camera", camDefaults), ("fx", fxDefaults)]

/-- The normalized form of `overlapInput`: both windows kept, still
overlapping. -/
def overlapOutput : Jv := .obj [
  ("meta", .obj [("bpm", .num 2), ("duration", .num 30), ("seed", .num 42)]),
  ("shots", .arr [overlapShotAOut, overlapShotBOut]),
  ("beats", .arr [.num 0, .num 30])]

/-! ### Heap model of `normalizeSceneData`

The tree model above cannot speak about mutation of the caller's object, so
the frame property of `normalizeSceneData` (claim C10) is studied on an
explicit heap: arrays and objects live in numbered cells, `JSON.parse(JSON.stringify(data))`
is a read-back followed by fresh allocation, and every statement of the
source mutates cells through references. -/

/-- An immediate JS value: a primitive or a reference to a heap cell. -/
inductive HVal : Type where
  | hnull : HVal
  | hbool (b : Bool) : HVal
  | hnum (q : ℚ) : HVal
  | hnan : HVal
  | hstr (s : String) : HVal
  | href (a : Nat) : HVal

/-- A heap cell: an array of immediates or an object of named immediates. -/
inductive Node : Type where
  | narr (xs : List HVal) : Node
  | nobj (fs : List (String × HVal)) : Node

/-- The heap: cell `a` is the `a`-th entry; allocation appends. -/
abbrev Heap := List Node

/-- The heap computations: state `Heap`, strict-mode exceptions `JsErr`;
an exception leaves the mutations made so far in place, as in JS. -/
abbrev HM (α : Type) := EStateM JsErr Heap α

def throwE {α : Type} (e : JsErr) : HM α := fun H => .error e H

def throwTE {α : Type} : HM α := throwE .typeError

def getCell (a : Nat) : HM Node := fun H =>
  match H.get? a with
  | some n => .ok n H
  | none => .error .typeError H

def putCell (a : Nat) (n : Node) : HM Unit := fun H => .ok () (H.set a n)

def allocNode (n : Node) : HM Nat := fun H => .ok H.length (H ++ [n])

/-- Truthiness of an immediate (references are always truthy). -/
def HVal.truthyH : HVal → Bool
  | .hnull => false
  | .hbool b => b
  | .hnum q => q ≠ 0
  | .hnan => false
  | .hstr s => s ≠ ""
  | .href _ => true

def optTruthyH : Option HVal → Bool
  | some v => v.truthyH
  | none => false

def lookupFieldH : List (String × HVal) → String → Option HVal
  | [], _ => none
  | (k, v) :: fs, key => if k = key then some v else lookupFieldH fs key

def setFieldH : List (String × HVal) → String → HVal → List (String × HVal)
  | [], key, v => [(key, v)]
  | (k, w) :: fs, key, v =>
      if k = key then (k, v) :: fs else (k, w) :: setFieldH fs key v

def setIdxH : List HVal → ℕ → HVal → List HVal
  | [], _, _ => []
  | _ :: xs, 0, v => v :: xs
  | x :: xs, n + 1, v => x :: setIdxH xs n v

/-- Heap property read `o[k]` (same strict-mode behaviour as `readProp`). -/
def readPropH (v : HVal) (k : String) : HM (Option HVal) :=
  match v with
  | .hnull => throwTE
  | .href a => do
      let n ← getCell a
      match n with
      | .nobj fs => pure (lookupFieldH fs k)
      | .narr _ => pure none
  | _ => pure none

/-- Heap property write `o[k] = w` (same strict-mode behaviour as
`setProp`), mutating the cell in place. -/
def setPropH (v : HVal) (k : String) (w : HVal) : HM Unit :=
  match v with
  | .href a => do
      let n ← getCell a
      match n with
      | .nobj fs => putCell a (.nobj (setFieldH fs k w))
      | .narr _ => throwTE
  | _ => throwTE

/-- `Array.isArray(x)` on a possibly-`undefined` immediate. -/
def isArrayH (x : Option HVal) : HM Bool :=
  match x with
  | some (.href a) => do
      let n ← getCell a
      match n with
      | .narr _ => pure true
      | .nobj _ => pure false
  | _ => pure false

/-- `ToNumber` of an array cell (one dereference level, as in `toNum`). -/
def toNumArr : List HVal → JNum
  | [] => some 0
  | [.hnull] => some 0
  | [.hnum q] => some q
  | [.hstr s] => strToNum s
  | _ => none

/-- `ToNumber` of an immediate (references one level deep, as in `toNum`). -/
def toNumH (v : HVal) : HM JNum :=
  match v with
  | .hnull => pure (some 0)
  | .hbool b => pure (some (if b then 1 else 0))
  | .hnum q => pure (some q)
  | .hnan => pure none
  | .hstr s => pure (strToNum s)
  | .href a => do
      let n ← getCell a
      match n with
      | .narr xs => pure (toNumArr xs)
      | .nobj _ => pure none

def toNumUH (x : Option HVal) : HM JNum :=
  match x with
  | some v => toNumH v
  | none => pure none

/-- `x || d` with a lazily evaluated (possibly allocating) default. -/
def jsOrH (x : Option HVal) (d : HM HVal) : HM HVal :=
  match x with
  | some v => if v.truthyH then pure v else d
  | none => d

mutual
/-- Fresh deep allocation of a pure JSON value (the `JSON.parse` half of the
copy, and every object/array literal of the source). -/
def allocPure : Jv → Heap → HVal × Heap
  | .null, H => (.hnull, H)
  | .bool b, H => (.hbool b, H)
  | .num q, H => (.hnum q, H)
  | .nan, H => (.hnan, H)
  | .str s, H => (.hstr s, H)
  | .arr xs, H =>
      (.href (allocPureList xs H).2.length,
        (allocPureList xs H).2 ++ [.narr (allocPureList xs H).1])
  | .obj fs, H =>
      (.href (allocPureFields fs H).2.length,
        (allocPureFields fs H).2 ++ [.nobj (allocPureFields fs H).1])

def allocPureList : List Jv → Heap → List HVal × Heap
  | [], H => ([], H)
  | x :: xs, H =>
      ((allocPure x H).1 :: (allocPureList xs (allocPure x H).2).1,
        (allocPureList xs (allocPure x H).2).2)

def allocPureFields : List (String × Jv) → Heap → List (String × HVal) × Heap
  | [], H => ([], H)
  | (k, x) :: fs, H =>
      ((k, (allocPure x H).1) :: (allocPureFields fs (allocPure x H).2).1,
        (allocPureFields fs (allocPure x H).2).2)
end

def allocJvM (j : Jv) : HM HVal := fun H =>
  .ok (allocPure j H).1 (allocPure j H).2

mutual
/-- Read a heap value back as a pure JSON value (the `JSON.stringify`
half of the copy).  The fuel bounds the dereferencing depth. -/
def readJv : Nat → Heap → HVal → Option Jv
  | 0, _, _ => none
  | _ + 1, _, .hnull => some .null
  | _ + 1, _, .hbool b => some (.bool b)
  | _ + 1, _, .hnum q => some (.num q)
  | _ + 1, _, .hnan => some .nan
  | _ + 1, _, .hstr s => some (.str s)
  | fuel + 1, H, .href a =>
      match H.get? a with
      | some (.narr xs) => (readJvList fuel H xs).map Jv.arr
      | some (.nobj fs) => (readJvFields fuel H fs).map Jv.obj
      | none => none
termination_by fuel _ _ => (fuel, 0)

def readJvList : Nat → Heap → List HVal → Option (List Jv)
  | _, _, [] => some []
  | fuel, H, x :: xs =>
      match readJv fuel H x, readJvList fuel H xs with
      | some j, some js => some (j :: js)
      | _, _ => none
termination_by fuel _ xs => (fuel, xs.length + 1)

def readJvFields : Nat → Heap → List (String × HVal) → Option (List (String × Jv))
  | _, _, [] => some []
  | fuel, H, (k, x) :: fs =>
      match readJv fuel H x, readJvFields fuel H fs with
      | some j, some js => some ((k, j) :: js)
      | _, _ => none
termination_by fuel _ fs => (fuel, fs.length + 1)
end

/-- `JSON.stringify(data)`: a bounded read-back; an unreadable (cyclic)
structure throws, as `JSON.stringify` does on circular references.  An
acyclic dereferencing path never revisits a cell, so `|H| + 1` levels
suffice. -/
def stringifyH (v : HVal) : HM Jv := fun H =>
  match readJv (H.length + 1) H v with
  | some j => .ok j H
  | none => .error .typeError H

/-- `data ? JSON.parse(JSON.stringify(data)) : createMinimalScene()`. -/
def copyOrMinimalH (dv : HVal) : HM HVal :=
  if dv.truthyH then stringifyH dv >>= allocJvM else allocJvM createMinimalScene

def allocEmptyObjH : HM HVal :=
  allocNode (.nobj []) >>= fun a => pure (.href a)

/-- `if (!normalized.meta) normalized.meta = {}`. -/
def metaFixH (root : HVal) : HM Unit := do
  let mo ← readPropH root "meta"
  if optTruthyH mo then pure () else do
    let m ← allocEmptyObjH
    setPropH root "meta" m

/-- `normalized.meta.k = v`. -/
def setMetaAssignH (root : HVal) (k : String) (v : HVal) : HM Unit := do
  let mo ← readPropH root "meta"
  match mo with
  | none => throwTE
  | some m => setPropH m k v

/-- `normalized.meta.k = normalized.meta.k || d`. -/
def setMetaDefaultH (root : HVal) (k : String) (d : HM HVal) : HM Unit := do
  let mo ← readPropH root "meta"
  match mo with
  | none => throwTE
  | some m => do
      let cur ← readPropH m k
      let w ← jsOrH cur d
      setPropH m k w

/-- `if (!Array.isArray(normalized.shots)) normalized.shots = createMinimalScene().shots`. -/
def shotsFixH (root : HVal) : HM Unit := do
  let sh ← readPropH root "shots"
  let isA ← isArrayH sh
  if isA then pure () else do
    let scene ← allocJvM createMinimalScene
    let ms ← readPropH scene "shots"
    match ms with
    | some v => setPropH root "shots" v
    | none => throwTE

/-- The filter callback `Array.isArray(shot.time) && shot.time.length === 2`. -/
def shotKeepH (s : HVal) : HM Bool := do
  let t ← readPropH s "time"
  match t with
  | some (.href a) => do
      let n ← getCell a
      match n with
      | .narr xs => pure (xs.length = 2)
      | .nobj _ => pure false
  | _ => pure false

def filterShotsH : List HVal → HM (List HVal)
  | [] => pure []
  | s :: rest => do
      let b ← shotKeepH s
      let tail ← filterShotsH rest
      pure (if b then s :: tail else tail)

/-- `a.time[0]` as read by the sort comparator. -/
def shotStartRawH (s : HVal) : HM (Option HVal) := do
  let t ← readPropH s "time"
  match t with
  | some (.href a) => do
      let n ← getCell a
      match n with
      | .narr xs => pure (xs.get? 0)
      | .nobj _ => pure none
  | _ => pure none

/-- The comparator key `(a.time[0] || 0)` coerced to a number. -/
def shotSortKeyH (s : HVal) : HM JNum := do
  let r ← shotStartRawH s
  let v ← jsOrH r (pure (.hnum 0))
  toNumH v

/-- Pair each shot with its comparator key (the comparator reads but never
writes, so the in-place sort is modelled by keying first). -/
def keysOf : List HVal → HM (List (HVal × JNum))
  | [] => pure []
  | x :: xs => do
      let k ← shotSortKeyH x
      let rest ← keysOf xs
      pure ((x, k) :: rest)

def shotLeK (a b : HVal × JNum) : Bool :=
  match a.2, b.2 with
  | some x, some y => x ≤ y
  | _, _ => true

def sortInsertK (x : HVal × JNum) : List (HVal × JNum) → List (HVal × JNum)
  | [] => [x]
  | y :: ys => if shotLeK x y then x :: y :: ys else y :: sortInsertK x ys

def sortShotsK : List (HVal × JNum) → List (HVal × JNum)
  | [] => []
  | x :: xs => sortInsertK x (sortShotsK xs)

def numOrNanH : JNum → HVal
  | some q => .hnum q
  | none => .hnan

/-- The two clamping writes on a `time` array cell (the second read sees the
first write). -/
def clampShotTimeH (a : Nat) : HM Unit := do
  let n ← getCell a
  match n with
  | .narr xs => do
      let v0 ← jsOrH (xs.get? 0) (pure (.hnum 0))
      let k0 ← toNumH v0
      let t0 := nMax (some 0) (nMin (some TARGET_DURATION) k0)
      putCell a (.narr (setIdxH xs 0 (numOrNanH t0)))
      let n2 ← getCell a
      match n2 with
      | .narr ys => do
          let v1 ← jsOrH (ys.get? 1) (pure (.hnum TARGET_DURATION))
          let k1 ← toNumH v1
          let t0b ← toNumUH (ys.get? 0)
          let t1 := nMax (nAdd t0b (some 0.01)) (nMin (some TARGET_DURATION) k1)
          putCell a (.narr (setIdxH ys 1 (numOrNanH t1)))
      | .nobj _ => throwTE
  | .nobj _ => pure ()

/-- `if (Array.isArray(shot.time)) { …clamp… }`. -/
def clampStageH (s : HVal) : HM Unit := do
  let t ← readPropH s "time"
  match t with
  | some (.href a) => do
      let n ← getCell a
      match n with
      | .narr _ => clampShotTimeH a
      | .nobj _ => pure ()
  | _ => pure ()

/-- `shot.k1.k2 = shot.k1.k2 || d` with a freshly allocated default. -/
def subDefaultH (s : HVal) (k1 k2 : String) (d : Jv) : HM Unit := do
  let mo ← readPropH s k1
  match mo with
  | none => throwTE
  | some m => do
      let cur ← readPropH m k2
      let w ← jsOrH cur (allocJvM d)
      setPropH m k2 w

/-- The body of the per-shot `forEach` (lines 73–85) on the heap. -/
def normShotH (s : HVal) : HM Unit := do
  clampStageH s
  let cam ← readPropH s "camera"
  let camv ← jsOrH cam allocEmptyObjH
  setPropH s "camera" camv
  subDefaultH s "camera" "fov" (Jv.arr [.num 60, .num 68])
  subDefaultH s "camera" "rollDeg" (Jv.arr [.num 0, .num 0])
  subDefaultH s "camera" "oscillation" (Jv.num 0)
  let fx ← readPropH s "fx"
  let fxv ← jsOrH fx allocEmptyObjH
  setPropH s "fx" fxv
  subDefaultH s "fx" "bloom" (Jv.arr [.num 0.18, .num 0.28])
  subDefaultH s "fx" "vignette" (Jv.arr [.num 0.28, .num 0.4])

def forEachShotsH : List HVal → HM Unit
  | [] => pure ()
  | s :: rest => do
      normShotH s
      forEachShotsH rest

/-- The filter/sort/forEach block (lines 70–85): filter allocates a new
array cell, the sort permutes it in place, the `forEach` mutates the shot
cells it references. -/
def shotsPipelineH (root : HVal) : HM Unit := do
  let sh ← readPropH root "shots"
  match sh with
  | some (.href a) => do
      let n ← getCell a
      match n with
      | .narr xs => do
          let kept ← filterShotsH xs
          let b ← allocNode (.narr kept)
          setPropH root "shots" (.href b)
          let keyed ← keysOf kept
          putCell b (.narr ((sortShotsK keyed).map Prod.fst))
          let n2 ← getCell b
          match n2 with
          | .narr sorted => forEachShotsH sorted
          | .nobj _ => throwTE
      | .nobj _ => throwTE
  | _ => throwTE

/-- `parseFloat` of a stringified array cell, as in `jvToBeatNum`. -/
def beatNumArr : List HVal → JNum
  | [.hnum q] => some q
  | [.hstr s] => parseFloatStr s
  | _ => none

/-- `typeof value === 'number' ? value : parseFloat(value)` on the heap. -/
def jvToBeatNumH (v : HVal) : HM JNum :=
  match v with
  | .hnum q => pure (some q)
  | .hnan => pure none
  | .hstr s => pure (parseFloatStr s)
  | .href a => do
      let n ← getCell a
      match n with
      | .narr xs => pure (beatNumArr xs)
      | .nobj _ => pure none
  | _ => pure none

def mapBeatsH : List HVal → HM (List JNum)
  | [] => pure []
  | x :: xs => do
      let n ← jvToBeatNumH x
      let rest ← mapBeatsH xs
      pure (n :: rest)

/-- The `data.meta`-present body of `regenerateBeats` on the heap. -/
def regenBodyH (root m : HVal) : HM Unit :=
  if ¬ m.truthyH then pure () else do
    let bpmv ← readPropH m "bpm"
    let bpm ← jsOrH bpmv (pure (.hnum DEFAULT_BPM))
    let bpmN ← toNumH bpm
    let durv ← readPropH m "duration"
    let durN ← toNumUH durv
    match regenLoop durN (nDiv (some 60) bpmN) with
    | .ok beats => do
        let a ← allocNode (.narr (beats.map HVal.hnum))
        setPropH root "beats" (.href a)
    | .error e => throwE e

/-- `regenerateBeats(normalized)` on the heap. -/
def regenerateBeatsH (root : HVal) : HM Unit := do
  if ¬ root.truthyH then pure () else do
  let mo ← readPropH root "meta"
  match mo with
  | none => pure ()
  | some m => regenBodyH root m

/-- The pure value computation of the beats `else` branch: keep the finite
parsed values in `[0, duration]`, sort ascending, then extend past the last
kept beat. -/
def beatsCompute (dN bdN : JNum) (valsN : List JNum) : Except JsErr (List ℚ) :=
  match extendBeatsLoop (((sortQ ((valsN.filterMap id).filter fun v =>
      decide (0 ≤ v) && (match dN with
        | some d => decide (v ≤ d)
        | none => false))).getLast?).getD 0) dN bdN with
  | .ok ext =>
      .ok ((sortQ ((valsN.filterMap id).filter fun v =>
        decide (0 ≤ v) && (match dN with
          | some d => decide (v ≤ d)
          | none => false))) ++ ext)
  | .error e => .error e

/-- The `else` branch of the beats normalization (lines 89–99) on the heap:
the map/filter/sort chain allocates a fresh array (written through
`normalized.beats = …`), then the extension pushes into it. -/
def normBeatsExistingH (root : HVal) (a : Nat) : HM Unit := do
  let mo ← readPropH root "meta"
  match mo with
  | none => throwTE
  | some m => do
      let bpmv ← readPropH m "bpm"
      let bpmN ← toNumUH bpmv
      let durv ← readPropH m "duration"
      let dN ← toNumUH durv
      let n ← getCell a
      match n with
      | .narr xs => do
          let valsN ← mapBeatsH xs
          match beatsCompute dN (nDiv (some 60) bpmN) valsN with
          | .ok allBeats => do
              let b ← allocNode (.narr (allBeats.map HVal.hnum))
              setPropH root "beats" (.href b)
          | .error e => throwE e
      | .nobj _ => throwTE

/-- `if (!Array.isArray(normalized.beats) || normalized.beats.length === 0)`. -/
def beatsFixH (root : HVal) : HM Unit := do
  let bv ← readPropH root "beats"
  match bv with
  | some (.href a) => do
      let n ← getCell a
      match n with
      | .narr xs =>
          if xs.length = 0 then regenerateBeatsH root else normBeatsExistingH root a
      | .nobj _ => regenerateBeatsH root
  | _ => regenerateBeatsH root

/-- The statements of `normalizeSceneData` after the copy, on the heap. -/
def normalizeSceneBodyH (root : HVal) : HM Unit := do
  metaFixH root
  setMetaAssignH root "duration" (.hnum TARGET_DURATION)
  setMetaDefaultH root "bpm" (pure (.hnum DEFAULT_BPM))
  setMetaDefaultH root "seed" (pure (.hnum 42))
  shotsFixH root
  shotsPipelineH root
  beatsFixH root

/-- `normalizeSceneData(data)` on the heap (src/core/sceneData.js 58–103). -/
def normalizeSceneDataH (dv : HVal) : HM HVal := do
  let root ← copyOrMinimalH dv
  normalizeSceneBodyH root
  pure root

/-- The final state of a computation outcome (kept also on a throw). -/
def resHeap {α : Type} : EStateM.Result JsErr Heap α → Heap
  | .ok _ H => H
  | .error _ H => H

/-- The returned value satisfies `S` (trivially so for a throw). -/
def resOk {α : Type} (S : α → Prop) : EStateM.Result JsErr Heap α → Prop
  | .ok a _ => S a
  | .error _ _ => True

/-- The heap after running a computation, kept also when it throws. -/
def stateAfter {α : Type} (m : HM α) (H : Heap) : Heap :=
  resHeap (m H)

/-- The immediates stored in a cell. -/
def nodeVals : Node → List HVal
  | .narr xs => xs
  | .nobj fs => fs.map Prod.snd

/-- An immediate that cannot reach below the allocation watermark `base`. -/
def SafeV (base : Nat) (v : HVal) : Prop := ∀ a, v = .href a → base ≤ a

/-- A cell all of whose slots are safe. -/
def SafeNode (base : Nat) (n : Node) : Prop := ∀ v ∈ nodeVals n, SafeV base v

/-- Heap invariant: the watermark is at most the size, and every cell at or
above the watermark only references at or above it. -/
def InvH (base : Nat) (H : Heap) : Prop :=
  base ≤ H.length ∧ ∀ a n, base ≤ a → H.get? a = some n → SafeNode base n

/-- The two heaps agree strictly below `base`. -/
def agreeBelow (base : Nat) (H H' : Heap) : Prop :=
  ∀ a, a < base → H'.get? a = H.get? a

/-- Specification of a heap computation that never writes below the
watermark, preserves the invariant, and returns a value satisfying `S`
whenever it returns at all. -/
def HOk {α : Type} (base : Nat) (S : α → Prop) (m : HM α) : Prop :=
  ∀ H, InvH base H →
    agreeBelow base H (resHeap (m H)) ∧ InvH base (resHeap (m H)) ∧ resOk S (m H)

/-- Safety of a possibly-`undefined` immediate. -/
def SafeO (base : Nat) (x : Option HVal) : Prop := ∀ w, x = some w → SafeV base w

/-! ## Theorems -/

/-- **C4.** While `isPlaying` and `isRecording` hold, a render-loop tick
advances `currentTime` by exactly `(1/25) · playbackSpeed`, whatever the
wall-clock frame delta; and from `currentTime = 0` at `playbackSpeed = 1`
with the fixed scene duration 30 (large enough that the end-of-duration
branch never fires), any 500 ticks land exactly on `500/25 = 20`. -/
theorem c4_recording_tick_exact :
    (∀ (duration : ℚ) (s : PlayState) (deltaMs : ℚ),
      s.isPlaying = true → s.isRecording = true →
      (tick duration s deltaMs).currentTime =
        s.currentTime + (1 / 25) * s.playbackSpeed) ∧
    (∀ deltas : List ℚ, deltas.length = 500 →
      (runTicks 30 ⟨0, true, true, 1⟩ deltas).currentTime = 500 / 25) := by
  have step : ∀ (duration : ℚ) (s : PlayState) (deltaMs : ℚ),
      s.isPlaying = true → s.isRecording = true →
      (tick duration s deltaMs).currentTime =
        s.currentTime + (1 / 25) * s.playbackSpeed := by
    intro duration s deltaMs hp hr
    simp only [tick, hp, hr, if_true, RECORDING_FPS]
    split <;> simp
  refine ⟨step, ?_⟩
  have key : ∀ (deltas : List ℚ) (q : ℚ),
      q + deltas.length / 25 < 30 →
      (runTicks 30 ⟨q, true, true, 1⟩ deltas).currentTime = q + deltas.length / 25 := by
    intro deltas
    induction deltas with
    | nil => intro q hlt; simp [runTicks]
    | cons d rest ih =>
        intro q hlt
        have hlen : ((d :: rest).length : ℚ) = rest.length + 1 := by
          push_cast [List.length_cons]; ring
        have hq : q + 1 / 25 + (rest.length : ℚ) / 25 < 30 := by
          rw [hlen] at hlt; linarith
        have hstep : tick 30 ⟨q, true, true, 1⟩ d = ⟨q + 1 / 25, true, true, 1⟩ := by
          have hnn : (0 : ℚ) ≤ (rest.length : ℚ) := by positivity
          have hlt2 : q + 1 / 25 < 30 := by
            rw [hlen] at hlt
            linarith
          unfold tick
          simp only [RECORDING_FPS, if_true]
          rw [if_neg (by linarith : ¬ (30 : ℚ) ≤ q + 1 / 25 * 1)]
          simp
        have hfold : runTicks 30 ⟨q, true, true, 1⟩ (d :: rest) =
            runTicks 30 ⟨q + 1 / 25, true, true, 1⟩ rest := by
          simp only [runTicks, List.foldl_cons]
          rw [show tick 30 ⟨q, true, true, 1⟩ d = (⟨q + 1 / 25, true, true, 1⟩ : PlayState) from hstep]
        rw [hfold, ih _ hq, hlen]; ring
  intro deltas hlen
  have := key deltas 0 (by rw [hlen]; norm_num)
  rw [this, hlen]; norm_num

/-- Witness for C4 at a concrete state, delta and a concrete list of 500
jittery deltas. -/
theorem c4_recording_tick_exact_witness :
    (tick 30 ⟨3, true, true, 1⟩ 7).currentTime = 3 + (1 / 25) * 1 ∧
    (runTicks 30 ⟨0, true, true, 1⟩ (List.replicate 500 (997 / 60))).currentTime = 500 / 25 :=
  ⟨c4_recording_tick_exact.1 30 ⟨3, true, true, 1⟩ 7 rfl rfl,
   c4_recording_tick_exact.2 (List.replicate 500 (997 / 60)) (List.length_replicate 500 _)⟩

/-- Reduction of `Except` binds on a success, for `simp`-evaluation of the
embedded pipelines. -/
@[simp] theorem ok_bind {α β : Type} (x : α) (f : α → Except JsErr β) :
    (Except.ok x >>= f) = f x := rfl

/-- Reduction of `Except` binds on an error. -/
@[simp] theorem error_bind {α β : Type} (e : JsErr) (f : α → Except JsErr β) :
    ((Except.error e : Except JsErr α) >>= f) = Except.error e := rfl

/-- `pure` for the embedded pipelines is `Except.ok`. -/
@[simp] theorem pure_eq_ok {α : Type} (x : α) :
    (pure x : Except JsErr α) = Except.ok x := rfl

/-- The current-shot scan returns the first hit. -/
theorem find_shot_first (t : ℚ) :
    ∀ (shots : List ShotTime) (i : ℕ) (hi : i < shots.length),
      shotContains t (shots.get ⟨i, hi⟩) = true →
      (∀ (j : ℕ) (hj : j < shots.length), j < i →
        shotContains t (shots.get ⟨j, hj⟩) = false) →
      shots.find? (shotContains t) = some (shots.get ⟨i, hi⟩) := by
  intro shots
  induction shots with
  | nil => intro i hi; simp at hi
  | cons s rest ih =>
      intro i hi hhit hbefore
      cases i with
      | zero =>
          simp only [List.get] at hhit ⊢
          simp [List.find?_cons_of_pos, hhit]
      | succ i' =>
          have hs : shotContains t s = false := by
            have := hbefore 0 (by simp) (Nat.succ_pos i')
            simpa using this
          have hi' : i' < rest.length := by simpa using hi
          have hrest := ih i' hi' (by simpa using hhit) ?_
          · simp only [List.get]
            rw [List.find?_cons_of_neg _ (by simp [hs]), hrest]
          · intro j hj hlt
            have := hbefore (j + 1) (by simpa using Nat.succ_lt_succ hj) (Nat.succ_lt_succ hlt)
            simpa using this

/-- **C3.** For a non-empty shots list the lookup in `updateCameraPath`
selects exactly one shot: the first shot (in list order) whose half-open
window contains `t`; and when `t` is at or past every shot's end, the last
shot (terminal clamp, no out-of-bounds access). -/
theorem c3_select_shot_lookup (shots : List ShotTime) (t : ℚ) (hne : shots ≠ []) :
    (∃ s, selectShot shots t = some s) ∧
    (∀ (i : ℕ) (hi : i < shots.length),
      shotContains t (shots.get ⟨i, hi⟩) = true →
      (∀ (j : ℕ) (hj : j < shots.length), j < i →
        shotContains t (shots.get ⟨j, hj⟩) = false) →
      selectShot shots t = some (shots.get ⟨i, hi⟩)) ∧
    ((∀ s ∈ shots, ∃ b, s.stop = some b ∧ b ≤ t) →
      selectShot shots t = shots.getLast?) := by
  have hemp : shots.isEmpty = false := by
    cases shots with
    | nil => simp at hne
    | cons a l => simp
  refine ⟨?_, ?_, ?_⟩
  · unfold selectShot
    rw [hemp]
    simp only [Bool.false_eq_true, if_false]
    cases hf : shots.find? (shotContains t) with
    | some s => exact ⟨s, rfl⟩
    | none =>
        cases hL : shots.getLast? with
        | some s => exact ⟨s, rfl⟩
        | none =>
            cases shots with
            | nil => simp at hne
            | cons a l => simp [List.getLast?] at hL
  · intro i hi hhit hbefore
    unfold selectShot
    rw [hemp]
    simp only [Bool.false_eq_true, if_false]
    rw [find_shot_first t shots i hi hhit hbefore]
  · intro hall
    unfold selectShot
    rw [hemp]
    simp only [Bool.false_eq_true, if_false]
    have hf : shots.find? (shotContains t) = none := by
      rw [List.find?_eq_none]
      intro s hs
      obtain ⟨b, hb, hbt⟩ := hall s hs
      simp [shotContains, hb, not_lt.mpr hbt]
    rw [hf]

/-- Witness for C3: three concrete shots, a time inside the second window
and a time past every end. -/
theorem c3_select_shot_lookup_witness :
    ([⟨some 0, some 10⟩, ⟨some 10, some 20⟩] : List ShotTime) ≠ [] ∧
    selectShot [⟨some 0, some 10⟩, ⟨some 10, some 20⟩] 25 =
      ([⟨some 0, some 10⟩, ⟨some 10, some 20⟩] : List ShotTime).getLast? := by
  refine ⟨by simp, ?_⟩
  exact (c3_select_shot_lookup [⟨some 0, some 10⟩, ⟨some 10, some 20⟩] 25 (by simp)).2.2
    (by intro s hs; fin_cases hs <;> exact ⟨_, rfl, by norm_num⟩)

/-- **C9.** The per-frame FOV is `lerp(fovRange, easedT)` plus the tempo
modulation term, and the value written to the camera always lies in
`[32, 110]`; for the shot `time = [0,6]`, `fov = [55,74]` at `t = 3`
(shot-local progress `0.5`, smooth easing, so `easedT = 0.5`) with all tempo
modulation zero, the FOV is exactly `64.5`. -/
theorem c9_fov_clamped_and_example :
    (∀ fov0 fov1 tempoFov pulse audioPulse easedT : ℝ,
      computeFov fov0 fov1 tempoFov pulse audioPulse easedT =
        clampR (lerpR fov0 fov1 easedT +
          (if tempoFov ≠ 0 then pulse * tempoFov * 0.4 + audioPulse * tempoFov * 0.3
           else 0)) 32 110 ∧
      32 ≤ computeFov fov0 fov1 tempoFov pulse audioPulse easedT ∧
      computeFov fov0 fov1 tempoFov pulse audioPulse easedT ≤ 110) ∧
    applyEasing ((shotProgress 0 6 3 : ℚ) : ℝ) "smooth" = 0.5 ∧
    computeFov 55 74 0 0 0 ((shotProgress 0 6 3 : ℚ) : ℝ) = 64.5 := by
  have hprog : (shotProgress 0 6 3 : ℚ) = 1 / 2 := by
    norm_num [shotProgress]
  refine ⟨?_, ?_, ?_⟩
  · intro fov0 fov1 tempoFov pulse audioPulse easedT
    refine ⟨?_, le_max_left _ _, ?_⟩
    · unfold computeFov
      split <;> simp <;> ring
    · unfold computeFov clampR
      exact max_le (by norm_num) (min_le_left _ _)
  · rw [hprog]
    have hsm : ∀ u : ℝ, applyEasing u "smooth" = u * u * (3 - 2 * u) := fun u => rfl
    rw [hsm]
    push_cast
    norm_num
  · rw [hprog]
    unfold computeFov clampR lerpR
    norm_num

/-- `updateTempoState` writes `audioPulse` as the 0.25-lerp toward the
energy-derived target. -/
theorem update_audioPulse (inp : TempoInput) (s : TempoState) :
    (updateTempoState inp s).audioPulse =
      lerpQ s.audioPulse (max 0 ((inp.lastAudioEnergy - 0.22) * 1.35)) 0.25 := rfl

/-- `updateTempoState` writes `energy` as the 0.3-lerp toward the sampled
energy. -/
theorem update_energy (inp : TempoInput) (s : TempoState) :
    (updateTempoState inp s).energy = lerpQ s.energy inp.lastAudioEnergy 0.3 := rfl

/-- `updateTempoState`'s stored beat phase, in terms of its own updated beat
bookkeeping. -/
theorem update_clampedPhase (inp : TempoInput) (s : TempoState) :
    (updateTempoState inp s).clampedPhase =
      max 0 (min 1
        (if 0 < max (if 0 < s.beatDuration then s.beatDuration else 60 / DEFAULT_BPM)
            ((updateTempoState inp s).nextBeatTime - (updateTempoState inp s).lastBeatTime)
         then (inp.currentTime - (updateTempoState inp s).lastBeatTime) /
            max (if 0 < s.beatDuration then s.beatDuration else 60 / DEFAULT_BPM)
              ((updateTempoState inp s).nextBeatTime - (updateTempoState inp s).lastBeatTime)
         else 0)) := rfl

/-- `updateTempoState` writes `accent` from the fresh phase and the fresh
`audioPulse`. -/
theorem update_accent (inp : TempoInput) (s : TempoState) :
    (updateTempoState inp s).accent =
      min 1 (max (max 0 (1 - (updateTempoState inp s).clampedPhase * 8))
        (max 0 (((updateTempoState inp s).audioPulse - 0.45) * 1.6))) := rfl

/-- The effective beat duration used by one update is positive. -/
theorem effBd_pos (s : TempoState) :
    0 < (if 0 < s.beatDuration then s.beatDuration else 60 / DEFAULT_BPM) := by
  by_cases h : 0 < s.beatDuration
  · simpa [h]
  · simp only [h, if_false]
    norm_num [DEFAULT_BPM]

/-- **C5.** After every `updateTempoState` call, with `phase` the clamped
position of `currentTime` in the current beat span (computed from the
updated `lastBeatTime`/`nextBeatTime` and the effective beat duration), the
outputs satisfy exactly: `beatPulse = sin(π·phase)²`; `audioPulse` is the
previous `audioPulse` lerped by `0.25` toward `max(0, (energy−0.22)·1.35)`;
`pulse = min(1, 0.6·beatPulse + 0.7·audioPulse)`;
`wave = sin(2π·phase)·(0.6 + 0.4·audioPulse)`; and
`accent = min(1, max(max(0, 1−8·phase), max(0, (audioPulse−0.45)·1.6)))`. -/
theorem c5_tempo_signal_formulas (inp : TempoInput) (s : TempoState) :
    let s2 := updateTempoState inp s
    let bd := if 0 < s.beatDuration then s.beatDuration else 60 / DEFAULT_BPM
    let span := max bd (s2.nextBeatTime - s2.lastBeatTime)
    let phase : ℚ := max 0 (min 1 ((inp.currentTime - s2.lastBeatTime) / span))
    s2.beatPulse = Real.sin (Real.pi * (phase : ℝ)) ^ 2 ∧
    s2.audioPulse =
      s.audioPulse + (max 0 ((inp.lastAudioEnergy - 0.22) * 1.35) - s.audioPulse) * 0.25 ∧
    s2.pulse = min 1 (0.6 * s2.beatPulse + 0.7 * (s2.audioPulse : ℝ)) ∧
    s2.wave = Real.sin (2 * Real.pi * (phase : ℝ)) * (0.6 + 0.4 * (s2.audioPulse : ℝ)) ∧
    s2.accent =
      min 1 (max (max 0 (1 - 8 * phase)) (max 0 ((s2.audioPulse - 0.45) * 1.6))) := by
  intro s2 bd span phase
  have hspan : 0 < span := lt_of_lt_of_le (effBd_pos s) (le_max_left _ _)
  have hcp : s2.clampedPhase = phase := by
    show (updateTempoState inp s).clampedPhase = _
    rw [update_clampedPhase]
    rw [if_pos hspan]
  refine ⟨?_, ?_, ?_, ?_, ?_⟩
  · show Real.sin (s2.clampedPhase * Real.pi) ^ 2 = _
    rw [hcp, mul_comm]
  · exact rfl
  · show min 1 (s2.beatPulse * 0.6 + (s2.audioPulse : ℝ) * 0.7) = _
    congr 1
    ring
  · show Real.sin (s2.clampedPhase * Real.pi * 2) * (0.6 + (s2.audioPulse : ℝ) * 0.4) = _
    rw [hcp]
    congr 1
    · congr 1
      push_cast
      ring
    · ring
  · rw [update_accent, hcp]
    congr 2
    ring

/-- **C2 (counterexample).** One update from the reset state with the
adversarial input `lastAudioEnergy = -1` (the claim explicitly includes
negative energy inputs) drives `tempoState.energy` to `-3/10`, outside
`[0, 1]`: the energy smoothing `lerp(energy, lastAudioEnergy, 0.3)` is not
clamped. -/
theorem c2_unit_interval_counterexample :
    (updateTempoState ⟨0, -1, false, true, none⟩ (resetTempoState 120)).energy = -(3 / 10) ∧
    ¬ (0 ≤ (updateTempoState ⟨0, -1, false, true, none⟩ (resetTempoState 120)).energy ∧
        (updateTempoState ⟨0, -1, false, true, none⟩ (resetTempoState 120)).energy ≤ 1) := by
  have h : (updateTempoState ⟨0, -1, false, true, none⟩ (resetTempoState 120)).energy
      = -(3 / 10) := by
    rw [update_energy]
    norm_num [lerpQ, resetTempoState]
  refine ⟨h, ?_⟩
  rw [h]
  norm_num

/-- One update keeps `audioPulse` nonnegative. -/
theorem update_audioPulse_nonneg (inp : TempoInput) (s : TempoState)
    (h : 0 ≤ s.audioPulse) : 0 ≤ (updateTempoState inp s).audioPulse := by
  rw [update_audioPulse]
  have ht : (0 : ℚ) ≤ max 0 ((inp.lastAudioEnergy - 0.22) * 1.35) := le_max_left _ _
  unfold lerpQ
  linarith

/-- One update keeps `audioPulse ≤ 1` as long as the sampled energy does not
exceed `0.22 + 1/1.35 = 1297/1350`. -/
theorem update_audioPulse_le_one (inp : TempoInput) (s : TempoState)
    (h : s.audioPulse ≤ 1) (he : inp.lastAudioEnergy ≤ 1297 / 1350) :
    (updateTempoState inp s).audioPulse ≤ 1 := by
  rw [update_audioPulse]
  have ht : max 0 ((inp.lastAudioEnergy - 0.22) * 1.35) ≤ 1 := by
    apply max_le
    · norm_num
    · nlinarith
  unfold lerpQ
  linarith

/-- One update keeps `energy` nonnegative for nonnegative inputs. -/
theorem update_energy_nonneg (inp : TempoInput) (s : TempoState)
    (h : 0 ≤ s.energy) (he : 0 ≤ inp.lastAudioEnergy) :
    0 ≤ (updateTempoState inp s).energy := by
  rw [update_energy]
  unfold lerpQ
  linarith

/-- One update keeps `energy ≤ 1` for inputs `≤ 1`. -/
theorem update_energy_le_one (inp : TempoInput) (s : TempoState)
    (h : s.energy ≤ 1) (he : inp.lastAudioEnergy ≤ 1) :
    (updateTempoState inp s).energy ≤ 1 := by
  rw [update_energy]
  unfold lerpQ
  linarith

/-- After any update, `accent ∈ [0, 1]` (it is written clamped). -/
theorem update_accent_mem (inp : TempoInput) (s : TempoState) :
    0 ≤ (updateTempoState inp s).accent ∧ (updateTempoState inp s).accent ≤ 1 := by
  rw [update_accent]
  constructor
  · apply le_min
    · norm_num
    · exact le_trans (le_max_left _ _) (le_max_left _ _)
  · exact min_le_left _ _

/-- `beatPulse` is a squared sine, hence in `[0, 1]` in every state. -/
theorem beatPulse_mem (s : TempoState) : 0 ≤ s.beatPulse ∧ s.beatPulse ≤ 1 :=
  ⟨sq_nonneg _, Real.sin_sq_le_one _⟩

/-- `pulse` is clamped above and, when `audioPulse` is nonnegative,
nonnegative. -/
theorem pulse_mem (s : TempoState) (h : 0 ≤ s.audioPulse) :
    0 ≤ s.pulse ∧ s.pulse ≤ 1 := by
  unfold TempoState.pulse
  constructor
  · apply le_min
    · norm_num
    · have h1 := (beatPulse_mem s).1
      have h2 : (0 : ℝ) ≤ (s.audioPulse : ℝ) := by exact_mod_cast h
      nlinarith
  · exact min_le_left _ _

/-- `runTempo` step unfolding. -/
theorem runTempo_cons (s : TempoState) (i : TempoInput) (rest : List TempoInput) :
    runTempo s (i :: rest) = runTempo (updateTempoState i s) rest := rfl

/-- Nonnegativity of `audioPulse` and `energy` along any run with
nonnegative energy inputs. -/
theorem runTempo_nonneg (inps : List TempoInput) :
    ∀ s : TempoState, (∀ i ∈ inps, 0 ≤ i.lastAudioEnergy) →
      0 ≤ s.audioPulse → 0 ≤ s.energy →
      0 ≤ (runTempo s inps).audioPulse ∧ 0 ≤ (runTempo s inps).energy := by
  induction inps with
  | nil => intro s _ h1 h2; exact ⟨h1, h2⟩
  | cons i rest ih =>
      intro s he h1 h2
      rw [runTempo_cons]
      exact ih _ (fun j hj => he j (List.mem_cons_of_mem i hj))
        (update_audioPulse_nonneg i s h1)
        (update_energy_nonneg i s h2 (he i (List.mem_cons_self i rest)))

/-- `audioPulse` stays `≤ 1` along runs whose energy inputs stay at or below
`1297/1350`. -/
theorem runTempo_audioPulse_le (inps : List TempoInput) :
    ∀ s : TempoState, (∀ i ∈ inps, i.lastAudioEnergy ≤ 1297 / 1350) →
      s.audioPulse ≤ 1 → (runTempo s inps).audioPulse ≤ 1 := by
  induction inps with
  | nil => intro s _ h1; exact h1
  | cons i rest ih =>
      intro s he h1
      rw [runTempo_cons]
      exact ih _ (fun j hj => he j (List.mem_cons_of_mem i hj))
        (update_audioPulse_le_one i s h1 (he i (List.mem_cons_self i rest)))

/-- `energy` stays `≤ 1` along runs whose energy inputs stay `≤ 1`. -/
theorem runTempo_energy_le (inps : List TempoInput) :
    ∀ s : TempoState, (∀ i ∈ inps, i.lastAudioEnergy ≤ 1) →
      s.energy ≤ 1 → (runTempo s inps).energy ≤ 1 := by
  induction inps with
  | nil => intro s _ h1; exact h1
  | cons i rest ih =>
      intro s he h1
      rw [runTempo_cons]
      exact ih _ (fun j hj => he j (List.mem_cons_of_mem i hj))
        (update_energy_le_one i s h1 (he i (List.mem_cons_self i rest)))

/-- `accent ∈ [0, 1]` along any run started in a state satisfying it. -/
theorem runTempo_accent_mem (inps : List TempoInput) :
    ∀ s : TempoState, 0 ≤ s.accent → s.accent ≤ 1 →
      0 ≤ (runTempo s inps).accent ∧ (runTempo s inps).accent ≤ 1 := by
  induction inps with
  | nil => intro s h1 h2; exact ⟨h1, h2⟩
  | cons i rest ih =>
      intro s _ _
      rw [runTempo_cons]
      exact ih _ (update_accent_mem i s).1 (update_accent_mem i s).2

/-- **C2 (amended).** Starting from the reset state (all signal fields 0),
after every prefix of updates: `beatPulse`, `pulse` and `accent` stay in
`[0, 1]` whenever the energy inputs are nonnegative; `audioPulse` stays
nonnegative unconditionally in the inputs and stays `≤ 1` provided the
energy inputs never exceed `0.22 + 1/1.35 = 1297/1350 ≈ 0.9607` (a sustained
energy above that bound drives `audioPulse` over 1 — it is not clamped);
`energy` stays in `[0, 1]` provided the inputs do (with negative inputs it
goes negative, see the counterexample). -/
theorem c2_amended_unit_intervals (bpm : ℚ) (inps : List TempoInput)
    (henergy : ∀ i ∈ inps, 0 ≤ i.lastAudioEnergy) (n : ℕ) :
    let s := runTempo (resetTempoState bpm) (inps.take n)
    (0 ≤ s.beatPulse ∧ s.beatPulse ≤ 1) ∧
    (0 ≤ s.pulse ∧ s.pulse ≤ 1) ∧
    (0 ≤ s.accent ∧ s.accent ≤ 1) ∧
    (0 ≤ s.audioPulse ∧
      ((∀ i ∈ inps, i.lastAudioEnergy ≤ 1297 / 1350) → s.audioPulse ≤ 1)) ∧
    (0 ≤ s.energy ∧ ((∀ i ∈ inps, i.lastAudioEnergy ≤ 1) → s.energy ≤ 1)) := by
  intro s
  have htake : ∀ i ∈ inps.take n, 0 ≤ i.lastAudioEnergy :=
    fun i hi => henergy i (List.take_subset n inps hi)
  have hreset_ap : (resetTempoState bpm).audioPulse = 0 := rfl
  have hreset_en : (resetTempoState bpm).energy = 0 := rfl
  have hreset_ac : (resetTempoState bpm).accent = 0 := rfl
  have hnn := runTempo_nonneg (inps.take n) (resetTempoState bpm) htake
    (by rw [hreset_ap]) (by rw [hreset_en])
  refine ⟨beatPulse_mem s, pulse_mem s hnn.1, ?_, ⟨hnn.1, ?_⟩, ⟨hnn.2, ?_⟩⟩
  · exact runTempo_accent_mem (inps.take n) (resetTempoState bpm)
      (by rw [hreset_ac]) (by rw [hreset_ac]; norm_num)
  · intro hcap
    exact runTempo_audioPulse_le (inps.take n) (resetTempoState bpm)
      (fun i hi => hcap i (List.take_subset n inps hi))
      (by rw [hreset_ap]; norm_num)
  · intro hcap
    exact runTempo_energy_le (inps.take n) (resetTempoState bpm)
      (fun i hi => hcap i (List.take_subset n inps hi))
      (by rw [hreset_en]; norm_num)

/-- Witness for C2 (amended) on a concrete one-frame run. -/
theorem c2_amended_unit_intervals_witness :
    (∀ i ∈ ([⟨0, 1/2, false, true, none⟩] : List TempoInput), 0 ≤ i.lastAudioEnergy) ∧
    (let s := runTempo (resetTempoState 120)
      (([⟨0, 1/2, false, true, none⟩] : List TempoInput).take 1)
     (0 ≤ s.beatPulse ∧ s.beatPulse ≤ 1) ∧
     (0 ≤ s.pulse ∧ s.pulse ≤ 1) ∧
     (0 ≤ s.accent ∧ s.accent ≤ 1) ∧
     (0 ≤ s.audioPulse ∧
       ((∀ i ∈ ([⟨0, 1/2, false, true, none⟩] : List TempoInput),
          i.lastAudioEnergy ≤ 1297 / 1350) → s.audioPulse ≤ 1)) ∧
     (0 ≤ s.energy ∧
       ((∀ i ∈ ([⟨0, 1/2, false, true, none⟩] : List TempoInput),
          i.lastAudioEnergy ≤ 1) → s.energy ≤ 1))) := by
  have h : ∀ i ∈ ([⟨0, 1/2, false, true, none⟩] : List TempoInput),
      0 ≤ i.lastAudioEnergy := by
    intro i hi
    rw [List.mem_singleton] at hi
    subst hi
    norm_num
  exact ⟨h, c2_amended_unit_intervals 120 _ h 1⟩

/-- One-step unfolding of the beat walk, phrased through `List.get?` (the
source's `beats[beatIndex]` bounds check). -/
theorem walkBeats_eq (beats : List ℚ) (t : ℚ) (bi : ℕ) (lbt : ℚ) :
    walkBeats beats t bi lbt =
      match beats.get? bi with
      | some b => if b ≤ t then walkBeats beats t (bi + 1) b else (bi, lbt)
      | none => (bi, lbt) := by
  rw [walkBeats]
  by_cases h : bi < beats.length
  · rw [dif_pos h, List.get?_eq_get h]
  · rw [dif_neg h, List.get?_eq_none.mpr (le_of_not_lt h)]

/-- The updated bookkeeping triple is `tempoBookkeep` applied to the
previous triple and the effective beat duration. -/
theorem update_triple (inp : TempoInput) (s : TempoState) :
    tempoTriple (updateTempoState inp s) =
      tempoBookkeep inp.beats
        (if 0 < s.beatDuration then s.beatDuration else 60 / DEFAULT_BPM)
        inp.currentTime s.beatIndex s.lastBeatTime s.nextBeatTime := rfl

/-- `update_triple`, rephrased through an explicitly given previous triple
and beat duration. -/
theorem update_triple_of (inp : TempoInput) (s : TempoState) (bi : ℕ) (lbt nbt bd : ℚ)
    (h : tempoTriple s = (bi, lbt, nbt)) (hbd : s.beatDuration = bd) :
    tempoTriple (updateTempoState inp s) =
      tempoBookkeep inp.beats (if 0 < bd then bd else 60 / DEFAULT_BPM)
        inp.currentTime bi lbt nbt := by
  have h1 : s.beatIndex = bi := by
    have := congrArg Prod.fst h
    simpa [tempoTriple] using this
  have h2 : s.lastBeatTime = lbt := by
    have := congrArg (fun p : ℕ × ℚ × ℚ => p.2.1) h
    simpa [tempoTriple] using this
  have h3 : s.nextBeatTime = nbt := by
    have := congrArg (fun p : ℕ × ℚ × ℚ => p.2.2) h
    simpa [tempoTriple] using this
  rw [update_triple, h1, h2, h3, hbd]

/-- `lastBeatTime` is the middle component of the triple. -/
theorem lastBeatTime_eq_triple (s : TempoState) : s.lastBeatTime = (tempoTriple s).2.1 := rfl

/-- `updateTempoState` does not touch `beatDuration` when no audio is
attached (the opportunistic re-estimation branch requires `hasAudio`). -/
theorem update_bd_noaudio (inp : TempoInput) (s : TempoState) (h : inp.hasAudio = false) :
    (updateTempoState inp s).beatDuration = s.beatDuration := by
  unfold updateTempoState
  simp [h]

/-- `beatDuration` is constant along an audio-free run. -/
theorem runTempo_bd_noaudio (inps : List TempoInput) :
    ∀ s : TempoState, (∀ i ∈ inps, i.hasAudio = false) →
      (runTempo s inps).beatDuration = s.beatDuration := by
  induction inps with
  | nil => intro s _; rfl
  | cons i rest ih =>
      intro s h
      rw [runTempo_cons, ih _ (fun j hj => h j (List.mem_cons_of_mem i hj)),
        update_bd_noaudio i s (h i (List.mem_cons_self i rest))]

/-- Two audio-free runs over the same inputs from states agreeing on the
bookkeeping triple and the beat duration keep agreeing on the triple. -/
theorem runTempo_triple_congr (inps : List TempoInput) :
    ∀ s t : TempoState, (∀ i ∈ inps, i.hasAudio = false) →
      tempoTriple s = tempoTriple t → s.beatDuration = t.beatDuration →
      tempoTriple (runTempo s inps) = tempoTriple (runTempo t inps) := by
  induction inps with
  | nil => intro s t _ h3 _; exact h3
  | cons i rest ih =>
      intro s t hna h3 hbd
      rw [runTempo_cons, runTempo_cons]
      have hna_i := hna i (List.mem_cons_self i rest)
      refine ih _ _ (fun j hj => hna j (List.mem_cons_of_mem i hj)) ?_ ?_
      · rw [update_triple, update_triple, hbd]
        have h1 : s.beatIndex = t.beatIndex := by
          have := congrArg Prod.fst h3
          simpa [tempoTriple] using this
        have h2 : s.lastBeatTime = t.lastBeatTime := by
          have := congrArg (fun p : ℕ × ℚ × ℚ => p.2.1) h3
          simpa [tempoTriple] using this
        have h4 : s.nextBeatTime = t.nextBeatTime := by
          have := congrArg (fun p : ℕ × ℚ × ℚ => p.2.2) h3
          simpa [tempoTriple] using this
        rw [h1, h2, h4]
      · rw [update_bd_noaudio i s hna_i, update_bd_noaudio i t hna_i, hbd]

/-- **C7 (counterexample).** With beats `[0.00005, 0.00008, 5]` and the
sampled times `[0, 0.00009]`, the initial run's first step has
`lastBeatTime = 0`, but after running to the end and replaying the same
times, the first replayed step keeps the stale `lastBeatTime = 0.00008`: the
rewind test `currentTime + 0.0001 < lastBeatTime` fails because the passed
beat lies within the `0.0001` epsilon of the replayed time, so the beat
bookkeeping is not reproduced. -/
theorem c7_rewind_replay_counterexample :
    (updateTempoState ⟨0, 0, false, true, some [1/20000, 1/12500, 5]⟩
      (runTempo (resetTempoState 120)
        [⟨0, 0, false, true, some [1/20000, 1/12500, 5]⟩,
         ⟨9/100000, 0, false, true, some [1/20000, 1/12500, 5]⟩])).lastBeatTime ≠
    (updateTempoState ⟨0, 0, false, true, some [1/20000, 1/12500, 5]⟩
      (resetTempoState 120)).lastBeatTime := by
  have hreset_bd : (resetTempoState 120).beatDuration = 1 / 2 := by
    norm_num [resetTempoState]
  have hreset_tr : tempoTriple (resetTempoState 120) = (0, 0, 1 / 2) := by
    norm_num [tempoTriple, resetTempoState]
  have ht1 : tempoTriple (updateTempoState ⟨0, 0, false, true, some [1/20000, 1/12500, 5]⟩
      (resetTempoState 120)) = (0, 0, 1/20000) := by
    rw [update_triple_of _ _ 0 0 (1/2) (1/2) hreset_tr hreset_bd]
    norm_num [tempoBookkeep, walkBeats_eq, List.get?]
  have hbd1 : (updateTempoState ⟨0, 0, false, true, some [1/20000, 1/12500, 5]⟩
      (resetTempoState 120)).beatDuration = 1 / 2 := by
    rw [update_bd_noaudio _ _ rfl, hreset_bd]
  have ht2 : tempoTriple (updateTempoState ⟨9/100000, 0, false, true, some [1/20000, 1/12500, 5]⟩
      (updateTempoState ⟨0, 0, false, true, some [1/20000, 1/12500, 5]⟩
        (resetTempoState 120))) = (2, 1/12500, 5) := by
    rw [update_triple_of _ _ 0 0 (1/20000) (1/2) ht1 hbd1]
    norm_num [tempoBookkeep, walkBeats_eq, List.get?]
  have hbd2 : (updateTempoState ⟨9/100000, 0, false, true, some [1/20000, 1/12500, 5]⟩
      (updateTempoState ⟨0, 0, false, true, some [1/20000, 1/12500, 5]⟩
        (resetTempoState 120))).beatDuration = 1 / 2 := by
    rw [update_bd_noaudio _ _ rfl, hbd1]
  have hrun : runTempo (resetTempoState 120)
      [⟨0, 0, false, true, some [1/20000, 1/12500, 5]⟩,
       ⟨9/100000, 0, false, true, some [1/20000, 1/12500, 5]⟩] =
      updateTempoState ⟨9/100000, 0, false, true, some [1/20000, 1/12500, 5]⟩
        (updateTempoState ⟨0, 0, false, true, some [1/20000, 1/12500, 5]⟩
          (resetTempoState 120)) := rfl
  have ht3 : tempoTriple (updateTempoState ⟨0, 0, false, true, some [1/20000, 1/12500, 5]⟩
      (runTempo (resetTempoState 120)
        [⟨0, 0, false, true, some [1/20000, 1/12500, 5]⟩,
         ⟨9/100000, 0, false, true, some [1/20000, 1/12500, 5]⟩])) = (2, 1/12500, 5) := by
    rw [hrun, update_triple_of _ _ 2 (1/12500) 5 (1/2) ht2 hbd2]
    norm_num [tempoBookkeep, walkBeats_eq, List.get?]
  rw [lastBeatTime_eq_triple, lastBeatTime_eq_triple, ht1, ht3]
  norm_num

/-- **C7 (amended).** Fix the scene's beat data and disable the live-audio
tempo re-estimation (`hasAudio = false` on every frame, so `beatDuration`
stays fixed, as the claim presumes).  If the first replayed time actually
triggers the rewind detection — `ts₀ + 0.0001 < lastBeatTime` at the end of
the first run — then replaying the same sampled times from the end state
reproduces exactly the same `(beatIndex, lastBeatTime, nextBeatTime)` after
every step as the initial run from the reset state. -/
theorem c7_amended_replay_determinism (bpm : ℚ) (hbpm : 0 < bpm)
    (first : TempoInput) (rest : List TempoInput)
    (hnoaudio : ∀ i ∈ first :: rest, i.hasAudio = false)
    (hrw : first.currentTime + 0.0001 <
      (runTempo (resetTempoState bpm) (first :: rest)).lastBeatTime) :
    ∀ n : ℕ,
      tempoTriple (runTempo (runTempo (resetTempoState bpm) (first :: rest))
        ((first :: rest).take (n + 1))) =
      tempoTriple (runTempo (resetTempoState bpm) ((first :: rest).take (n + 1))) := by
  intro n
  rw [List.take_succ_cons]
  have hbd0 : (resetTempoState bpm).beatDuration = 60 / bpm := rfl
  have hbdE : (runTempo (resetTempoState bpm) (first :: rest)).beatDuration = 60 / bpm :=
    (runTempo_bd_noaudio _ _ hnoaudio).trans hbd0
  have hpos : 0 < 60 / bpm := by positivity
  have h1 : tempoTriple (updateTempoState first
        (runTempo (resetTempoState bpm) (first :: rest))) =
      tempoTriple (updateTempoState first (resetTempoState bpm)) := by
    rw [update_triple_of first (runTempo (resetTempoState bpm) (first :: rest))
        (runTempo (resetTempoState bpm) (first :: rest)).beatIndex
        (runTempo (resetTempoState bpm) (first :: rest)).lastBeatTime
        (runTempo (resetTempoState bpm) (first :: rest)).nextBeatTime
        (60 / bpm) rfl hbdE,
      update_triple_of first (resetTempoState bpm) 0 0 (60 / bpm) (60 / bpm)
        rfl hbd0]
    unfold tempoBookkeep
    rw [if_pos hrw, if_pos hpos]
    by_cases h : first.currentTime + 0.0001 < (0 : ℚ)
    · rw [if_pos h]
    · rw [if_neg h]
  have hna_first := hnoaudio first (List.mem_cons_self first rest)
  rw [runTempo_cons, runTempo_cons]
  refine runTempo_triple_congr (rest.take n) _ _
    (fun i hi => hnoaudio i (List.mem_cons_of_mem first (List.take_subset n rest hi)))
    h1 ?_
  rw [update_bd_noaudio first _ hna_first, update_bd_noaudio first _ hna_first,
    runTempo_bd_noaudio rest _ (fun i hi => hnoaudio i (List.mem_cons_of_mem first hi)),
    update_bd_noaudio first _ hna_first]

/-- Witness for C7 (amended): beats on a half-second grid, times `[1, 2]`;
the final `lastBeatTime` is `2`, and `1 + 0.0001 < 2` triggers the rewind
reset on replay. -/
theorem c7_amended_replay_determinism_witness :
    (0 : ℚ) < 120 ∧
    (∀ i ∈ ([⟨1, 0, false, true, some [1/2, 1, 3/2, 2]⟩,
             ⟨2, 0, false, true, some [1/2, 1, 3/2, 2]⟩] : List TempoInput),
      i.hasAudio = false) ∧
    (1 : ℚ) + 0.0001 <
      (runTempo (resetTempoState 120)
        [⟨1, 0, false, true, some [1/2, 1, 3/2, 2]⟩,
         ⟨2, 0, false, true, some [1/2, 1, 3/2, 2]⟩]).lastBeatTime ∧
    tempoTriple (runTempo (runTempo (resetTempoState 120)
        [⟨1, 0, false, true, some [1/2, 1, 3/2, 2]⟩,
         ⟨2, 0, false, true, some [1/2, 1, 3/2, 2]⟩])
      (([⟨1, 0, false, true, some [1/2, 1, 3/2, 2]⟩,
         ⟨2, 0, false, true, some [1/2, 1, 3/2, 2]⟩] : List TempoInput).take (0 + 1))) =
    tempoTriple (runTempo (resetTempoState 120)
      (([⟨1, 0, false, true, some [1/2, 1, 3/2, 2]⟩,
         ⟨2, 0, false, true, some [1/2, 1, 3/2, 2]⟩] : List TempoInput).take (0 + 1))) := by
  have hreset_bd : (resetTempoState 120).beatDuration = 1 / 2 := by
    norm_num [resetTempoState]
  have hreset_tr : tempoTriple (resetTempoState 120) = (0, 0, 1 / 2) := by
    norm_num [tempoTriple, resetTempoState]
  have hna : ∀ i ∈ ([⟨1, 0, false, true, some [1/2, 1, 3/2, 2]⟩,
      ⟨2, 0, false, true, some [1/2, 1, 3/2, 2]⟩] : List TempoInput),
      i.hasAudio = false := by
    intro i hi
    rcases List.mem_cons.mp hi with h | hi2
    · rw [h]
    · rcases List.mem_cons.mp hi2 with h | h
      · rw [h]
      · exact absurd h (List.not_mem_nil i)
  have ht1 : tempoTriple (updateTempoState ⟨1, 0, false, true, some [1/2, 1, 3/2, 2]⟩
      (resetTempoState 120)) = (2, 1, 3/2) := by
    rw [update_triple_of _ _ 0 0 (1/2) (1/2) hreset_tr hreset_bd]
    norm_num [tempoBookkeep, walkBeats_eq, List.get?]
  have hbd1 : (updateTempoState ⟨1, 0, false, true, some [1/2, 1, 3/2, 2]⟩
      (resetTempoState 120)).beatDuration = 1 / 2 := by
    rw [update_bd_noaudio _ _ rfl, hreset_bd]
  have ht2 : tempoTriple (updateTempoState ⟨2, 0, false, true, some [1/2, 1, 3/2, 2]⟩
      (updateTempoState ⟨1, 0, false, true, some [1/2, 1, 3/2, 2]⟩
        (resetTempoState 120))) = (4, 2, 5/2) := by
    rw [update_triple_of _ _ 2 1 (3/2) (1/2) ht1 hbd1]
    norm_num [tempoBookkeep, walkBeats_eq, List.get?]
  have hrun : runTempo (resetTempoState 120)
      [⟨1, 0, false, true, some [1/2, 1, 3/2, 2]⟩,
       ⟨2, 0, false, true, some [1/2, 1, 3/2, 2]⟩] =
      updateTempoState ⟨2, 0, false, true, some [1/2, 1, 3/2, 2]⟩
        (updateTempoState ⟨1, 0, false, true, some [1/2, 1, 3/2, 2]⟩
          (resetTempoState 120)) := rfl
  have hlbt : (runTempo (resetTempoState 120)
      [⟨1, 0, false, true, some [1/2, 1, 3/2, 2]⟩,
       ⟨2, 0, false, true, some [1/2, 1, 3/2, 2]⟩]).lastBeatTime = 2 := by
    rw [lastBeatTime_eq_triple, hrun, ht2]
  have hrw : (1 : ℚ) + 0.0001 <
      (runTempo (resetTempoState 120)
        [⟨1, 0, false, true, some [1/2, 1, 3/2, 2]⟩,
         ⟨2, 0, false, true, some [1/2, 1, 3/2, 2]⟩]).lastBeatTime := by
    rw [hlbt]
    norm_num
  exact ⟨by norm_num, hna, hrw,
    c7_amended_replay_determinism 120 (by norm_num) _ _ hna hrw 0⟩

/-! ### Structural lemmas for the `normalizeSceneData` pipeline -/

/-- Inversion of a successful `Except` bind. -/
theorem except_bind_ok {α β : Type} {x : Except JsErr α} {f : α → Except JsErr β} {b : β} :
    (x >>= f) = .ok b ↔ ∃ a, x = .ok a ∧ f a = .ok b := by
  cases x <;> simp

/-- A successful property write targets an object and performs the
association-list update. -/
theorem setProp_ok {n : Jv} {k : String} {v m : Jv} (h : setProp n k v = .ok m) :
    ∃ fs, n = .obj fs ∧ m = .obj (setField fs k v) := by
  cases n <;> simp [setProp] at h
  exact ⟨_, rfl, h.symm⟩

/-- Lookup after update-or-append. -/
theorem lookupField_setField (fs : List (String × Jv)) (k : String) (v : Jv) (k' : String) :
    lookupField (setField fs k v) k' = if k' = k then some v else lookupField fs k' := by
  induction fs with
  | nil =>
      by_cases h : k' = k
      · simp [setField, lookupField, h]
      · simp [setField, lookupField, h, Ne.symm h]
  | cons p rest ih =>
      obtain ⟨pk, pv⟩ := p
      by_cases h1 : pk = k
      · subst h1
        by_cases h2 : k' = pk
        · subst h2
          simp [setField, lookupField]
        · simp [setField, lookupField, h2, Ne.symm h2]
      · by_cases h2 : pk = k'
        · subst h2
          simp [setField, lookupField, h1, Ne.symm h1]
        · simp [setField, lookupField, h1, h2, ih]

/-- `readProp` on an object is the lookup. -/
theorem readProp_obj (fs : List (String × Jv)) (k : String) :
    readProp (.obj fs) k = .ok (lookupField fs k) := rfl

/-- A defined property read comes from an object. -/
theorem readProp_ok_some {x : Jv} {k : String} {v : Jv}
    (h : readProp x k = .ok (some v)) :
    ∃ fs, x = .obj fs ∧ lookupField fs k = some v := by
  cases x <;> simp [readProp] at h
  exact ⟨_, rfl, h⟩

/-- `setProp` changes nothing but `k`. -/
theorem setProp_keys {n : Jv} {k : String} {v m : Jv} (h : setProp n k v = .ok m) :
    KeysExcept [k] n m := by
  obtain ⟨fs, hn, hm⟩ := setProp_ok h
  refine ⟨fs, _, hn, hm, ?_⟩
  intro k' hk'
  rw [lookupField_setField]
  rw [if_neg (by simpa using hk')]

/-- `KeysExcept` composes. -/
theorem keysExcept_trans {ks : List String} {a b c : Jv}
    (h1 : KeysExcept ks a b) (h2 : KeysExcept ks b c) : KeysExcept ks a c := by
  obtain ⟨fa, fb, ha, hb, hab⟩ := h1
  obtain ⟨fb', fc, hb', hc, hbc⟩ := h2
  rw [hb'] at hb
  cases hb
  exact ⟨fa, fc, ha, hc, fun k hk => (hbc k hk).trans (hab k hk)⟩

/-- `KeysExcept` is monotone in the key set. -/
theorem keysExcept_mono {ks ks' : List String} {a b : Jv}
    (h : KeysExcept ks a b) (hsub : ∀ k, k ∈ ks → k ∈ ks') : KeysExcept ks' a b := by
  obtain ⟨fa, fb, ha, hb, hab⟩ := h
  exact ⟨fa, fb, ha, hb, fun k hk => hab k (fun hmem => hk (hsub k hmem))⟩

/-- `setMetaAssign` touches only the `meta` key. -/
theorem setMetaAssign_keys {n : Jv} {k : String} {v m : Jv}
    (h : setMetaAssign n k v = .ok m) : KeysExcept ["meta"] n m := by
  unfold setMetaAssign at h
  rw [except_bind_ok] at h
  obtain ⟨mo, hmo, h⟩ := h
  cases mo with
  | none => simp at h
  | some mv =>
      rw [except_bind_ok] at h
      obtain ⟨m2, _, h⟩ := h
      exact setProp_keys h

/-- `setMetaDefault` touches only the `meta` key. -/
theorem setMetaDefault_keys {n : Jv} {k : String} {d m : Jv}
    (h : setMetaDefault n k d = .ok m) : KeysExcept ["meta"] n m := by
  unfold setMetaDefault at h
  rw [except_bind_ok] at h
  obtain ⟨mo, hmo, h⟩ := h
  cases mo with
  | none => simp at h
  | some mv =>
      rw [except_bind_ok] at h
      obtain ⟨cur, _, h⟩ := h
      rw [except_bind_ok] at h
      obtain ⟨m2, _, h⟩ := h
      exact setProp_keys h

/-- `setSubDefault` touches only its first key. -/
theorem setSubDefault_keys {s : Jv} {k1 k2 : String} {d m : Jv}
    (h : setSubDefault s k1 k2 d = .ok m) : KeysExcept [k1] s m := by
  unfold setSubDefault at h
  rw [except_bind_ok] at h
  obtain ⟨mo, hmo, h⟩ := h
  cases mo with
  | none => simp at h
  | some mv =>
      rw [except_bind_ok] at h
      obtain ⟨cur, _, h⟩ := h
      rw [except_bind_ok] at h
      obtain ⟨m2, _, h⟩ := h
      exact setProp_keys h

/-- A successful `regenerateBeats` on an object rewrites only `beats`. -/
theorem regenerateBeats_keys {n : Jv} {fs : List (String × Jv)} {m : Jv}
    (hobj : n = .obj fs) (h : regenerateBeats n = .ok m) :
    KeysExcept ["beats"] n m := by
  have hid : (Except.ok n : Except JsErr Jv) = Except.ok m → KeysExcept ["beats"] n m := by
    intro hh
    obtain rfl : n = m := Except.ok.inj hh
    exact ⟨fs, fs, hobj, hobj, fun _ _ => rfl⟩
  unfold regenerateBeats at h
  split at h
  · exact hid h
  · rw [except_bind_ok] at h
    obtain ⟨mo, hmo, h⟩ := h
    split at h
    · split at h
      · exact hid h
      · rw [except_bind_ok] at h
        obtain ⟨bpmv, _, h⟩ := h
        rw [except_bind_ok] at h
        obtain ⟨durv, _, h⟩ := h
        rw [except_bind_ok] at h
        obtain ⟨beats, _, h⟩ := h
        exact setProp_keys h
    · exact hid h

/-- A shot accepted by the filter callback satisfies `keepP`. -/
theorem shotKeep_true_keepP {x : Jv} (h : shotKeep x = .ok true) : keepP x := by
  unfold shotKeep at h
  rw [except_bind_ok] at h
  obtain ⟨t, ht, hb⟩ := h
  simp only [pure_eq_ok, Except.ok.injEq] at hb
  cases t with
  | none => simp at hb
  | some v =>
      cases v with
      | arr xs =>
          obtain ⟨fs, hx, hlk⟩ := readProp_ok_some ht
          exact ⟨fs, xs, hx, hlk, by simpa using hb⟩
      | null => simp at hb
      | bool b => simp at hb
      | num q => simp at hb
      | nan => simp at hb
      | str s => simp at hb
      | obj fs => simp at hb

/-- A `keepP` shot is accepted by the filter callback. -/
theorem keepP_shotKeep {x : Jv} (h : keepP x) : shotKeep x = .ok true := by
  obtain ⟨fs, xs, rfl, hlk, hlen⟩ := h
  unfold shotKeep
  rw [readProp_obj, hlk]
  simp [hlen]

/-- Every survivor of `filterShots` satisfies `keepP`. -/
theorem filterShots_sub {l kept : List Jv} (h : filterShots l = .ok kept) :
    ∀ x ∈ kept, keepP x := by
  induction l generalizing kept with
  | nil =>
      replace h : (Except.ok [] : Except JsErr (List Jv)) = .ok kept := h
      obtain rfl := Except.ok.inj h
      intro x hx
      exact absurd hx (List.not_mem_nil x)
  | cons s rest ih =>
      unfold filterShots at h
      rw [except_bind_ok] at h
      obtain ⟨b, hb, h⟩ := h
      rw [except_bind_ok] at h
      obtain ⟨tail, htail, h⟩ := h
      replace h : Except.ok (α := List Jv) (if b then s :: tail else tail) = .ok kept := h
      obtain rfl := Except.ok.inj h
      intro x hx
      cases b with
      | true =>
          rw [if_pos rfl] at hx
          rcases List.mem_cons.mp hx with rfl | hx2
          · exact shotKeep_true_keepP hb
          · exact ih htail x hx2
      | false =>
          rw [if_neg (by simp)] at hx
          exact ih htail x hx

/-- `filterShots` keeps every `keepP` member of its input. -/
theorem filterShots_keeps {l kept : List Jv} (h : filterShots l = .ok kept) :
    ∀ x ∈ l, keepP x → x ∈ kept := by
  induction l generalizing kept with
  | nil =>
      intro x hx
      exact absurd hx (List.not_mem_nil x)
  | cons s rest ih =>
      unfold filterShots at h
      rw [except_bind_ok] at h
      obtain ⟨b, hb, h⟩ := h
      rw [except_bind_ok] at h
      obtain ⟨tail, htail, h⟩ := h
      replace h : Except.ok (α := List Jv) (if b then s :: tail else tail) = .ok kept := h
      obtain rfl := Except.ok.inj h
      intro x hx hk
      rcases List.mem_cons.mp hx with rfl | hx2
      · have : b = true := by
          have := keepP_shotKeep hk
          rw [this] at hb
          exact (Except.ok.inj hb).symm
        subst this
        rw [if_pos rfl]
        exact List.mem_cons_self x tail
      · have hxt := ih htail x hx2 hk
        cases b with
        | true => rw [if_pos rfl]; exact List.mem_cons_of_mem s hxt
        | false => rw [if_neg (by simp)]; exact hxt

/-- Membership across `sortInsert`. -/
theorem sortInsert_mem (x y : Jv) (l : List Jv) :
    y ∈ sortInsert x l ↔ y = x ∨ y ∈ l := by
  induction l with
  | nil => simp [sortInsert]
  | cons z zs ih =>
      unfold sortInsert
      by_cases h : shotLe x z = true
      · rw [if_pos h]
        simp
      · rw [if_neg h]
        simp [ih]
        tauto

/-- Membership across `sortShots`. -/
theorem sortShots_mem (y : Jv) (l : List Jv) : y ∈ sortShots l ↔ y ∈ l := by
  induction l with
  | nil => simp [sortShots]
  | cons z zs ih =>
      unfold sortShots
      rw [sortInsert_mem]
      simp [ih]

/-- `sortInsert` adds one element. -/
theorem sortInsert_length (x : Jv) (l : List Jv) :
    (sortInsert x l).length = l.length + 1 := by
  induction l with
  | nil => rfl
  | cons z zs ih =>
      unfold sortInsert
      by_cases h : shotLe x z = true
      · rw [if_pos h]
        rfl
      · rw [if_neg h]
        simp [ih]

/-- `sortShots` preserves the length. -/
theorem sortShots_length (l : List Jv) : (sortShots l).length = l.length := by
  induction l with
  | nil => rfl
  | cons z zs ih =>
      unfold sortShots
      rw [sortInsert_length, ih]
      rfl

/-- The comparator order is total (a `NaN` difference counts as a tie in
both directions). -/
theorem shotLe_total (a b : Jv) : shotLe a b = true ∨ shotLe b a = true := by
  unfold shotLe
  cases ha : shotSortKey a <;> cases hb : shotSortKey b <;> simp
  exact le_total _ _

/-- Inserting into a comparator-sorted list keeps it sorted. -/
theorem sortInsert_chain' (x : Jv) (l : List Jv)
    (h : l.Chain' (fun a b => shotLe a b = true)) :
    (sortInsert x l).Chain' (fun a b => shotLe a b = true) := by
  induction l with
  | nil => simp [sortInsert]
  | cons y ys ih =>
      unfold sortInsert
      by_cases hxy : shotLe x y = true
      · rw [if_pos hxy]
        exact List.chain'_cons.mpr ⟨hxy, h⟩
      · rw [if_neg hxy]
        have hyx : shotLe y x = true := (shotLe_total x y).resolve_left hxy
        refine List.chain'_cons'.mpr ⟨?_, ih (List.chain'_cons'.mp h).2⟩
        intro z hz
        cases ys with
        | nil =>
            simp [sortInsert] at hz
            subst hz
            exact hyx
        | cons w ws =>
            unfold sortInsert at hz
            by_cases hxw : shotLe x w = true
            · rw [if_pos hxw] at hz
              simp at hz
              subst hz
              exact hyx
            · rw [if_neg hxw] at hz
              simp at hz
              subst hz
              exact (List.chain'_cons.mp h).1

/-- `sortShots` output is comparator-sorted. -/
theorem sortShots_chain' (l : List Jv) :
    (sortShots l).Chain' (fun a b => shotLe a b = true) := by
  induction l with
  | nil => simp [sortShots]
  | cons z zs ih => exact sortInsert_chain' z _ ih

/-- `mapShots` success gives element-wise `normalizeShot` successes. -/
theorem mapShots_forall2 {l out : List Jv} (h : mapShots l = .ok out) :
    List.Forall₂ (fun a b => normalizeShot a = .ok b) l out := by
  induction l generalizing out with
  | nil =>
      replace h : (Except.ok [] : Except JsErr (List Jv)) = .ok out := h
      obtain rfl := Except.ok.inj h
      exact List.Forall₂.nil
  | cons s rest ih =>
      unfold mapShots at h
      rw [except_bind_ok] at h
      obtain ⟨s2, hs2, h⟩ := h
      rw [except_bind_ok] at h
      obtain ⟨rest2, hrest2, h⟩ := h
      replace h : Except.ok (α := List Jv) (s2 :: rest2) = .ok out := h
      obtain rfl := Except.ok.inj h
      exact List.Forall₂.cons hs2 (ih hrest2)

/-- The defaults stage touches only `camera` and `fx`. -/
theorem normalizeShotDefaults_keys {s1 y : Jv} (h : normalizeShotDefaults s1 = .ok y) :
    KeysExcept ["camera", "fx"] s1 y := by
  unfold normalizeShotDefaults at h
  rw [except_bind_ok] at h
  obtain ⟨cam, hcam, h⟩ := h
  rw [except_bind_ok] at h
  obtain ⟨s2, hs2, h⟩ := h
  rw [except_bind_ok] at h
  obtain ⟨s3, hs3, h⟩ := h
  rw [except_bind_ok] at h
  obtain ⟨s4, hs4, h⟩ := h
  rw [except_bind_ok] at h
  obtain ⟨s5, hs5, h⟩ := h
  rw [except_bind_ok] at h
  obtain ⟨fx, hfx, h⟩ := h
  rw [except_bind_ok] at h
  obtain ⟨s6, hs6, h⟩ := h
  rw [except_bind_ok] at h
  obtain ⟨s7, hs7, h⟩ := h
  have cm : ∀ k, k ∈ (["camera"] : List String) → k ∈ (["camera", "fx"] : List String) := by
    intro k hk
    simp at hk
    simp [hk]
  have fm : ∀ k, k ∈ (["fx"] : List String) → k ∈ (["camera", "fx"] : List String) := by
    intro k hk
    simp at hk
    simp [hk]
  exact keysExcept_trans (keysExcept_mono (setProp_keys hs2) cm)
    (keysExcept_trans (keysExcept_mono (setSubDefault_keys hs3) cm)
      (keysExcept_trans (keysExcept_mono (setSubDefault_keys hs4) cm)
        (keysExcept_trans (keysExcept_mono (setSubDefault_keys hs5) cm)
          (keysExcept_trans (keysExcept_mono (setProp_keys hs6) fm)
            (keysExcept_trans (keysExcept_mono (setSubDefault_keys hs7) fm)
              (keysExcept_mono (setSubDefault_keys h) fm))))))

/-- A kept shot normalizes to an object whose `time` is the clamped pair. -/
theorem normalizeShot_shape {x y : Jv} {fs : List (String × Jv)} {xs : List Jv}
    (hx : x = .obj fs) (ht : lookupField fs "time" = some (.arr xs))
    (h : normalizeShot x = .ok y) :
    ∃ fy, y = .obj fy ∧ lookupField fy "time" = some (.arr (clampTimePair xs)) := by
  subst hx
  unfold normalizeShot at h
  rw [except_bind_ok] at h
  obtain ⟨t, htr, h⟩ := h
  rw [readProp_obj] at htr
  have ht2 : t = some (.arr xs) := by
    rw [← Except.ok.inj htr, ht]
  subst ht2
  rw [except_bind_ok] at h
  obtain ⟨s1, hs1, h⟩ := h
  replace hs1 : setProp (Jv.obj fs) "time" (Jv.arr (clampTimePair xs)) = .ok s1 := hs1
  obtain ⟨fs0, hfs0, hs1v⟩ := setProp_ok hs1
  obtain rfl : fs = fs0 := Jv.obj.inj hfs0
  subst hs1v
  obtain ⟨fsn, fy, hs1n, hyv, hpres⟩ := normalizeShotDefaults_keys h
  obtain rfl : setField fs "time" (Jv.arr (clampTimePair xs)) = fsn := Jv.obj.inj hs1n
  refine ⟨fy, hyv, ?_⟩
  rw [hpres "time" (by simp), lookupField_setField, if_pos rfl]

/-- A `keepP` shot has exactly two `time` entries. -/
theorem keepP_two {x : Jv} (h : keepP x) :
    ∃ fs x0 x1, x = .obj fs ∧ lookupField fs "time" = some (.arr [x0, x1]) := by
  obtain ⟨fs, xs, hx, hlk, hlen⟩ := h
  obtain ⟨x0, x1, rfl⟩ := List.length_eq_two.mp hlen
  exact ⟨fs, x0, x1, hx, hlk⟩

/-- `clampTimePair` on a two-element list, written out. -/
theorem clampTimePair_pair (x0 x1 : Jv) :
    clampTimePair [x0, x1] =
      [numOrNan (nMax (some 0) (nMin (some TARGET_DURATION) (toNum (jsOr (some x0) (Jv.num 0))))),
       numOrNan (nMax
         (nAdd (nMax (some 0) (nMin (some TARGET_DURATION) (toNum (jsOr (some x0) (Jv.num 0)))))
           (some 0.01))
         (nMin (some TARGET_DURATION) (toNum (jsOr (some x1) (Jv.num TARGET_DURATION)))))] := rfl

/-- The stored start of a normalized kept shot. -/
theorem jvStartNum_shape {y : Jv} {fy : List (String × Jv)} {x0 x1 : Jv}
    (hy : y = Jv.obj fy)
    (ht : lookupField fy "time" = some (.arr (clampTimePair [x0, x1]))) :
    jvStartNum y =
      nMax (some 0) (nMin (some TARGET_DURATION) (toNum (jsOr (some x0) (Jv.num 0)))) := by
  subst hy
  have hred : jvStartNum (Jv.obj fy) =
      (match lookupField fy "time" with
        | some (Jv.arr (x :: _)) => (match x with | Jv.num q => some q | _ => none)
        | _ => none) := rfl
  rw [hred, ht, clampTimePair_pair]
  cases nMax (some 0) (nMin (some TARGET_DURATION) (toNum (jsOr (some x0) (Jv.num 0)))) with
  | none => rfl
  | some q => rfl

/-- The stored end of a normalized kept shot. -/
theorem jvStopNum_shape {y : Jv} {fy : List (String × Jv)} {x0 x1 : Jv}
    (hy : y = Jv.obj fy)
    (ht : lookupField fy "time" = some (.arr (clampTimePair [x0, x1]))) :
    jvStopNum y =
      nMax
        (nAdd (nMax (some 0) (nMin (some TARGET_DURATION) (toNum (jsOr (some x0) (Jv.num 0)))))
          (some 0.01))
        (nMin (some TARGET_DURATION) (toNum (jsOr (some x1) (Jv.num TARGET_DURATION)))) := by
  subst hy
  have hred : jvStopNum (Jv.obj fy) =
      (match lookupField fy "time" with
        | some (Jv.arr (_ :: y :: _)) => (match y with | Jv.num q => some q | _ => none)
        | _ => none) := rfl
  rw [hred, ht, clampTimePair_pair]
  cases nMax
      (nAdd (nMax (some 0) (nMin (some TARGET_DURATION) (toNum (jsOr (some x0) (Jv.num 0)))))
        (some 0.01))
      (nMin (some TARGET_DURATION) (toNum (jsOr (some x1) (Jv.num TARGET_DURATION)))) with
  | none =>
      cases numOrNan (nMax (some 0) (nMin (some TARGET_DURATION)
        (toNum (jsOr (some x0) (Jv.num 0))))) <;> rfl
  | some q =>
      cases numOrNan (nMax (some 0) (nMin (some TARGET_DURATION)
        (toNum (jsOr (some x0) (Jv.num 0))))) <;> rfl

/-- The sort key of a kept shot is its raw first time entry, `|| 0`,
coerced. -/
theorem shotSortKey_keepP {x : Jv} {fs : List (String × Jv)} {x0 x1 : Jv}
    (hx : x = .obj fs) (ht : lookupField fs "time" = some (.arr [x0, x1])) :
    shotSortKey x = toNum (jsOr (some x0) (Jv.num 0)) := by
  subst hx
  have hred : shotStartRaw (Jv.obj fs) =
      (match lookupField fs "time" with
        | some (Jv.arr xs) => xs.get? 0
        | _ => none) := rfl
  unfold shotSortKey
  rw [hred, ht]
  rfl

/-- Window bounds and start value of every normalized kept shot. -/
theorem normalizeShot_window {x y : Jv} (hk : keepP x) (h : normalizeShot x = .ok y) :
    WindowOk y ∧
    jvStartNum y = nMax (some 0) (nMin (some TARGET_DURATION) (shotSortKey x)) := by
  obtain ⟨fs, x0, x1, hx, ht⟩ := keepP_two hk
  obtain ⟨fy, hyv, hty⟩ := normalizeShot_shape hx ht h
  have hstart := jvStartNum_shape hyv hty
  have hstop := jvStopNum_shape hyv hty
  have hkey := shotSortKey_keepP hx ht
  rw [← hkey] at hstart
  refine ⟨⟨?_, ?_⟩, hstart⟩
  · intro q hq
    rw [hstart] at hq
    cases hr : shotSortKey x with
    | none => rw [hr] at hq; simp [nMin, nMax] at hq
    | some r =>
        rw [hr] at hq
        simp only [nMin, nMax, Option.some.injEq] at hq
        subst hq
        refine ⟨le_max_left _ _, max_le (by norm_num [TARGET_DURATION]) ?_⟩
        exact min_le_left _ _
  · intro q' hq'
    rw [hstop, ← hkey] at hq'
    cases hr0 : shotSortKey x with
    | none => rw [hr0] at hq'; simp [nMin, nMax, nAdd] at hq'
    | some r0 =>
        rw [hr0] at hq'
        cases hr1 : toNum (jsOr (some x1) (Jv.num TARGET_DURATION)) with
        | none => rw [hr1] at hq'; simp [nMin, nMax, nAdd] at hq'
        | some r1 =>
            rw [hr1] at hq'
            simp only [nMin, nMax, nAdd, Option.some.injEq] at hq'
            subst hq'
            refine ⟨max 0 (min TARGET_DURATION r0), ?_, le_max_left _ _, ?_⟩
            · rw [hstart, hr0]
              rfl
            · apply max_le (le_max_right _ _)
              exact le_trans (min_le_left _ _) (le_max_left _ _)

/-- The comparator order on kept shots carries over to the stored starts
of their normalized forms. -/
theorem startLe_of {a a2 b b2 : Jv} (ha : keepP a) (ha2 : keepP a2)
    (hna : normalizeShot a = .ok b) (hna2 : normalizeShot a2 = .ok b2)
    (hle : shotLe a a2 = true) : startLe b b2 := by
  intro qx qy hqx hqy
  have h1 := (normalizeShot_window ha hna).2
  have h2 := (normalizeShot_window ha2 hna2).2
  rw [h1] at hqx
  rw [h2] at hqy
  cases hka : shotSortKey a with
  | none => rw [hka] at hqx; simp [nMin, nMax] at hqx
  | some ra =>
      cases hka2 : shotSortKey a2 with
      | none => rw [hka2] at hqy; simp [nMin, nMax] at hqy
      | some ra2 =>
          rw [hka] at hqx
          rw [hka2] at hqy
          simp only [nMin, nMax, Option.some.injEq] at hqx hqy
          subst hqx
          subst hqy
          unfold shotLe at hle
          rw [hka, hka2] at hle
          simp at hle
          exact max_le_max (le_refl 0) (min_le_min (le_refl _) hle)

/-- Transport of comparator-sortedness through the per-shot
normalization. -/
theorem chain_startLe {pre post : List Jv}
    (h2 : List.Forall₂ (fun a b => normalizeShot a = .ok b) pre post)
    (hkeep : ∀ x ∈ pre, keepP x)
    (hch : pre.Chain' (fun a b => shotLe a b = true)) :
    post.Chain' startLe := by
  revert hkeep hch
  induction h2 with
  | nil =>
      intro _ _
      exact List.chain'_nil
  | @cons a b l l2 ha h2' ih =>
      intro hkeep hch
      refine List.chain'_cons'.mpr
        ⟨?_, ih (fun x hx => hkeep x (List.mem_cons_of_mem a hx))
          (List.chain'_cons'.mp hch).2⟩
      intro c hc
      cases h2' with
      | nil => simp at hc
      | @cons a2 b2 l' l2' ha2 h2'' =>
          simp at hc
          subst hc
          exact startLe_of (hkeep a (List.mem_cons_self a _))
            (hkeep a2 (List.mem_cons_of_mem a (List.mem_cons_self a2 _)))
            ha ha2 (List.chain'_cons.mp hch).1

/-- After `normalized.meta.duration = TARGET_DURATION`, the duration is
stored. -/
theorem setMetaAssign_duration {n1 n2 : Jv}
    (h : setMetaAssign n1 "duration" (Jv.num TARGET_DURATION) = .ok n2) :
    MetaDuration n2 := by
  unfold setMetaAssign at h
  rw [except_bind_ok] at h
  obtain ⟨mo, hmo, h⟩ := h
  cases mo with
  | none => simp at h
  | some mv =>
      rw [except_bind_ok] at h
      obtain ⟨m2, hm2, h⟩ := h
      obtain ⟨mfs, hmv, hm2v⟩ := setProp_ok hm2
      obtain ⟨fs1, hn1, hn2v⟩ := setProp_ok h
      refine ⟨setField fs1 "meta" m2, setField mfs "duration" (Jv.num TARGET_DURATION),
        hn2v, ?_, ?_⟩
      · rw [lookupField_setField, if_pos rfl, hm2v]
      · rw [lookupField_setField, if_pos rfl]

/-- `normalized.meta.k = …` for `k ≠ duration` keeps the stored duration. -/
theorem setMetaDefault_duration {n m : Jv} {k : String} {d : Jv}
    (hk : k ≠ "duration") (hmd : MetaDuration n)
    (h : setMetaDefault n k d = .ok m) : MetaDuration m := by
  obtain ⟨fs, mfs, hn, hmeta, hdur⟩ := hmd
  unfold setMetaDefault at h
  rw [except_bind_ok] at h
  obtain ⟨mo, hmo, h⟩ := h
  subst hn
  rw [readProp_obj] at hmo
  have hmo2 : mo = some (.obj mfs) := by rw [← Except.ok.inj hmo, hmeta]
  subst hmo2
  rw [except_bind_ok] at h
  obtain ⟨cur, hcur, h⟩ := h
  rw [except_bind_ok] at h
  obtain ⟨m2, hm2, h⟩ := h
  obtain ⟨mfs2, hmv, hm2v⟩ := setProp_ok hm2
  obtain rfl : mfs = mfs2 := Jv.obj.inj hmv
  obtain ⟨fs1, hn1, hmv2⟩ := setProp_ok h
  refine ⟨setField fs1 "meta" m2, setField mfs k (jsOr cur d), hmv2, ?_, ?_⟩
  · rw [lookupField_setField, if_pos rfl, hm2v]
  · rw [lookupField_setField, if_neg (Ne.symm hk), hdur]

/-- `MetaDuration` survives changes away from `meta`. -/
theorem metaDuration_keysExcept {ks : List String} {n m : Jv}
    (hks : "meta" ∉ ks) (hmd : MetaDuration n) (h : KeysExcept ks n m) :
    MetaDuration m := by
  obtain ⟨fs, mfs, hn, hmeta, hdur⟩ := hmd
  obtain ⟨fsn, fsm, hn2, hm, hpres⟩ := h
  rw [hn] at hn2
  obtain rfl : fs = fsn := Jv.obj.inj hn2
  exact ⟨fsm, mfs, hm, (hpres "meta" hks).trans hmeta, hdur⟩

/-- A successful `normBeatsExisting` rewrites only `beats`. -/
theorem normBeatsExisting_keys {n : Jv} {l : List Jv} {m : Jv}
    (h : normBeatsExisting n l = .ok m) : KeysExcept ["beats"] n m := by
  unfold normBeatsExisting at h
  rw [except_bind_ok] at h
  obtain ⟨mo, hmo, h⟩ := h
  cases mo with
  | none => simp at h
  | some mv =>
      rw [except_bind_ok] at h
      obtain ⟨bpmv, _, h⟩ := h
      rw [except_bind_ok] at h
      obtain ⟨durv, _, h⟩ := h
      rw [except_bind_ok] at h
      obtain ⟨ext, _, h⟩ := h
      exact setProp_keys h


/-- What every successful run of the normalization body guarantees: the
duration is pinned, the shots list is the per-shot normalization of the
sorted filtered input list, and that list is either the input's `shots`
array or the minimal fallback shots. -/
theorem normalizeSceneBody_ok {n0 res : Jv} (h : normalizeSceneBody n0 = .ok res) :
    MetaDuration res ∧
    ∃ (l kept fixed : List Jv),
      filterShots l = .ok kept ∧
      mapShots (sortShots kept) = .ok fixed ∧
      sceneShots res = some fixed ∧
      ((∃ fs0, n0 = .obj fs0 ∧ lookupField fs0 "shots" = some (.arr l)) ∨
        Jv.arr l = minimalShotsJv) := by
  unfold normalizeSceneBody at h
  rw [except_bind_ok] at h
  obtain ⟨mo, hmo, h⟩ := h
  rw [except_bind_ok] at h
  obtain ⟨n1, hn1, h⟩ := h
  rw [except_bind_ok] at h
  obtain ⟨n2, hn2, h⟩ := h
  rw [except_bind_ok] at h
  obtain ⟨n3, hn3, h⟩ := h
  rw [except_bind_ok] at h
  obtain ⟨n4, hn4, h⟩ := h
  rw [except_bind_ok] at h
  obtain ⟨sh, hsh, h⟩ := h
  rw [except_bind_ok] at h
  obtain ⟨n5, hn5, h⟩ := h
  rw [except_bind_ok] at h
  obtain ⟨sh2, hsh2, h⟩ := h
  rw [except_bind_ok] at h
  obtain ⟨l, hl, h⟩ := h
  rw [except_bind_ok] at h
  obtain ⟨kept, hkept, h⟩ := h
  rw [except_bind_ok] at h
  obtain ⟨fixed, hfixed, h⟩ := h
  rw [except_bind_ok] at h
  obtain ⟨n6, hn6, h⟩ := h
  rw [except_bind_ok] at h
  obtain ⟨bv, hbv, h⟩ := h
  obtain ⟨fs5, hn5v, hn6v⟩ := setProp_ok hn6
  -- the beats stage touches only `beats`
  have hbk : KeysExcept ["beats"] n6 res := by
    split at h
    · split at h
      · exact regenerateBeats_keys hn6v h
      · exact normBeatsExisting_keys h
    · exact regenerateBeats_keys hn6v h
  -- `shots` of the final result
  obtain ⟨fs6, fsr, hn6v2, hresv, hpres⟩ := hbk
  rw [hn6v] at hn6v2
  obtain rfl : setField fs5 "shots" (Jv.arr fixed) = fs6 := Jv.obj.inj hn6v2
  have hshots_res : sceneShots res = some fixed := by
    rw [hresv]
    have : lookupField fsr "shots" = some (Jv.arr fixed) := by
      rw [hpres "shots" (by simp), lookupField_setField, if_pos rfl]
    simp [sceneShots, this]
  -- the `l` extraction: `sh2` is the shots array of `n5`
  have hsh2v : sh2 = some (Jv.arr l) := by
    cases sh2 with
    | none => simp at hl
    | some v =>
        cases v with
        | arr l2 =>
            replace hl : (Except.ok l2 : Except JsErr (List Jv)) = .ok l := hl
            rw [Except.ok.inj hl]
        | null => simp at hl
        | bool b => simp at hl
        | num q => simp at hl
        | nan => simp at hl
        | str s => simp at hl
        | obj fs => simp at hl
  subst hsh2v
  obtain ⟨fs5', hn5v', hlk5⟩ := readProp_ok_some hsh2
  rw [hn5v'] at hn5v
  obtain rfl : fs5' = fs5 := Jv.obj.inj hn5v
  -- meta duration through the chain
  have hmd2 := setMetaAssign_duration hn2
  have hmd3 := setMetaDefault_duration (by simp) hmd2 hn3
  have hmd4 := setMetaDefault_duration (by simp) hmd3 hn4
  have hmd5 : MetaDuration n5 := by
    cases sh with
    | none =>
        replace hn5 : setProp n4 "shots" minimalShotsJv = .ok n5 := hn5
        exact metaDuration_keysExcept (by simp) hmd4 (setProp_keys hn5)
    | some v =>
        cases v with
        | arr l0 =>
            replace hn5 : (Except.ok n4 : Except JsErr Jv) = .ok n5 := hn5
            rw [← Except.ok.inj hn5]
            exact hmd4
        | null =>
            replace hn5 : setProp n4 "shots" minimalShotsJv = .ok n5 := hn5
            exact metaDuration_keysExcept (by simp) hmd4 (setProp_keys hn5)
        | bool b =>
            replace hn5 : setProp n4 "shots" minimalShotsJv = .ok n5 := hn5
            exact metaDuration_keysExcept (by simp) hmd4 (setProp_keys hn5)
        | num q =>
            replace hn5 : setProp n4 "shots" minimalShotsJv = .ok n5 := hn5
            exact metaDuration_keysExcept (by simp) hmd4 (setProp_keys hn5)
        | nan =>
            replace hn5 : setProp n4 "shots" minimalShotsJv = .ok n5 := hn5
            exact metaDuration_keysExcept (by simp) hmd4 (setProp_keys hn5)
        | str s =>
            replace hn5 : setProp n4 "shots" minimalShotsJv = .ok n5 := hn5
            exact metaDuration_keysExcept (by simp) hmd4 (setProp_keys hn5)
        | obj fs =>
            replace hn5 : setProp n4 "shots" minimalShotsJv = .ok n5 := hn5
            exact metaDuration_keysExcept (by simp) hmd4 (setProp_keys hn5)
  have hmd6 : MetaDuration n6 :=
    metaDuration_keysExcept (by simp) hmd5 (setProp_keys hn6)
  have hmdres : MetaDuration res :=
    metaDuration_keysExcept (by simp) hmd6 ⟨_, _, hn6v, hresv, hpres⟩
  refine ⟨hmdres, l, kept, fixed, hkept, hfixed, hshots_res, ?_⟩
  -- provenance of `l`
  cases sh with
  | some v =>
      cases v with
      | arr l0 =>
          -- shots was already an array: `n5 = n4` and the array is `n0`'s
          replace hn5 : (Except.ok n4 : Except JsErr Jv) = .ok n5 := hn5
          obtain rfl : n4 = n5 := Except.ok.inj hn5
          left
          -- `n0` and `n4` agree outside `meta`
          have k01 : KeysExcept ["meta"] n0 n1 := by
            unfold metaFix at hn1
            by_cases hmt : optTruthy mo = true
            · replace hn1 : (Except.ok n0 : Except JsErr Jv) = .ok n1 := by
                rw [← hn1, if_pos hmt]; rfl
              obtain rfl : n0 = n1 := Except.ok.inj hn1
              cases mo with
              | none => simp [optTruthy] at hmt
              | some mv =>
                  obtain ⟨fs0, hn0, _⟩ := readProp_ok_some hmo
                  exact ⟨fs0, fs0, hn0, hn0, fun _ _ => rfl⟩
            · replace hn1 : setProp n0 "meta" (Jv.obj []) = .ok n1 := by
                rw [← hn1, if_neg hmt]
              exact setProp_keys hn1
          have k04 : KeysExcept ["meta"] n0 n4 :=
            keysExcept_trans k01 (keysExcept_trans (setMetaAssign_keys hn2)
              (keysExcept_trans (setMetaDefault_keys hn3) (setMetaDefault_keys hn4)))
          obtain ⟨fs0, fs4, hn0, hn4v, hpres04⟩ := k04
          rw [hn5v'] at hn4v
          have hf45 : fs5' = fs4 := Jv.obj.inj hn4v
          refine ⟨fs0, hn0, ?_⟩
          rw [← hpres04 "shots" (by simp), ← hf45, hlk5]
      | null =>
          right
          obtain ⟨fs4, _, hn5set⟩ := setProp_ok hn5
          rw [hn5set] at hn5v'
          obtain rfl : setField fs4 "shots" minimalShotsJv = fs5' := Jv.obj.inj hn5v'
          have : lookupField (setField fs4 "shots" minimalShotsJv) "shots"
              = some minimalShotsJv := by
            rw [lookupField_setField, if_pos rfl]
          rw [this] at hlk5
          exact (Option.some.inj hlk5).symm
      | bool b =>
          right
          obtain ⟨fs4, _, hn5set⟩ := setProp_ok hn5
          rw [hn5set] at hn5v'
          obtain rfl : setField fs4 "shots" minimalShotsJv = fs5' := Jv.obj.inj hn5v'
          have : lookupField (setField fs4 "shots" minimalShotsJv) "shots"
              = some minimalShotsJv := by
            rw [lookupField_setField, if_pos rfl]
          rw [this] at hlk5
          exact (Option.some.inj hlk5).symm
      | num q =>
          right
          obtain ⟨fs4, _, hn5set⟩ := setProp_ok hn5
          rw [hn5set] at hn5v'
          obtain rfl : setField fs4 "shots" minimalShotsJv = fs5' := Jv.obj.inj hn5v'
          have : lookupField (setField fs4 "shots" minimalShotsJv) "shots"
              = some minimalShotsJv := by
            rw [lookupField_setField, if_pos rfl]
          rw [this] at hlk5
          exact (Option.some.inj hlk5).symm
      | nan =>
          right
          obtain ⟨fs4, _, hn5set⟩ := setProp_ok hn5
          rw [hn5set] at hn5v'
          obtain rfl : setField fs4 "shots" minimalShotsJv = fs5' := Jv.obj.inj hn5v'
          have : lookupField (setField fs4 "shots" minimalShotsJv) "shots"
              = some minimalShotsJv := by
            rw [lookupField_setField, if_pos rfl]
          rw [this] at hlk5
          exact (Option.some.inj hlk5).symm
      | str s =>
          right
          obtain ⟨fs4, _, hn5set⟩ := setProp_ok hn5
          rw [hn5set] at hn5v'
          obtain rfl : setField fs4 "shots" minimalShotsJv = fs5' := Jv.obj.inj hn5v'
          have : lookupField (setField fs4 "shots" minimalShotsJv) "shots"
              = some minimalShotsJv := by
            rw [lookupField_setField, if_pos rfl]
          rw [this] at hlk5
          exact (Option.some.inj hlk5).symm
      | obj fs =>
          right
          obtain ⟨fs4, _, hn5set⟩ := setProp_ok hn5
          rw [hn5set] at hn5v'
          obtain rfl : setField fs4 "shots" minimalShotsJv = fs5' := Jv.obj.inj hn5v'
          have : lookupField (setField fs4 "shots" minimalShotsJv) "shots"
              = some minimalShotsJv := by
            rw [lookupField_setField, if_pos rfl]
          rw [this] at hlk5
          exact (Option.some.inj hlk5).symm
  | none =>
      right
      obtain ⟨fs4, _, hn5set⟩ := setProp_ok hn5
      rw [hn5set] at hn5v'
      obtain rfl : setField fs4 "shots" minimalShotsJv = fs5' := Jv.obj.inj hn5v'
      have : lookupField (setField fs4 "shots" minimalShotsJv) "shots"
          = some minimalShotsJv := by
        rw [lookupField_setField, if_pos rfl]
      rw [this] at hlk5
      exact (Option.some.inj hlk5).symm

/-- `Forall₂` membership on the right gives a related element on the left. -/
theorem forall2_mem_right {R : Jv → Jv → Prop} {l out : List Jv}
    (h : List.Forall₂ R l out) : ∀ y ∈ out, ∃ a ∈ l, R a y := by
  induction h with
  | nil =>
      intro y hy
      exact absurd hy (List.not_mem_nil y)
  | cons hab h2 ih =>
      intro y hy
      rcases List.mem_cons.mp hy with rfl | hy2
      · exact ⟨_, List.mem_cons_self _ _, hab⟩
      · obtain ⟨c, hc, hcy⟩ := ih y hy2
        exact ⟨c, List.mem_cons_of_mem _ hc, hcy⟩

theorem metaDuration_sceneDurationVal {res : Jv} (h : MetaDuration res) :
    sceneDurationVal res = some (.num TARGET_DURATION) := by
  obtain ⟨fs, mfs, rfl, h1, h2⟩ := h
  simp [sceneDurationVal, h1, h2]

/-- Every scene value produced by `normalizeSceneData` has the pinned
duration, a shots array, normalized windows and start-sorted shots. -/
theorem normalizeSceneData_shape {d res : Jv} (h : normalizeSceneData d = .ok res) :
    SceneShape res := by
  obtain ⟨hmd, l, kept, fixed, hkept, hfixed, hshots, _⟩ := normalizeSceneBody_ok h
  refine ⟨metaDuration_sceneDurationVal hmd, ⟨fixed, hshots⟩, ?_⟩
  intro shots hsh
  rw [hshots] at hsh
  obtain rfl := Option.some.inj hsh
  have hkeepSorted : ∀ x ∈ sortShots kept, keepP x := fun x hx =>
    filterShots_sub hkept x ((sortShots_mem x kept).mp hx)
  refine ⟨fun y hy => ?_,
    chain_startLe (mapShots_forall2 hfixed) hkeepSorted (sortShots_chain' kept)⟩
  obtain ⟨a, ha, hay⟩ := forall2_mem_right (mapShots_forall2 hfixed) y hy
  exact (normalizeShot_window (hkeepSorted a ha) hay).1

/-- The minimal fallback shots list has an entry surviving the filter. -/
theorem minimalShots_keep {l : List Jv} (h : Jv.arr l = minimalShotsJv) :
    ∃ x ∈ l, keepP x := by
  unfold minimalShotsJv at h
  obtain rfl := Jv.arr.inj h
  exact ⟨_, List.mem_singleton_self _, _, _, rfl, rfl, rfl⟩

/-- The concrete normalization run used by the witnesses. -/
theorem normalize_witnessInput : normalizeSceneData witnessInput = .ok witnessOutput := by
  simp [normalizeSceneData, normalizeSceneBody, metaFix, readProp, setProp,
    setMetaAssign, setMetaDefault, setSubDefault, lookupField, setField, jsOr,
    optTruthy, Jv.truthy, filterShots, shotKeep, sortShots, sortInsert, shotLe,
    shotSortKey, shotStartRaw, toNum, toNumU, mapShots, normalizeShot,
    normalizeShotDefaults, clampTimePair, setIdx, nMax, nMin, nAdd, nDiv,
    numOrNan, normBeatsExisting, jvToBeatNum, sortQ, insertQ, extendBeatsLoop,
    TARGET_DURATION, DEFAULT_BPM, witnessInput, witnessShot, witnessOutput,
    witnessShotOut, camDefaults, fxDefaults, min_def, max_def,
    List.filter, List.filterMap, List.map]
  norm_num

/-- The concrete normalization run of the overlapping-shots input. -/
theorem normalize_overlapInput : normalizeSceneData overlapInput = .ok overlapOutput := by
  simp [normalizeSceneData, normalizeSceneBody, metaFix, readProp, setProp,
    setMetaAssign, setMetaDefault, setSubDefault, lookupField, setField, jsOr,
    optTruthy, Jv.truthy, filterShots, shotKeep, sortShots, sortInsert, shotLe,
    shotSortKey, shotStartRaw, toNum, toNumU, mapShots, normalizeShot,
    normalizeShotDefaults, clampTimePair, setIdx, nMax, nMin, nAdd, nDiv,
    numOrNan, normBeatsExisting, jvToBeatNum, sortQ, insertQ, extendBeatsLoop,
    TARGET_DURATION, DEFAULT_BPM, overlapInput, overlapShotA, overlapShotB,
    overlapOutput, overlapShotAOut, overlapShotBOut, camDefaults, fxDefaults,
    min_def, max_def, List.filter, List.filterMap, List.map]
  norm_num

/-- **C1** (counterexample).  `normalizeSceneData` does not return a Scene
for every input: on `{meta: 5}` the strict-mode write
`normalized.meta.duration = TARGET_DURATION` goes through a primitive and
throws a `TypeError`. -/
theorem c1_normalize_throws_counterexample :
    normalizeSceneData badMetaInput = .error .typeError := rfl

/-- **C1** (amended).  Whenever `normalizeSceneData` does return a scene,
that scene has `meta.duration` pinned to the target duration, a shots array
whose windows satisfy `0 ≤ start ≤ duration` and
`start + 0.01 ≤ end ≤ max duration (start + 0.01)`, sorted by start; and the
shots list is non-empty provided every shots array supplied by the input has
an entry surviving the 2-element-time filter. -/
theorem c1_normalize_amended (d res : Jv) (h : normalizeSceneData d = .ok res) :
    SceneShape res ∧
      (NonemptyCond d → ∀ shots, sceneShots res = some shots → shots ≠ []) := by
  obtain ⟨hmd, l, kept, fixed, hkept, hfixed, hshots, hprov⟩ :=
    normalizeSceneBody_ok (h : normalizeSceneBody
      (if d.truthy then d else createMinimalScene) = .ok res)
  refine ⟨normalizeSceneData_shape h, ?_⟩
  intro hne shots hsh
  rw [hshots] at hsh
  obtain rfl := Option.some.inj hsh
  have hex : ∃ x ∈ l, keepP x := by
    rcases hprov with ⟨fs0, hfs0, hlk⟩ | hmin
    · by_cases hd : d.truthy = true
      · rw [if_pos hd] at hfs0
        exact hne fs0 l hfs0 hlk
      · rw [if_neg hd] at hfs0
        injection hfs0 with hfe
        rw [← hfe] at hlk
        simp [lookupField] at hlk
        exact minimalShots_keep hlk.symm
    · exact minimalShots_keep hmin
  obtain ⟨x, hx, hkx⟩ := hex
  have hxk : x ∈ kept := filterShots_keeps hkept x hx hkx
  have hlen : fixed.length = kept.length := by
    have h2 := List.Forall₂.length_eq (mapShots_forall2 hfixed)
    rw [← h2, sortShots_length]
  intro hnil
  have h0 : kept.length = 0 := by rw [← hlen, hnil]; rfl
  have hkemp : kept = [] := List.length_eq_zero.mp h0
  rw [hkemp] at hxk
  exact absurd hxk (List.not_mem_nil x)

/-- Witness for C1 (amended): the hypothesis holds for `witnessInput` and the
conclusion follows there. -/
theorem c1_normalize_amended_witness :
    normalizeSceneData witnessInput = .ok witnessOutput ∧
      (SceneShape witnessOutput ∧
        (NonemptyCond witnessInput →
          ∀ shots, sceneShots witnessOutput = some shots → shots ≠ [])) :=
  ⟨normalize_witnessInput,
    c1_normalize_amended witnessInput witnessOutput normalize_witnessInput⟩

/-- **C6** (counterexample).  Normalization does not make the shots list
non-overlapping: the windows `[0, 10]` and `[5, 15]` both survive, and the
first shot's end `10` exceeds the second shot's start `5`. -/
theorem c6_overlap_counterexample :
    normalizeSceneData overlapInput = .ok overlapOutput ∧
      ¬ NonOverlapping overlapOutput := by
  refine ⟨normalize_overlapInput, fun hno => ?_⟩
  have hch := hno [overlapShotAOut, overlapShotBOut] rfl
  have hab : endStartLe overlapShotAOut overlapShotBOut := List.chain'_pair.mp hch
  have hle := hab 10 5 rfl rfl
  norm_num at hle

/-- **C6** (amended).  The shots list of every scene returned by
`normalizeSceneData` is sorted by start time (consecutive numeric starts are
nondecreasing); it need not be non-overlapping. -/
theorem c6_amended_sorted (d res : Jv) (h : normalizeSceneData d = .ok res) :
    ∀ shots, sceneShots res = some shots → shots.Chain' startLe := by
  obtain ⟨_, l, kept, fixed, hkept, hfixed, hshots, _⟩ := normalizeSceneBody_ok h
  intro shots hsh
  rw [hshots] at hsh
  obtain rfl := Option.some.inj hsh
  exact chain_startLe (mapShots_forall2 hfixed)
    (fun x hx => filterShots_sub hkept x ((sortShots_mem x kept).mp hx))
    (sortShots_chain' kept)

/-- Witness for C6 (amended): instantiated on the overlapping-shots run. -/
theorem c6_amended_sorted_witness :
    normalizeSceneData overlapInput = .ok overlapOutput ∧
      ∀ shots, sceneShots overlapOutput = some shots → shots.Chain' startLe :=
  ⟨normalize_overlapInput,
    c6_amended_sorted overlapInput overlapOutput normalize_overlapInput⟩

/-- **C8** (counterexample).  The resolution chain can throw to its caller:
when the fetch fails and the inline element parses to `{meta: 5}`, the
unguarded `normalizeSceneData(loadInlineScene())` call in the `catch` block
throws a `TypeError`. -/
theorem c8_loader_throws_counterexample :
    loadSceneDataAsync .networkError (.ok badMetaInput) = .error .typeError := rfl

/-- **C8** (amended).  `loadSceneDataAsync` returns a normalized scene for
every fetch outcome, provided the inline payload itself normalizes
successfully and the fetched payload's normalization terminates (the `catch`
covers a `TypeError` from the fetched payload but nothing thrown by the
inline fallback, and no `catch` helps a non-terminating normalization). -/
theorem c8_loader_amended (f : FetchOutcome) (i : InlineOutcome)
    (hinl : ∃ s, normalizeSceneData (loadInlineScene i) = .ok s)
    (hfet : ∀ j, f = .ok j → normalizeSceneData j ≠ .error .divergence) :
    ∃ s, loadSceneDataAsync f i = .ok s ∧ SceneShape s := by
  obtain ⟨si, hsi⟩ := hinl
  cases f with
  | ok j =>
      cases hres : normalizeSceneData j with
      | ok s =>
          refine ⟨s, ?_, normalizeSceneData_shape hres⟩
          simp [loadSceneDataAsync, hres]
      | error e =>
          cases e with
          | typeError =>
              refine ⟨si, ?_, normalizeSceneData_shape hsi⟩
              simp [loadSceneDataAsync, hres, hsi]
          | divergence => exact absurd hres (hfet j rfl)
  | badJson => exact ⟨si, by simp [loadSceneDataAsync, hsi], normalizeSceneData_shape hsi⟩
  | httpError => exact ⟨si, by simp [loadSceneDataAsync, hsi], normalizeSceneData_shape hsi⟩
  | networkError => exact ⟨si, by simp [loadSceneDataAsync, hsi], normalizeSceneData_shape hsi⟩

/-- Witness for C8 (amended): a failed fetch with the benign inline payload
`witnessInput` resolves to its normalized scene. -/
theorem c8_loader_amended_witness :
    ∃ s, loadSceneDataAsync .networkError (.ok witnessInput) = .ok s ∧ SceneShape s :=
  c8_loader_amended .networkError (.ok witnessInput)
    ⟨witnessOutput, normalize_witnessInput⟩ (fun j hj => by cases hj)

/-! ### Frame lemmas for the heap model -/

theorem agreeBelow_refl (base : Nat) (H : Heap) : agreeBelow base H H :=
  fun _ _ => rfl

theorem agreeBelow_trans {base : Nat} {H1 H2 H3 : Heap}
    (h12 : agreeBelow base H1 H2) (h23 : agreeBelow base H2 H3) :
    agreeBelow base H1 H3 :=
  fun a ha => (h23 a ha).trans (h12 a ha)

@[simp] theorem resHeap_ok {α : Type} (a : α) (H : Heap) :
    resHeap (.ok a H : EStateM.Result JsErr Heap α) = H := rfl

@[simp] theorem resHeap_error {α : Type} (e : JsErr) (H : Heap) :
    resHeap (.error e H : EStateM.Result JsErr Heap α) = H := rfl

@[simp] theorem resOk_ok {α : Type} (S : α → Prop) (a : α) (H : Heap) :
    resOk S (.ok a H) = S a := rfl

@[simp] theorem resOk_error {α : Type} (S : α → Prop) (e : JsErr) (H : Heap) :
    resOk S (.error e H) = True := rfl

theorem HOk_pure {α : Type} {base : Nat} {S : α → Prop} {a : α} (h : S a) :
    HOk base S (pure a) := by
  intro H hInv
  exact ⟨agreeBelow_refl base H, hInv, h⟩

theorem HOk_throw {α : Type} {base : Nat} (S : α → Prop) (e : JsErr) :
    HOk base S (throwE e) := by
  intro H hInv
  exact ⟨agreeBelow_refl base H, hInv, trivial⟩

theorem HOk_mono {α : Type} {base : Nat} {S S' : α → Prop} {m : HM α}
    (h : HOk base S m) (himp : ∀ a, S a → S' a) : HOk base S' m := by
  intro H hInv
  obtain ⟨h1, h2, h3⟩ := h H hInv
  refine ⟨h1, h2, ?_⟩
  cases hm : m H with
  | ok a H2 =>
      rw [hm] at h3
      exact himp a h3
  | error e H2 => exact trivial

theorem HM_bind_ok {α β : Type} {m : HM α} {f : α → HM β} {H H2 : Heap} {a : α}
    (h : m H = .ok a H2) : (m >>= f) H = f a H2 := by
  show EStateM.bind m f H = f a H2
  unfold EStateM.bind
  rw [h]

theorem HM_bind_error {α β : Type} {m : HM α} {f : α → HM β} {H H2 : Heap}
    {e : JsErr} (h : m H = .error e H2) :
    (m >>= f) H = (.error e H2 : EStateM.Result JsErr Heap β) := by
  show EStateM.bind m f H = _
  unfold EStateM.bind
  rw [h]

theorem HOk_bind {α β : Type} {base : Nat} {S1 : α → Prop} {S2 : β → Prop}
    {m : HM α} {f : α → HM β}
    (hm : HOk base S1 m) (hf : ∀ a, S1 a → HOk base S2 (f a)) :
    HOk base S2 (m >>= f) := by
  intro H hInv
  obtain ⟨hag, hInv2, hS⟩ := hm H hInv
  cases hm1 : m H with
  | ok a H2 =>
      rw [hm1] at hag hInv2 hS
      simp only [resHeap_ok, resOk_ok] at hag hInv2 hS
      rw [HM_bind_ok hm1]
      obtain ⟨hag2, hInv3, hS2⟩ := hf a hS H2 hInv2
      exact ⟨agreeBelow_trans hag hag2, hInv3, hS2⟩
  | error e H2 =>
      rw [hm1] at hag hInv2
      simp only [resHeap_error] at hag hInv2
      rw [HM_bind_error hm1]
      exact ⟨hag, hInv2, trivial⟩

theorem HOk_getCell {base : Nat} {a : Nat} (ha : base ≤ a) :
    HOk base (SafeNode base) (getCell a) := by
  intro H hInv
  have hrun : getCell a H =
      (match H.get? a with
       | some n => .ok n H
       | none => .error .typeError H) := rfl
  cases hg : H.get? a with
  | some n =>
      have hr : getCell a H = .ok n H := by rw [hrun, hg]
      rw [hr]
      exact ⟨agreeBelow_refl base H, hInv, hInv.2 a n ha hg⟩
  | none =>
      have hr : getCell a H = .error .typeError H := by rw [hrun, hg]
      rw [hr]
      exact ⟨agreeBelow_refl base H, hInv, trivial⟩

theorem HOk_putCell {base : Nat} {a : Nat} {n : Node}
    (ha : base ≤ a) (hn : SafeNode base n) :
    HOk base (fun _ => True) (putCell a n) := by
  intro H hInv
  show agreeBelow base H (H.set a n) ∧ InvH base (H.set a n) ∧ True
  refine ⟨?_, ⟨?_, ?_⟩, trivial⟩
  · intro a2 ha2
    have hne : a ≠ a2 := by omega
    exact List.get?_set_ne n H hne
  · rw [List.length_set]
    exact hInv.1
  · intro a2 n2 ha2 hg
    by_cases hae : a = a2
    · subst hae
      by_cases hlt : a < H.length
      · rw [List.get?_set_eq_of_lt n hlt] at hg
        rw [← Option.some.inj hg]
        exact hn
      · have hle : H.length ≤ a := by omega
        rw [List.set_eq_of_length_le hle] at hg
        exact hInv.2 a n2 ha2 hg
    · rw [List.get?_set_ne n H hae] at hg
      exact hInv.2 a2 n2 ha2 hg

theorem HOk_allocNode {base : Nat} {n : Node} (hn : SafeNode base n) :
    HOk base (fun r => base ≤ r) (allocNode n) := by
  intro H hInv
  have hbl : base ≤ H.length := hInv.1
  show agreeBelow base H (H ++ [n]) ∧ InvH base (H ++ [n]) ∧ base ≤ H.length
  refine ⟨?_, ⟨?_, ?_⟩, hbl⟩
  · intro a2 ha2
    have hlt : a2 < H.length := by omega
    exact List.get?_append hlt
  · rw [List.length_append]
    omega
  · intro a2 n2 ha2 hg
    by_cases hlt : a2 < H.length
    · rw [List.get?_append hlt] at hg
      exact hInv.2 a2 n2 ha2 hg
    · by_cases heq : a2 = H.length
      · subst heq
        rw [List.get?_concat_length] at hg
        rw [← Option.some.inj hg]
        exact hn
      · have hge : H.length ≤ a2 := by omega
        rw [List.get?_append_right hge] at hg
        have hle : ([n] : Heap).length ≤ a2 - H.length := by
          simp
          omega
        rw [List.get?_eq_none.mpr hle] at hg
        cases hg

theorem agreeBelow_append {base : Nat} {H : Heap} (t : List Node)
    (hb : base ≤ H.length) : agreeBelow base H (H ++ t) := by
  intro a ha
  have hlt : a < H.length := by omega
  exact List.get?_append hlt

theorem appendNode_inv {base : Nat} {H : Heap} {n : Node}
    (hInv : InvH base H) (hn : SafeNode base n) : InvH base (H ++ [n]) := by
  have hbl : base ≤ H.length := hInv.1
  constructor
  · rw [List.length_append]
    omega
  · intro a2 n2 ha2 hg
    by_cases hlt : a2 < H.length
    · rw [List.get?_append hlt] at hg
      exact hInv.2 a2 n2 ha2 hg
    · by_cases heq : a2 = H.length
      · subst heq
        rw [List.get?_concat_length] at hg
        rw [← Option.some.inj hg]
        exact hn
      · have hge : H.length ≤ a2 := by omega
        rw [List.get?_append_right hge] at hg
        have hle : ([n] : Heap).length ≤ a2 - H.length := by
          simp
          omega
        rw [List.get?_eq_none.mpr hle] at hg
        cases hg

theorem lookupFieldH_mem {fs : List (String × HVal)} {k : String} {w : HVal}
    (h : lookupFieldH fs k = some w) : w ∈ fs.map Prod.snd := by
  induction fs with
  | nil => cases h
  | cons p rest ih =>
      obtain ⟨k1, v1⟩ := p
      unfold lookupFieldH at h
      rw [List.map_cons]
      by_cases hk : k1 = k
      · rw [if_pos hk] at h
        rw [← Option.some.inj h]
        exact List.mem_cons_self _ _
      · rw [if_neg hk] at h
        exact List.mem_cons_of_mem _ (ih h)

theorem setFieldH_mem {fs : List (String × HVal)} {k : String} {w v : HVal}
    (h : v ∈ (setFieldH fs k w).map Prod.snd) : v = w ∨ v ∈ fs.map Prod.snd := by
  induction fs with
  | nil =>
      unfold setFieldH at h
      simp at h
      exact Or.inl h
  | cons p rest ih =>
      obtain ⟨k1, v1⟩ := p
      unfold setFieldH at h
      by_cases hk : k1 = k
      · rw [if_pos hk] at h
        rw [List.map_cons] at h
        rcases List.mem_cons.mp h with rfl | h2
        · exact Or.inl rfl
        · exact Or.inr (List.mem_cons_of_mem _ h2)
      · rw [if_neg hk] at h
        rw [List.map_cons] at h
        rcases List.mem_cons.mp h with rfl | h2
        · exact Or.inr (List.mem_cons_self _ _)
        · rcases ih h2 with h3 | h3
          · exact Or.inl h3
          · exact Or.inr (List.mem_cons_of_mem _ h3)

theorem setIdxH_mem {xs : List HVal} {i : Nat} {w v : HVal}
    (h : v ∈ setIdxH xs i w) : v = w ∨ v ∈ xs := by
  induction xs generalizing i with
  | nil =>
      unfold setIdxH at h
      exact absurd h (List.not_mem_nil v)
  | cons x rest ih =>
      cases i with
      | zero =>
          unfold setIdxH at h
          rcases List.mem_cons.mp h with rfl | h2
          · exact Or.inl rfl
          · exact Or.inr (List.mem_cons_of_mem _ h2)
      | succ m =>
          unfold setIdxH at h
          rcases List.mem_cons.mp h with rfl | h2
          · exact Or.inr (List.mem_cons_self _ _)
          · rcases ih h2 with h3 | h3
            · exact Or.inl h3
            · exact Or.inr (List.mem_cons_of_mem _ h3)

theorem sortInsertK_mem {x p : HVal × JNum} {l : List (HVal × JNum)}
    (h : p ∈ sortInsertK x l) : p = x ∨ p ∈ l := by
  induction l with
  | nil =>
      unfold sortInsertK at h
      simp at h
      exact Or.inl h
  | cons y ys ih =>
      unfold sortInsertK at h
      by_cases hle : shotLeK x y = true
      · rw [if_pos hle] at h
        rcases List.mem_cons.mp h with rfl | h2
        · exact Or.inl rfl
        · exact Or.inr h2
      · rw [if_neg hle] at h
        rcases List.mem_cons.mp h with rfl | h2
        · exact Or.inr (List.mem_cons_self _ _)
        · rcases ih h2 with h3 | h3
          · exact Or.inl h3
          · exact Or.inr (List.mem_cons_of_mem _ h3)

theorem sortShotsK_mem {p : HVal × JNum} {l : List (HVal × JNum)}
    (h : p ∈ sortShotsK l) : p ∈ l := by
  induction l with
  | nil => exact h
  | cons x xs ih =>
      unfold sortShotsK at h
      rcases sortInsertK_mem h with rfl | h2
      · exact List.mem_cons_self _ _
      · exact List.mem_cons_of_mem _ (ih h2)

theorem HOk_readPropH {base : Nat} {v : HVal} (hv : SafeV base v) (k : String) :
    HOk base (SafeO base) (readPropH v k) := by
  cases v with
  | hnull => exact HOk_throw _ _
  | hbool b => exact HOk_pure (fun w hw => by cases hw)
  | hnum q => exact HOk_pure (fun w hw => by cases hw)
  | hnan => exact HOk_pure (fun w hw => by cases hw)
  | hstr s => exact HOk_pure (fun w hw => by cases hw)
  | href a =>
      have ha : base ≤ a := hv a rfl
      refine HOk_bind (HOk_getCell ha) ?_
      intro n hn
      cases n with
      | nobj fs =>
          refine HOk_pure ?_
          intro w hw
          exact hn w (lookupFieldH_mem hw)
      | narr _ => exact HOk_pure (fun w hw => by cases hw)

theorem HOk_setPropH {base : Nat} {v w : HVal} (hv : SafeV base v)
    (hw : SafeV base w) (k : String) :
    HOk base (fun _ => True) (setPropH v k w) := by
  cases v with
  | hnull => exact HOk_throw _ _
  | hbool b => exact HOk_throw _ _
  | hnum q => exact HOk_throw _ _
  | hnan => exact HOk_throw _ _
  | hstr s => exact HOk_throw _ _
  | href a =>
      have ha : base ≤ a := hv a rfl
      refine HOk_bind (HOk_getCell ha) ?_
      intro n hn
      cases n with
      | nobj fs =>
          refine HOk_putCell ha ?_
          intro u hu
          rcases setFieldH_mem hu with rfl | hmem
          · exact hw
          · exact hn u hmem
      | narr _ => exact HOk_throw _ _

theorem HOk_isArrayH {base : Nat} {x : Option HVal} (hx : SafeO base x) :
    HOk base (fun _ => True) (isArrayH x) := by
  cases x with
  | none => exact HOk_pure trivial
  | some v =>
      cases v with
      | hnull => exact HOk_pure trivial
      | hbool b => exact HOk_pure trivial
      | hnum q => exact HOk_pure trivial
      | hnan => exact HOk_pure trivial
      | hstr s => exact HOk_pure trivial
      | href a =>
          have ha : base ≤ a := hx (.href a) rfl a rfl
          refine HOk_bind (HOk_getCell ha) ?_
          intro n _
          cases n with
          | narr _ => exact HOk_pure trivial
          | nobj _ => exact HOk_pure trivial

theorem HOk_toNumH {base : Nat} {v : HVal} (hv : SafeV base v) :
    HOk base (fun _ => True) (toNumH v) := by
  cases v with
  | hnull => exact HOk_pure trivial
  | hbool b => exact HOk_pure trivial
  | hnum q => exact HOk_pure trivial
  | hnan => exact HOk_pure trivial
  | hstr s => exact HOk_pure trivial
  | href a =>
      have ha : base ≤ a := hv a rfl
      refine HOk_bind (HOk_getCell ha) ?_
      intro n _
      cases n with
      | narr xs => exact HOk_pure trivial
      | nobj _ => exact HOk_pure trivial

theorem HOk_toNumUH {base : Nat} {x : Option HVal} (hx : SafeO base x) :
    HOk base (fun _ => True) (toNumUH x) := by
  cases x with
  | none => exact HOk_pure trivial
  | some v => exact HOk_toNumH (hx v rfl)

theorem HOk_jvToBeatNumH {base : Nat} {v : HVal} (hv : SafeV base v) :
    HOk base (fun _ => True) (jvToBeatNumH v) := by
  cases v with
  | hnull => exact HOk_pure trivial
  | hbool b => exact HOk_pure trivial
  | hnum q => exact HOk_pure trivial
  | hnan => exact HOk_pure trivial
  | hstr s => exact HOk_pure trivial
  | href a =>
      have ha : base ≤ a := hv a rfl
      refine HOk_bind (HOk_getCell ha) ?_
      intro n _
      cases n with
      | narr xs => exact HOk_pure trivial
      | nobj _ => exact HOk_pure trivial

theorem HOk_jsOrH {base : Nat} {x : Option HVal} {d : HM HVal}
    (hx : SafeO base x) (hd : HOk base (SafeV base) d) :
    HOk base (SafeV base) (jsOrH x d) := by
  cases x with
  | none => exact hd
  | some v =>
      show HOk base (SafeV base) (if v.truthyH = true then pure v else d)
      by_cases ht : v.truthyH = true
      · rw [if_pos ht]
        exact HOk_pure (hx v rfl)
      · rw [if_neg ht]
        exact hd

mutual
theorem allocPure_spec (j : Jv) (H : Heap) (base : Nat) (hInv : InvH base H) :
    (∃ t, (allocPure j H).2 = H ++ t) ∧ SafeV base (allocPure j H).1 ∧
      InvH base (allocPure j H).2 := by
  cases j with
  | null =>
      unfold allocPure
      refine ⟨⟨[], (List.append_nil H).symm⟩, ?_, hInv⟩
      intro a h
      simp at h
  | bool b =>
      unfold allocPure
      refine ⟨⟨[], (List.append_nil H).symm⟩, ?_, hInv⟩
      intro a h
      simp at h
  | num q =>
      unfold allocPure
      refine ⟨⟨[], (List.append_nil H).symm⟩, ?_, hInv⟩
      intro a h
      simp at h
  | nan =>
      unfold allocPure
      refine ⟨⟨[], (List.append_nil H).symm⟩, ?_, hInv⟩
      intro a h
      simp at h
  | str s =>
      unfold allocPure
      refine ⟨⟨[], (List.append_nil H).symm⟩, ?_, hInv⟩
      intro a h
      simp at h
  | arr xs =>
      obtain ⟨⟨t, hext⟩, hvs, hInv1⟩ := allocPureList_spec xs H base hInv
      unfold allocPure
      refine ⟨⟨t ++ [.narr (allocPureList xs H).1], ?_⟩, ?_, ?_⟩
      · rw [hext, List.append_assoc]
      · intro a h
        cases h
        exact hInv1.1
      · exact appendNode_inv hInv1 hvs
  | obj fs =>
      obtain ⟨⟨t, hext⟩, hvs, hInv1⟩ := allocPureFields_spec fs H base hInv
      unfold allocPure
      refine ⟨⟨t ++ [.nobj (allocPureFields fs H).1], ?_⟩, ?_, ?_⟩
      · rw [hext, List.append_assoc]
      · intro a h
        cases h
        exact hInv1.1
      · exact appendNode_inv hInv1 hvs

theorem allocPureList_spec (xs : List Jv) (H : Heap) (base : Nat)
    (hInv : InvH base H) :
    (∃ t, (allocPureList xs H).2 = H ++ t) ∧
      SafeNode base (.narr (allocPureList xs H).1) ∧
      InvH base (allocPureList xs H).2 := by
  cases xs with
  | nil =>
      unfold allocPureList
      refine ⟨⟨[], (List.append_nil H).symm⟩, ?_, hInv⟩
      intro v hv
      simp [nodeVals] at hv
  | cons x rest =>
      obtain ⟨⟨t1, hext1⟩, hv1, hInv1⟩ := allocPure_spec x H base hInv
      obtain ⟨⟨t2, hext2⟩, hvs, hInv2⟩ :=
        allocPureList_spec rest (allocPure x H).2 base hInv1
      unfold allocPureList
      refine ⟨⟨t1 ++ t2, ?_⟩, ?_, hInv2⟩
      · rw [hext2, hext1, List.append_assoc]
      · intro v hv
        simp only [nodeVals] at hv
        rcases List.mem_cons.mp hv with rfl | h2
        · exact hv1
        · exact hvs v h2

theorem allocPureFields_spec (fs : List (String × Jv)) (H : Heap) (base : Nat)
    (hInv : InvH base H) :
    (∃ t, (allocPureFields fs H).2 = H ++ t) ∧
      SafeNode base (.nobj (allocPureFields fs H).1) ∧
      InvH base (allocPureFields fs H).2 := by
  cases fs with
  | nil =>
      unfold allocPureFields
      refine ⟨⟨[], (List.append_nil H).symm⟩, ?_, hInv⟩
      intro v hv
      simp [nodeVals] at hv
  | cons p rest =>
      obtain ⟨k, x⟩ := p
      obtain ⟨⟨t1, hext1⟩, hv1, hInv1⟩ := allocPure_spec x H base hInv
      obtain ⟨⟨t2, hext2⟩, hvs, hInv2⟩ :=
        allocPureFields_spec rest (allocPure x H).2 base hInv1
      unfold allocPureFields
      refine ⟨⟨t1 ++ t2, ?_⟩, ?_, hInv2⟩
      · rw [hext2, hext1, List.append_assoc]
      · intro v hv
        simp only [nodeVals, List.map_cons] at hv
        rcases List.mem_cons.mp hv with rfl | h2
        · exact hv1
        · exact hvs v h2
end

theorem HOk_allocJvM {base : Nat} (j : Jv) : HOk base (SafeV base) (allocJvM j) := by
  intro H hInv
  obtain ⟨⟨t, hext⟩, hsafe, hInv2⟩ := allocPure_spec j H base hInv
  show agreeBelow base H (allocPure j H).2 ∧ InvH base (allocPure j H).2 ∧
    SafeV base (allocPure j H).1
  refine ⟨?_, hInv2, hsafe⟩
  rw [hext]
  exact agreeBelow_append t hInv.1

theorem HOk_stringifyH {base : Nat} (v : HVal) :
    HOk base (fun _ => True) (stringifyH v) := by
  intro H hInv
  have hrun : stringifyH v H =
      (match readJv (H.length + 1) H v with
       | some j => .ok j H
       | none => .error .typeError H) := rfl
  cases hr : readJv (H.length + 1) H v with
  | some j =>
      have hx : stringifyH v H = .ok j H := by rw [hrun, hr]
      rw [hx]
      exact ⟨agreeBelow_refl base H, hInv, trivial⟩
  | none =>
      have hx : stringifyH v H = .error .typeError H := by rw [hrun, hr]
      rw [hx]
      exact ⟨agreeBelow_refl base H, hInv, trivial⟩

theorem HOk_allocEmptyObjH {base : Nat} : HOk base (SafeV base) allocEmptyObjH := by
  refine HOk_bind (HOk_allocNode (fun v hv => nomatch hv)) ?_
  intro a ha
  refine HOk_pure ?_
  intro a2 h2
  cases h2
  exact ha

theorem safe_numOrNanH {base : Nat} (t : JNum) : SafeV base (numOrNanH t) := by
  intro a h
  cases t with
  | some q => simp [numOrNanH] at h
  | none => simp [numOrNanH] at h

theorem HOk_metaFixH {base : Nat} {root : HVal} (hr : SafeV base root) :
    HOk base (fun _ => True) (metaFixH root) := by
  refine HOk_bind (HOk_readPropH hr "meta") ?_
  intro mo _
  by_cases ht : optTruthyH mo = true
  · rw [if_pos ht]
    exact HOk_pure trivial
  · rw [if_neg ht]
    refine HOk_bind HOk_allocEmptyObjH ?_
    intro m hm
    exact HOk_setPropH hr hm "meta"

theorem HOk_setMetaAssignH {base : Nat} {root v : HVal} (hr : SafeV base root)
    (hv : SafeV base v) (k : String) :
    HOk base (fun _ => True) (setMetaAssignH root k v) := by
  refine HOk_bind (HOk_readPropH hr "meta") ?_
  intro mo hmo
  cases mo with
  | none => exact HOk_throw _ _
  | some m => exact HOk_setPropH (hmo m rfl) hv k

theorem HOk_setMetaDefaultH {base : Nat} {root : HVal} {d : HM HVal}
    (hr : SafeV base root) (hd : HOk base (SafeV base) d) (k : String) :
    HOk base (fun _ => True) (setMetaDefaultH root k d) := by
  refine HOk_bind (HOk_readPropH hr "meta") ?_
  intro mo hmo
  cases mo with
  | none => exact HOk_throw _ _
  | some m =>
      have hm : SafeV base m := hmo m rfl
      refine HOk_bind (HOk_readPropH hm k) ?_
      intro cur hcur
      refine HOk_bind (HOk_jsOrH hcur hd) ?_
      intro w hw
      exact HOk_setPropH hm hw k

theorem HOk_shotsFixH {base : Nat} {root : HVal} (hr : SafeV base root) :
    HOk base (fun _ => True) (shotsFixH root) := by
  refine HOk_bind (HOk_readPropH hr "shots") ?_
  intro sh hsh
  refine HOk_bind (HOk_isArrayH hsh) ?_
  intro isA _
  by_cases hA : isA = true
  · rw [if_pos hA]
    exact HOk_pure trivial
  · rw [if_neg hA]
    refine HOk_bind (HOk_allocJvM createMinimalScene) ?_
    intro scene hscene
    refine HOk_bind (HOk_readPropH hscene "shots") ?_
    intro ms hms
    cases ms with
    | some v => exact HOk_setPropH hr (hms v rfl) "shots"
    | none => exact HOk_throw _ _

theorem HOk_shotKeepH {base : Nat} {s : HVal} (hs : SafeV base s) :
    HOk base (fun _ => True) (shotKeepH s) := by
  refine HOk_bind (HOk_readPropH hs "time") ?_
  intro t ht
  cases t with
  | none => exact HOk_pure trivial
  | some v =>
      cases v with
      | hnull => exact HOk_pure trivial
      | hbool b => exact HOk_pure trivial
      | hnum q => exact HOk_pure trivial
      | hnan => exact HOk_pure trivial
      | hstr s2 => exact HOk_pure trivial
      | href a =>
          refine HOk_bind (HOk_getCell (ht _ rfl a rfl)) ?_
          intro n _
          cases n with
          | narr xs => exact HOk_pure trivial
          | nobj _ => exact HOk_pure trivial

theorem HOk_filterShotsH {base : Nat} {xs : List HVal}
    (hxs : ∀ v ∈ xs, SafeV base v) :
    HOk base (fun l => ∀ v ∈ l, SafeV base v) (filterShotsH xs) := by
  induction xs with
  | nil =>
      refine HOk_pure ?_
      intro v hv
      exact absurd hv (List.not_mem_nil v)
  | cons s rest ih =>
      refine HOk_bind (HOk_shotKeepH (hxs s (List.mem_cons_self s rest))) ?_
      intro b _
      refine HOk_bind (ih (fun v hv => hxs v (List.mem_cons_of_mem s hv))) ?_
      intro tail htail
      refine HOk_pure ?_
      intro v hv
      by_cases hb : b = true
      · rw [if_pos hb] at hv
        rcases List.mem_cons.mp hv with rfl | h2
        · exact hxs v (List.mem_cons_self _ _)
        · exact htail v h2
      · rw [if_neg hb] at hv
        exact htail v hv

theorem HOk_shotStartRawH {base : Nat} {s : HVal} (hs : SafeV base s) :
    HOk base (SafeO base) (shotStartRawH s) := by
  refine HOk_bind (HOk_readPropH hs "time") ?_
  intro t ht
  cases t with
  | none => exact HOk_pure (fun w hw => by cases hw)
  | some v =>
      cases v with
      | hnull => exact HOk_pure (fun w hw => by cases hw)
      | hbool b => exact HOk_pure (fun w hw => by cases hw)
      | hnum q => exact HOk_pure (fun w hw => by cases hw)
      | hnan => exact HOk_pure (fun w hw => by cases hw)
      | hstr s2 => exact HOk_pure (fun w hw => by cases hw)
      | href a =>
          refine HOk_bind (HOk_getCell (ht _ rfl a rfl)) ?_
          intro n hn
          cases n with
          | narr xs =>
              refine HOk_pure ?_
              intro w hw
              exact hn w (List.get?_mem hw)
          | nobj _ => exact HOk_pure (fun w hw => by cases hw)

theorem HOk_shotSortKeyH {base : Nat} {s : HVal} (hs : SafeV base s) :
    HOk base (fun _ => True) (shotSortKeyH s) := by
  refine HOk_bind (HOk_shotStartRawH hs) ?_
  intro r hr
  refine HOk_bind (HOk_jsOrH hr (HOk_pure (fun a h => by cases h))) ?_
  intro v hv
  exact HOk_toNumH hv

theorem HOk_keysOf {base : Nat} {xs : List HVal} (hxs : ∀ v ∈ xs, SafeV base v) :
    HOk base (fun ps => ∀ p ∈ ps, SafeV base p.1) (keysOf xs) := by
  induction xs with
  | nil =>
      refine HOk_pure ?_
      intro p hp
      exact absurd hp (List.not_mem_nil p)
  | cons x rest ih =>
      refine HOk_bind (HOk_shotSortKeyH (hxs x (List.mem_cons_self x rest))) ?_
      intro k _
      refine HOk_bind (ih (fun v hv => hxs v (List.mem_cons_of_mem x hv))) ?_
      intro ps hps
      refine HOk_pure ?_
      intro p hp
      rcases List.mem_cons.mp hp with rfl | h2
      · exact hxs x (List.mem_cons_self x rest)
      · exact hps p h2

theorem HOk_clampShotTimeH {base : Nat} {a : Nat} (ha : base ≤ a) :
    HOk base (fun _ => True) (clampShotTimeH a) := by
  refine HOk_bind (HOk_getCell ha) ?_
  intro n hn
  cases n with
  | nobj _ => exact HOk_pure trivial
  | narr xs =>
      have hxs : ∀ v ∈ xs, SafeV base v := hn
      refine HOk_bind (HOk_jsOrH (fun w hw => hxs w (List.get?_mem hw))
        (HOk_pure (fun a2 h => by cases h))) ?_
      intro v0 hv0
      refine HOk_bind (HOk_toNumH hv0) ?_
      intro k0 _
      refine HOk_bind (HOk_putCell ha ?_) ?_
      · intro v hv
        rcases setIdxH_mem hv with rfl | h2
        · exact safe_numOrNanH _
        · exact hxs v h2
      · intro _ _
        refine HOk_bind (HOk_getCell ha) ?_
        intro n2 hn2
        cases n2 with
        | nobj _ => exact HOk_throw _ _
        | narr ys =>
            have hys : ∀ v ∈ ys, SafeV base v := hn2
            refine HOk_bind (HOk_jsOrH (fun w hw => hys w (List.get?_mem hw))
              (HOk_pure (fun a2 h => by cases h))) ?_
            intro v1 hv1
            refine HOk_bind (HOk_toNumH hv1) ?_
            intro k1 _
            refine HOk_bind (HOk_toNumUH (fun w hw => hys w (List.get?_mem hw))) ?_
            intro t0b _
            refine HOk_putCell ha ?_
            intro v hv
            rcases setIdxH_mem hv with rfl | h2
            · exact safe_numOrNanH _
            · exact hys v h2

theorem HOk_clampStageH {base : Nat} {s : HVal} (hs : SafeV base s) :
    HOk base (fun _ => True) (clampStageH s) := by
  refine HOk_bind (HOk_readPropH hs "time") ?_
  intro t ht
  cases t with
  | none => exact HOk_pure trivial
  | some v =>
      cases v with
      | hnull => exact HOk_pure trivial
      | hbool b => exact HOk_pure trivial
      | hnum q => exact HOk_pure trivial
      | hnan => exact HOk_pure trivial
      | hstr s2 => exact HOk_pure trivial
      | href a =>
          have ha : base ≤ a := ht _ rfl a rfl
          refine HOk_bind (HOk_getCell ha) ?_
          intro n _
          cases n with
          | narr _ => exact HOk_clampShotTimeH ha
          | nobj _ => exact HOk_pure trivial

theorem HOk_subDefaultH {base : Nat} {s : HVal} (hs : SafeV base s)
    (k1 k2 : String) (d : Jv) :
    HOk base (fun _ => True) (subDefaultH s k1 k2 d) := by
  refine HOk_bind (HOk_readPropH hs k1) ?_
  intro mo hmo
  cases mo with
  | none => exact HOk_throw _ _
  | some m =>
      have hm := hmo m rfl
      refine HOk_bind (HOk_readPropH hm k2) ?_
      intro cur hcur
      refine HOk_bind (HOk_jsOrH hcur (HOk_allocJvM d)) ?_
      intro w hw
      exact HOk_setPropH hm hw k2

theorem HOk_normShotH {base : Nat} {s : HVal} (hs : SafeV base s) :
    HOk base (fun _ => True) (normShotH s) := by
  refine HOk_bind (HOk_clampStageH hs) ?_
  intro _ _
  refine HOk_bind (HOk_readPropH hs "camera") ?_
  intro cam hcam
  refine HOk_bind (HOk_jsOrH hcam HOk_allocEmptyObjH) ?_
  intro camv hcamv
  refine HOk_bind (HOk_setPropH hs hcamv "camera") ?_
  intro _ _
  refine HOk_bind (HOk_subDefaultH hs "camera" "fov" _) ?_
  intro _ _
  refine HOk_bind (HOk_subDefaultH hs "camera" "rollDeg" _) ?_
  intro _ _
  refine HOk_bind (HOk_subDefaultH hs "camera" "oscillation" _) ?_
  intro _ _
  refine HOk_bind (HOk_readPropH hs "fx") ?_
  intro fx hfx
  refine HOk_bind (HOk_jsOrH hfx HOk_allocEmptyObjH) ?_
  intro fxv hfxv
  refine HOk_bind (HOk_setPropH hs hfxv "fx") ?_
  intro _ _
  refine HOk_bind (HOk_subDefaultH hs "fx" "bloom" _) ?_
  intro _ _
  exact HOk_subDefaultH hs "fx" "vignette" _

theorem HOk_forEachShotsH {base : Nat} {xs : List HVal}
    (hxs : ∀ v ∈ xs, SafeV base v) :
    HOk base (fun _ => True) (forEachShotsH xs) := by
  induction xs with
  | nil => exact HOk_pure trivial
  | cons s rest ih =>
      refine HOk_bind (HOk_normShotH (hxs s (List.mem_cons_self s rest))) ?_
      intro _ _
      exact ih (fun v hv => hxs v (List.mem_cons_of_mem s hv))

theorem HOk_shotsPipelineH {base : Nat} {root : HVal} (hr : SafeV base root) :
    HOk base (fun _ => True) (shotsPipelineH root) := by
  refine HOk_bind (HOk_readPropH hr "shots") ?_
  intro sh hsh
  cases sh with
  | none => exact HOk_throw _ _
  | some v =>
      cases v with
      | hnull => exact HOk_throw _ _
      | hbool b => exact HOk_throw _ _
      | hnum q => exact HOk_throw _ _
      | hnan => exact HOk_throw _ _
      | hstr s2 => exact HOk_throw _ _
      | href a =>
          refine HOk_bind (HOk_getCell (hsh _ rfl a rfl)) ?_
          intro n hn
          cases n with
          | nobj _ => exact HOk_throw _ _
          | narr xs =>
              refine HOk_bind (HOk_filterShotsH hn) ?_
              intro kept hkept
              refine HOk_bind (HOk_allocNode hkept) ?_
              intro b hb
              refine HOk_bind (HOk_setPropH hr (fun a2 h => by cases h; exact hb)
                "shots") ?_
              intro _ _
              refine HOk_bind (HOk_keysOf hkept) ?_
              intro keyed hkeyed
              refine HOk_bind (HOk_putCell hb ?_) ?_
              · intro v hv
                obtain ⟨p, hp, rfl⟩ := List.mem_map.mp hv
                exact hkeyed p (sortShotsK_mem hp)
              · intro _ _
                refine HOk_bind (HOk_getCell hb) ?_
                intro n2 hn2
                cases n2 with
                | narr sorted => exact HOk_forEachShotsH hn2
                | nobj _ => exact HOk_throw _ _

theorem HOk_mapBeatsH {base : Nat} {xs : List HVal}
    (hxs : ∀ v ∈ xs, SafeV base v) :
    HOk base (fun _ => True) (mapBeatsH xs) := by
  induction xs with
  | nil => exact HOk_pure trivial
  | cons x rest ih =>
      refine HOk_bind (HOk_jvToBeatNumH (hxs x (List.mem_cons_self x rest))) ?_
      intro _ _
      refine HOk_bind (ih (fun v hv => hxs v (List.mem_cons_of_mem x hv))) ?_
      intro _ _
      exact HOk_pure trivial

theorem HOk_regenBodyH {base : Nat} {root m : HVal} (hr : SafeV base root)
    (hm : SafeV base m) :
    HOk base (fun _ => True) (regenBodyH root m) := by
  unfold regenBodyH
  by_cases hmt : m.truthyH = true
  · rw [if_neg (by simp [hmt])]
    refine HOk_bind (HOk_readPropH hm "bpm") ?_
    intro bpmv hbpmv
    refine HOk_bind (HOk_jsOrH hbpmv (HOk_pure (fun a h => by cases h))) ?_
    intro bpm hbpm
    refine HOk_bind (HOk_toNumH hbpm) ?_
    intro bpmN _
    refine HOk_bind (HOk_readPropH hm "duration") ?_
    intro durv hdurv
    refine HOk_bind (HOk_toNumUH hdurv) ?_
    intro durN _
    cases regenLoop durN (nDiv (some 60) bpmN) with
    | ok beats =>
        refine HOk_bind (HOk_allocNode ?_) ?_
        · intro v hv
          obtain ⟨q, _, rfl⟩ := List.mem_map.mp hv
          intro a2 h2
          cases h2
        · intro a2 ha2
          exact HOk_setPropH hr (fun a3 h => by cases h; exact ha2) "beats"
    | error e => exact HOk_throw _ _
  · rw [if_pos (by simp [hmt])]
    exact HOk_pure trivial

theorem HOk_regenerateBeatsH {base : Nat} {root : HVal} (hr : SafeV base root) :
    HOk base (fun _ => True) (regenerateBeatsH root) := by
  unfold regenerateBeatsH
  by_cases hc : root.truthyH = true
  · rw [if_neg (by simp [hc])]
    refine HOk_bind (HOk_readPropH hr "meta") ?_
    intro mo hmo
    cases mo with
    | none => exact HOk_pure trivial
    | some m => exact HOk_regenBodyH hr (hmo m rfl)
  · rw [if_pos (by simp [hc])]
    exact HOk_pure trivial

theorem HOk_normBeatsExistingH {base : Nat} {root : HVal} {a : Nat}
    (hr : SafeV base root) (ha : base ≤ a) :
    HOk base (fun _ => True) (normBeatsExistingH root a) := by
  refine HOk_bind (HOk_readPropH hr "meta") ?_
  intro mo hmo
  cases mo with
  | none => exact HOk_throw _ _
  | some m =>
      have hms := hmo m rfl
      refine HOk_bind (HOk_readPropH hms "bpm") ?_
      intro bpmv hbpmv
      refine HOk_bind (HOk_toNumUH hbpmv) ?_
      intro bpmN _
      refine HOk_bind (HOk_readPropH hms "duration") ?_
      intro durv hdurv
      refine HOk_bind (HOk_toNumUH hdurv) ?_
      intro dN _
      refine HOk_bind (HOk_getCell ha) ?_
      intro n hn
      cases n with
      | nobj _ => exact HOk_throw _ _
      | narr xs =>
          refine HOk_bind (HOk_mapBeatsH hn) ?_
          intro valsN _
          cases beatsCompute dN (nDiv (some 60) bpmN) valsN with
          | ok allBeats =>
              refine HOk_bind (HOk_allocNode ?_) ?_
              · intro v hv
                obtain ⟨q, _, rfl⟩ := List.mem_map.mp hv
                intro a2 h2
                cases h2
              · intro b hb
                exact HOk_setPropH hr (fun a3 h => by cases h; exact hb) "beats"
          | error e => exact HOk_throw _ _

theorem HOk_beatsFixH {base : Nat} {root : HVal} (hr : SafeV base root) :
    HOk base (fun _ => True) (beatsFixH root) := by
  refine HOk_bind (HOk_readPropH hr "beats") ?_
  intro bv hbv
  cases bv with
  | none => exact HOk_regenerateBeatsH hr
  | some v =>
      cases v with
      | hnull => exact HOk_regenerateBeatsH hr
      | hbool b => exact HOk_regenerateBeatsH hr
      | hnum q => exact HOk_regenerateBeatsH hr
      | hnan => exact HOk_regenerateBeatsH hr
      | hstr s2 => exact HOk_regenerateBeatsH hr
      | href a =>
          have ha : base ≤ a := hbv _ rfl a rfl
          refine HOk_bind (HOk_getCell ha) ?_
          intro n _
          cases n with
          | nobj _ => exact HOk_regenerateBeatsH hr
          | narr xs =>
              show HOk base (fun _ => True)
                (if xs.length = 0 then regenerateBeatsH root
                  else normBeatsExistingH root a)
              by_cases hz : xs.length = 0
              · rw [if_pos hz]
                exact HOk_regenerateBeatsH hr
              · rw [if_neg hz]
                exact HOk_normBeatsExistingH hr ha

theorem HOk_normalizeSceneBodyH {base : Nat} {root : HVal} (hr : SafeV base root) :
    HOk base (fun _ => True) (normalizeSceneBodyH root) := by
  refine HOk_bind (HOk_metaFixH hr) ?_
  intro _ _
  refine HOk_bind (HOk_setMetaAssignH hr (fun a h => by cases h) "duration") ?_
  intro _ _
  refine HOk_bind (HOk_setMetaDefaultH hr (HOk_pure (fun a h => by cases h)) "bpm") ?_
  intro _ _
  refine HOk_bind (HOk_setMetaDefaultH hr (HOk_pure (fun a h => by cases h)) "seed") ?_
  intro _ _
  refine HOk_bind (HOk_shotsFixH hr) ?_
  intro _ _
  refine HOk_bind (HOk_shotsPipelineH hr) ?_
  intro _ _
  exact HOk_beatsFixH hr

theorem HOk_copyOrMinimalH {base : Nat} (dv : HVal) :
    HOk base (SafeV base) (copyOrMinimalH dv) := by
  unfold copyOrMinimalH
  by_cases hc : dv.truthyH = true
  · rw [if_pos hc]
    refine HOk_bind (HOk_stringifyH dv) ?_
    intro j _
    exact HOk_allocJvM j
  · rw [if_neg hc]
    exact HOk_allocJvM createMinimalScene

theorem HOk_normalizeSceneDataH {base : Nat} (dv : HVal) :
    HOk base (fun _ => True) (normalizeSceneDataH dv) := by
  refine HOk_bind (HOk_copyOrMinimalH dv) ?_
  intro root hroot
  refine HOk_bind (HOk_normalizeSceneBodyH hroot) ?_
  intro _ _
  exact HOk_pure trivial

mutual
theorem readJv_agree (H0 H2 : Heap) (hag : agreeBelow H0.length H0 H2)
    (fuel : Nat) (v : HVal) (j : Jv) (h : readJv fuel H0 v = some j) :
    readJv fuel H2 v = some j := by
  cases fuel with
  | zero => exact absurd h (by simp [readJv])
  | succ f =>
      cases v with
      | hnull =>
          simp only [readJv] at h ⊢
          exact h
      | hbool b =>
          simp only [readJv] at h ⊢
          exact h
      | hnum q =>
          simp only [readJv] at h ⊢
          exact h
      | hnan =>
          simp only [readJv] at h ⊢
          exact h
      | hstr s2 =>
          simp only [readJv] at h ⊢
          exact h
      | href a =>
          simp only [readJv] at h ⊢
          cases hg : H0.get? a with
          | none =>
              rw [hg] at h
              simp at h
          | some n =>
              obtain ⟨hlt, _⟩ := List.get?_eq_some.mp hg
              rw [(hag a hlt).trans hg]
              rw [hg] at h
              cases n with
              | narr xs =>
                  replace h : (readJvList f H0 xs).map Jv.arr = some j := h
                  obtain ⟨js, hjs, hj⟩ := Option.map_eq_some'.mp h
                  show (readJvList f H2 xs).map Jv.arr = some j
                  rw [readJvList_agree H0 H2 hag f xs js hjs]
                  simp [hj]
              | nobj fs =>
                  replace h : (readJvFields f H0 fs).map Jv.obj = some j := h
                  obtain ⟨js, hjs, hj⟩ := Option.map_eq_some'.mp h
                  show (readJvFields f H2 fs).map Jv.obj = some j
                  rw [readJvFields_agree H0 H2 hag f fs js hjs]
                  simp [hj]
termination_by (fuel, 0)

theorem readJvList_agree (H0 H2 : Heap) (hag : agreeBelow H0.length H0 H2)
    (fuel : Nat) (xs : List HVal) (js : List Jv)
    (h : readJvList fuel H0 xs = some js) : readJvList fuel H2 xs = some js := by
  cases xs with
  | nil =>
      simp only [readJvList] at h ⊢
      exact h
  | cons x rest =>
      simp only [readJvList] at h ⊢
      cases hx : readJv fuel H0 x with
      | none =>
          rw [hx] at h
          simp at h
      | some j1 =>
          cases hrest : readJvList fuel H0 rest with
          | none =>
              rw [hx, hrest] at h
              simp at h
          | some js1 =>
              rw [hx, hrest] at h
              replace h : some (j1 :: js1) = some js := h
              rw [readJv_agree H0 H2 hag fuel x j1 hx,
                readJvList_agree H0 H2 hag fuel rest js1 hrest]
              exact h
termination_by (fuel, xs.length + 1)

theorem readJvFields_agree (H0 H2 : Heap) (hag : agreeBelow H0.length H0 H2)
    (fuel : Nat) (fs : List (String × HVal)) (js : List (String × Jv))
    (h : readJvFields fuel H0 fs = some js) : readJvFields fuel H2 fs = some js := by
  cases fs with
  | nil =>
      simp only [readJvFields] at h ⊢
      exact h
  | cons p rest =>
      obtain ⟨k, x⟩ := p
      simp only [readJvFields] at h ⊢
      cases hx : readJv fuel H0 x with
      | none =>
          rw [hx] at h
          simp at h
      | some j1 =>
          cases hrest : readJvFields fuel H0 rest with
          | none =>
              rw [hx, hrest] at h
              simp at h
          | some js1 =>
              rw [hx, hrest] at h
              replace h : some ((k, j1) :: js1) = some js := h
              rw [readJv_agree H0 H2 hag fuel x j1 hx,
                readJvFields_agree H0 H2 hag fuel rest js1 hrest]
              exact h
termination_by (fuel, fs.length + 1)
end

/-- Every run of the heap-model `normalizeSceneData` — returning or
throwing — leaves every pre-existing heap cell unchanged. -/
theorem normalizeH_frame (dv : HVal) (H : Heap) :
    agreeBelow H.length H (stateAfter (normalizeSceneDataH dv) H) := by
  have hInv : InvH H.length H := by
    refine ⟨Nat.le_refl _, ?_⟩
    intro a n ha hg
    rw [List.get?_eq_none.mpr ha] at hg
    cases hg
  obtain ⟨hag, _, _⟩ := HOk_normalizeSceneDataH dv H hInv
  exact hag

/-- **C10.**  `normalizeSceneData` never mutates its argument: on the heap
model, an input value that reads back as the pure JSON value `j` before the
call still reads back as exactly `j` after it, whether the call returns or
throws — the deep copy allocates only fresh cells and every later write of
the pipeline lands at or above that allocation watermark, while the
argument's cells lie strictly below it. -/
theorem c10_no_input_mutation (H : Heap) (dv : HVal) (fuel : Nat) (j : Jv)
    (hread : readJv fuel H dv = some j) :
    readJv fuel (stateAfter (normalizeSceneDataH dv) H) dv = some j :=
  readJv_agree H (stateAfter (normalizeSceneDataH dv) H)
    (normalizeH_frame dv H) fuel dv j hread

/-- Witness for C10: a one-cell heap holding the empty object; it reads back
unchanged after the (throwing or returning) normalization run. -/
theorem c10_no_input_mutation_witness :
    readJv 2 [Node.nobj []] (.href 0) = some (Jv.obj []) ∧
      readJv 2 (stateAfter (normalizeSceneDataH (.href 0)) [Node.nobj []])
        (.href 0) = some (Jv.obj []) :=
  ⟨by simp [readJv, readJvFields, List.get?],
    c10_no_input_mutation [Node.nobj []] (.href 0) 2 (Jv.obj [])
      (by simp [readJv, readJvFields, List.get?])⟩

end DroneClip
